import Mathlib

/-!
oklab: Oklab / Oklch colours and their conversion to packed RGBA.

A shallow embedding of the file oklab.go (package oklab), in two number models.

Exact model.  The type float64 of Go is modelled by F64: the IEEE special values NaN, +Inf,
-Inf, and the finite values, which are taken to be exact real numbers.  Arithmetic, comparisons
and the math functions follow IEEE 754 and the documented special cases of package math on the
special values; on finite values they are the exact real operations.  Rounding, overflow of
finite results and the sign of zero are therefore not represented.  This model serves the
properties of the real functions that the code computes: the inverse pairs of transforms, the
round trip through the 8-bit channels, whose margin is far above the rounding errors, and the
transfer functions.

Binary64 model.  The type float64 is modelled by b64.F: sign, 53-bit significand and exponent,
with signed zeros, subnormal numbers, infinities and NaN.  Every arithmetic operation rounds
its exact result once, to nearest, ties to even, and overflows to an infinity; no two
operations are fused.  The functions of package math are not part of package oklab: in this
model they are a parameter, a value of b64.Lib, and a theorem that holds for every such value
holds whatever package math computes.  The properties of package math that a statement rests
on are spelled out as b64.Lib.AsGo.  This model serves the properties that rounding, the sign
of zero or overflow decide, and it is computable, so a statement about a given input is
settled by evaluation.

The uint32 values are natural numbers.  The conversion uint32(x) of a float64 truncates
toward zero when the truncated value fits in 32 bits; for every other operand (NaN, an
infinity, a value out of range) the Go specification leaves the result to the implementation,
so the conversion takes that choice as a parameter.
-/

noncomputable section

namespace oklab

/-! ## float64 -/

/-- The values of Go's `float64`: not-a-number, the two infinities, and the finite values. -/
inductive F64 where
  | nan : F64
  | pinf : F64
  | ninf : F64
  | fin (x : ℝ) : F64

namespace F64

/-- Unary minus. -/
def neg : F64 → F64
  | nan => nan
  | pinf => ninf
  | ninf => pinf
  | fin x => fin (-x)

/-- IEEE addition: `Inf + -Inf` is NaN. -/
def add : F64 → F64 → F64
  | nan, _ => nan
  | _, nan => nan
  | pinf, ninf => nan
  | ninf, pinf => nan
  | pinf, _ => pinf
  | _, pinf => pinf
  | ninf, _ => ninf
  | _, ninf => ninf
  | fin x, fin y => fin (x + y)

/-- The product of an infinity (`+Inf` when `pos`, else `-Inf`) and the finite value `x`:
NaN when `x = 0`, otherwise the infinity whose sign is the product of the signs. -/
def infTimes (pos : Bool) (x : ℝ) : F64 :=
  if x = 0 then nan
  else if 0 < x then (if pos then pinf else ninf)
  else (if pos then ninf else pinf)

/-- IEEE multiplication: `0 * Inf` is NaN. -/
def mul : F64 → F64 → F64
  | nan, _ => nan
  | _, nan => nan
  | pinf, pinf => pinf
  | pinf, ninf => ninf
  | ninf, pinf => ninf
  | ninf, ninf => pinf
  | pinf, fin y => infTimes true y
  | ninf, fin y => infTimes false y
  | fin x, pinf => infTimes true x
  | fin x, ninf => infTimes false x
  | fin x, fin y => fin (x * y)

/-- IEEE division: `0 / 0` and `Inf / Inf` are NaN, `x / 0` is an infinity with the sign
of `x` (the divisor zero is the positive one), a finite value over an infinity is zero. -/
def div : F64 → F64 → F64
  | nan, _ => nan
  | _, nan => nan
  | pinf, fin y => if 0 ≤ y then pinf else ninf
  | ninf, fin y => if 0 ≤ y then ninf else pinf
  | pinf, _ => nan
  | ninf, _ => nan
  | fin _, pinf => fin 0
  | fin _, ninf => fin 0
  | fin x, fin y =>
    if y = 0 then (if x = 0 then nan else if 0 < x then pinf else ninf) else fin (x / y)

instance : Neg F64 := ⟨neg⟩
instance : Add F64 := ⟨add⟩
instance : Sub F64 := ⟨fun a b => add a (neg b)⟩
instance : Mul F64 := ⟨mul⟩
instance : Div F64 := ⟨div⟩

/-- The comparison `a < b`: false as soon as an operand is NaN. -/
def lt : F64 → F64 → Prop
  | nan, _ => False
  | _, nan => False
  | _, ninf => False
  | pinf, _ => False
  | ninf, _ => True
  | fin _, pinf => True
  | fin x, fin y => x < y

/-- The comparison `a <= b`: false as soon as an operand is NaN. -/
def le : F64 → F64 → Prop
  | nan, _ => False
  | _, nan => False
  | ninf, _ => True
  | _, pinf => True
  | pinf, _ => False
  | fin _, ninf => False
  | fin x, fin y => x ≤ y

/-- The comparison `a == b`: NaN is equal to nothing, itself included. -/
def feq : F64 → F64 → Prop
  | nan, _ => False
  | _, nan => False
  | a, b => a = b

instance : LT F64 := ⟨lt⟩
instance : LE F64 := ⟨le⟩
instance (a b : F64) : Decidable (a < b) := Classical.propDecidable _
instance (a b : F64) : Decidable (a ≤ b) := Classical.propDecidable _
instance (a b : F64) : Decidable (feq a b) := Classical.propDecidable _

/-- The test `math.IsNaN`. -/
def IsNaN : F64 → Prop
  | nan => True
  | _ => False

instance (a : F64) : Decidable (IsNaN a) := Classical.propDecidable _

/-- The function `math.NaN`. -/
def NaN : F64 := nan

/-- The conversion `float64(n)` of a `uint32`, which is exact. -/
def ofUint32 (n : ℕ) : F64 := fin (n : ℝ)

/-- The conversion `uint32(x)`.  When the operand, truncated toward zero, fits in 32 bits the
result is that integer.  Otherwise the result is implementation-dependent: it is the 32-bit
value `impl x` chosen by the implementation. -/
def toUint32 (impl : F64 → ℕ) : F64 → ℕ
  | fin x => if -1 < x ∧ x < 4294967296 then ⌊x⌋₊ else impl (fin x) % 4294967296
  | a => impl a % 4294967296

/-- The real cube root. -/
def realCbrt (x : ℝ) : ℝ :=
  if 0 ≤ x then x ^ ((1 : ℝ) / 3) else -((-x) ^ ((1 : ℝ) / 3))

/-- The function `math.Cbrt`: `Cbrt(±Inf) = ±Inf`, `Cbrt(NaN) = NaN`. -/
def Cbrt : F64 → F64
  | nan => nan
  | pinf => pinf
  | ninf => ninf
  | fin x => fin (realCbrt x)

/-- Whether the real `y` is an odd integer. -/
def IsOddInt (y : ℝ) : Prop := ∃ k : ℤ, y = 2 * (k : ℝ) + 1

/-- Whether the real `y` is an integer. -/
def IsInt (y : ℝ) : Prop := ∃ k : ℤ, y = (k : ℝ)

instance (y : ℝ) : Decidable (IsOddInt y) := Classical.propDecidable _
instance (y : ℝ) : Decidable (IsInt y) := Classical.propDecidable _

/-- The function `math.Pow(x, y)` for a finite exponent `y` (both call sites pass a constant):
`Pow(x, 0) = 1`, `Pow(NaN, y) = NaN`, `Pow(+Inf, y)` is `+Inf` for `y > 0` and `0` for `y < 0`,
`Pow(-Inf, y) = Pow(-0, -y)`, `Pow(0, y)` is an infinity for `y < 0`, and `Pow(x, y) = NaN`
for finite `x < 0` and non-integer `y`. -/
def Pow (x : F64) (y : ℝ) : F64 :=
  if y = 0 then fin 1 else
  match x with
  | nan => nan
  | pinf => if 0 < y then pinf else fin 0
  | ninf => if 0 < y then (if IsOddInt y then ninf else pinf) else fin 0
  | fin x =>
    if x = 0 ∧ y < 0 then pinf
    else if x < 0 ∧ ¬ IsInt y then nan
    else fin (x ^ y)

/-- The function `math.Hypot(p, q)`: `+Inf` when an argument is infinite, otherwise NaN when an
argument is NaN, otherwise `sqrt(p*p + q*q)`. -/
def Hypot : F64 → F64 → F64
  | pinf, _ => pinf
  | ninf, _ => pinf
  | _, pinf => pinf
  | _, ninf => pinf
  | nan, _ => nan
  | _, nan => nan
  | fin p, fin q => fin (Real.sqrt (p * p + q * q))

/-- The function `math.Atan2(y, x)`: the angle of the point `(x, y)`, in `(-π, π]`, with the
special cases of package `math` on NaN and the infinities. -/
def Atan2 : F64 → F64 → F64
  | nan, _ => nan
  | _, nan => nan
  | pinf, pinf => fin (Real.pi / 4)
  | ninf, pinf => fin (-(Real.pi / 4))
  | pinf, ninf => fin (3 * Real.pi / 4)
  | ninf, ninf => fin (-(3 * Real.pi / 4))
  | fin _, pinf => fin 0
  | fin y, ninf => if 0 ≤ y then fin Real.pi else fin (-Real.pi)
  | pinf, fin _ => fin (Real.pi / 2)
  | ninf, fin _ => fin (-(Real.pi / 2))
  | fin y, fin x => fin (Complex.arg ⟨x, y⟩)

/-- The function `math.Cos`: NaN on NaN and on the infinities. -/
def Cos : F64 → F64
  | fin x => fin (Real.cos x)
  | _ => nan

/-- The function `math.Sin`: NaN on NaN and on the infinities. -/
def Sin : F64 → F64
  | fin x => fin (Real.sin x)
  | _ => nan

end F64

section Exact

open F64

/-! ## The colour types -/

/-- Oklab is a color in the Oklab color space. -/
structure Oklab where
  L : F64
  A : F64
  B : F64
  Alpha : F64

/-- Oklch is a color in the Oklch color space. -/
structure Oklch where
  H : F64
  C : F64
  L : F64
  Alpha : F64

/-- A value of the interface `color.Color`, by dynamic type: an `Oklab`, an `Oklch`, or any
other colour, of which only the four `uint32` results of its `RGBA()` method are used. -/
inductive Color where
  | oklab (c : Oklab)
  | oklch (c : Oklch)
  | other (r32 g32 b32 a32 : ℕ)

/-! ## The transfer functions -/

/-- The function `toNonLinear`. -/
def toNonLinear (x : F64) : F64 :=
  if fin 0.0031308 ≤ x then
    fin 1.055 * Pow x (1.0 / 2.4) - fin 0.055
  else
    fin 12.92 * x

/-- The function `toLinear`. -/
def toLinear (x : F64) : F64 :=
  if fin 0.04045 ≤ x then
    Pow ((x + fin 0.055) / fin (1 + 0.055)) 2.4
  else
    x / fin 12.92

/-! ## Oklab -/

/-- The two statements `if x < 0 { x = 0 }` and `if x > 1 { x = 1 }` that `Oklab.RGBA` applies
to each of `r`, `g`, `b` and `a`. -/
def clamp01 (x : F64) : F64 :=
  let x := if x < fin 0 then fin 0 else x
  if fin 1 < x then fin 1 else x

/-- The gamma-encoded, unclamped channels `r`, `g`, `b` computed by `Oklab.RGBA`. -/
def Oklab.nonLinearRGB (c : Oklab) : F64 × F64 × F64 :=
  let l_ := c.L + fin 0.3963377774 * c.A + fin 0.2158037573 * c.B
  let m_ := c.L - fin 0.1055613458 * c.A - fin 0.0638541728 * c.B
  let s_ := c.L - fin 0.0894841775 * c.A - fin 1.2914855480 * c.B
  let l := l_ * l_ * l_
  let m := m_ * m_ * m_
  let s := s_ * s_ * s_
  let r_ := fin 4.0767416621 * l - fin 3.3077115913 * m + fin 0.2309699292 * s
  let g_ := fin (-1.2684380046) * l + fin 2.6097574011 * m - fin 0.3413193965 * s
  let b_ := fin (-0.0041960863) * l - fin 0.7034186147 * m + fin 1.7076147010 * s
  (toNonLinear r_, toNonLinear g_, toNonLinear b_)

/-- The method `Oklab.RGBA`; `impl` is the implementation's choice for `uint32(x)` on the
operands the language does not define. -/
def Oklab.RGBA (impl : F64 → ℕ) (c : Oklab) : ℕ × ℕ × ℕ × ℕ :=
  let r := clamp01 c.nonLinearRGB.1
  let g := clamp01 c.nonLinearRGB.2.1
  let b := clamp01 c.nonLinearRGB.2.2
  let a := clamp01 c.Alpha
  (toUint32 impl (a * r * fin 65535), toUint32 impl (a * g * fin 65535),
    toUint32 impl (a * b * fin 65535), toUint32 impl (a * fin 65535))

/-- The method `Oklab.oklch`. -/
def Oklab.oklch (c : Oklab) : Oklch :=
  if feq c.A (fin 0) ∧ feq c.B (fin 0) then
    { L := c.L, C := fin 0, H := NaN, Alpha := c.Alpha }
  else
    { L := c.L, C := Hypot c.A c.B, H := Atan2 c.B c.A, Alpha := c.Alpha }

/-! ## Oklch -/

/-- The method `Oklch.oklab`. -/
def Oklch.oklab (c : Oklch) : Oklab :=
  if IsNaN c.H then
    { L := c.L, A := fin 0, B := fin 0, Alpha := c.Alpha }
  else
    { L := c.L, A := c.C * Cos c.H, B := c.C * Sin c.H, Alpha := c.Alpha }

/-- The method `Oklch.RGBA`. -/
def Oklch.RGBA (impl : F64 → ℕ) (c : Oklch) : ℕ × ℕ × ℕ × ℕ :=
  c.oklab.RGBA impl

/-! ## The colour models -/

/-- The function `oklabModelFunc`.  Every path returns a value of dynamic type `Oklab`, which
is the result type here. -/
def oklabModelFunc : Color → Oklab
  | .oklab c => c
  | .oklch c => c.oklab
  | .other r32 g32 b32 a32 =>
    let r := toLinear (ofUint32 r32 / ofUint32 a32)
    let g := toLinear (ofUint32 g32 / ofUint32 a32)
    let b := toLinear (ofUint32 b32 / ofUint32 a32)
    let l := fin 0.4122214708 * r + fin 0.5363325363 * g + fin 0.0514459929 * b
    let m := fin 0.2119034982 * r + fin 0.6806995451 * g + fin 0.1073969566 * b
    let s := fin 0.0883024619 * r + fin 0.2817188376 * g + fin 0.6299787005 * b
    let l_ := Cbrt l
    let m_ := Cbrt m
    let s_ := Cbrt s
    { L := fin 0.2104542553 * l_ + fin 0.7936177850 * m_ - fin 0.0040720468 * s_,
      A := fin 1.9779984951 * l_ - fin 2.4285922050 * m_ + fin 0.4505937099 * s_,
      B := fin 0.0259040371 * l_ + fin 0.7827717662 * m_ - fin 0.8086757660 * s_,
      Alpha := ofUint32 a32 / fin 65535 }

/-- The function `oklchModelFunc`.  The type assertion on the result of `oklabModelFunc`
always succeeds. -/
def oklchModelFunc : Color → Oklch
  | .oklch c => c
  | clr => (oklabModelFunc clr).oklch

/-- The method `Convert` of `OklabModel`, which is `color.ModelFunc(oklabModelFunc)`. -/
def OklabModel.Convert (clr : Color) : Color := .oklab (oklabModelFunc clr)

/-- The method `Convert` of `OklchModel`, which is `color.ModelFunc(oklchModelFunc)`. -/
def OklchModel.Convert (clr : Color) : Color := .oklch (oklchModelFunc clr)

/-- The method `RGBA` of a `color.Color`, dispatched on the dynamic type. -/
def Color.RGBA (impl : F64 → ℕ) : Color → ℕ × ℕ × ℕ × ℕ
  | .oklab c => c.RGBA impl
  | .oklch c => c.RGBA impl
  | .other r32 g32 b32 a32 => (r32, g32, b32, a32)

/-! ## The standard 8-bit colour of package `image/color`, as the test uses it -/

/-- The method `RGBA` of `color.RGBA{R, G, B, A}`: each 8-bit channel `v` becomes
`v | v << 8`, that is `257 * v`. -/
def rgba8 (R G B A : ℕ) : Color :=
  .other (R * 257) (G * 257) (B * 257) (A * 257)

/-- The conversion `color.RGBAModel.Convert` of a colour that is not a `color.RGBA`: each
channel of `RGBA()` is shifted right by 8 and converted to `uint8`. -/
def rgbaModel (impl : F64 → ℕ) (c : Color) : ℕ × ℕ × ℕ × ℕ :=
  let p := c.RGBA impl
  ((p.1 >>> 8) % 256, (p.2.1 >>> 8) % 256, (p.2.2.1 >>> 8) % 256, (p.2.2.2 >>> 8) % 256)

/-! ## The real functions computed on finite values -/

/-- The real function computed by `toNonLinear` on finite values. -/
def toNonLinearR (x : ℝ) : ℝ :=
  if 0.0031308 ≤ x then 1.055 * x ^ ((1.0 : ℝ) / 2.4) - 0.055 else 12.92 * x

/-- The real function computed by `toLinear` on finite values. -/
def toLinearR (x : ℝ) : ℝ :=
  if 0.04045 ≤ x then ((x + 0.055) / (1 + 0.055)) ^ (2.4 : ℝ) else x / 12.92

/-- The real function computed by `clamp01` on finite values. -/
def clamp01R (x : ℝ) : ℝ :=
  if x < 0 then 0 else if 1 < x then 1 else x

/-- The real function computed on finite linear `r`, `g`, `b` by the last part of
`oklabModelFunc`: the fields `L`, `A`, `B` of the result. -/
def linearToLab (r g b : ℝ) : ℝ × ℝ × ℝ :=
  let l := 0.4122214708 * r + 0.5363325363 * g + 0.0514459929 * b
  let m := 0.2119034982 * r + 0.6806995451 * g + 0.1073969566 * b
  let s := 0.0883024619 * r + 0.2817188376 * g + 0.6299787005 * b
  let l_ := realCbrt l
  let m_ := realCbrt m
  let s_ := realCbrt s
  (0.2104542553 * l_ + 0.7936177850 * m_ - 0.0040720468 * s_,
    1.9779984951 * l_ - 2.4285922050 * m_ + 0.4505937099 * s_,
    0.0259040371 * l_ + 0.7827717662 * m_ - 0.8086757660 * s_)

/-- The real function computed on finite `L`, `A`, `B` by the first part of `Oklab.RGBA`:
the linear channels `r_`, `g_`, `b_`. -/
def labToLinear (L A B : ℝ) : ℝ × ℝ × ℝ :=
  let l_ := L + 0.3963377774 * A + 0.2158037573 * B
  let m_ := L - 0.1055613458 * A - 0.0638541728 * B
  let s_ := L - 0.0894841775 * A - 1.2914855480 * B
  let l := l_ * l_ * l_
  let m := m_ * m_ * m_
  let s := s_ * s_ * s_
  (4.0767416621 * l - 3.3077115913 * m + 0.2309699292 * s,
    -1.2684380046 * l + 2.6097574011 * m - 0.3413193965 * s,
    -0.0041960863 * l - 0.7034186147 * m + 1.7076147010 * s)

/-- The un-premultiplied, linearised channels `r`, `g`, `b` that `oklabModelFunc` computes
from the packed channels of a colour that is neither Oklab nor Oklch. -/
def linearOf (r32 g32 b32 a32 : ℕ) : F64 × F64 × F64 :=
  (toLinear (ofUint32 r32 / ofUint32 a32), toLinear (ofUint32 g32 / ofUint32 a32),
    toLinear (ofUint32 b32 / ofUint32 a32))

/-- The values `l`, `m`, `s` that `oklabModelFunc` passes to `math.Cbrt`. -/
def lmsOf (r32 g32 b32 a32 : ℕ) : F64 × F64 × F64 :=
  let r := (linearOf r32 g32 b32 a32).1
  let g := (linearOf r32 g32 b32 a32).2.1
  let b := (linearOf r32 g32 b32 a32).2.2
  (fin 0.4122214708 * r + fin 0.5363325363 * g + fin 0.0514459929 * b,
    fin 0.2119034982 * r + fin 0.6806995451 * g + fin 0.1073969566 * b,
    fin 0.0883024619 * r + fin 0.2817188376 * g + fin 0.6299787005 * b)

/-! ## binary64

The second number model keeps the rounding.  A finite `float64` is a sign, a significand
`m < 2^53` and an exponent field `s < 2046`; its magnitude is `m * 2^s` in units of `2^-1074`,
the smallest positive `float64`, so that every value of the type is a `float64` and every
`float64` is a value of the type.  Every operation computes the exact result as a fraction
of natural numbers and rounds it once, to nearest, ties to even, with overflow to an
infinity; the zeros are signed.  All of it is computable on natural numbers. -/

namespace b64

set_option exponentiation.threshold 8192

/-- The values of Go's `float64`: NaN, the two infinities, and the finite values
`(-1)^neg * m * 2^s * 2^-1074`. -/
inductive F where
  | nan : F
  | inf (neg : Bool) : F
  | fin (neg : Bool) (m : Fin 9007199254740992) (s : Fin 2046) : F
  deriving DecidableEq

/-- The integer part of the binary logarithm by bisection: the greatest `e` in
`[lo, lo + 2^fuel)` with `2^e <= n`, when `2^lo <= n`. -/
def log2Bis : ℕ → ℕ → ℕ → ℕ
  | 0, lo, _ => lo
  | fuel + 1, lo, n =>
    if 2 ^ (lo + 2 ^ fuel) ≤ n then log2Bis fuel (lo + 2 ^ fuel) n else log2Bis fuel lo n

/-- The integer part of the binary logarithm of `n`, for `1 <= n < 2^4096`; 0 at 0. -/
def ilog2 (n : ℕ) : ℕ := log2Bis 12 0 n

/-- The integer nearest to `n / den`, ties to the even one. -/
def rne (n den : ℕ) : ℕ :=
  if 2 * (n % den) < den then n / den
  else if den < 2 * (n % den) then n / den + 1
  else if n / den % 2 = 0 then n / den
  else n / den + 1

/-- The exponent field of the rounding of `n / d` units: the binary exponent of the quotient
less the 52 fraction bits, and 0 in the subnormal range. -/
def quantum (n d : ℕ) : ℕ := ilog2 (n / d) - 52

/-- The magnitude `n / d` units rounded to 53 significant bits, to nearest, ties to even,
before the test for overflow. -/
def roundU (n d : ℕ) : ℕ := rne n (d * 2 ^ quantum n d) * 2 ^ quantum n d

namespace F

/-- The finite value with significand `m` and exponent field `s`, or the infinity when the
exponent field is out of range. -/
def pack (neg : Bool) (m s : ℕ) : F :=
  if 2045 < s then inf neg
  else
    fin neg ⟨m % 9007199254740992, Nat.mod_lt _ (by decide)⟩
      ⟨s % 2046, Nat.mod_lt _ (by decide)⟩

/-- The `float64` nearest to `(-1)^neg * (n / d) * 2^-1074`, ties to even; an infinity on
overflow. -/
def round (neg : Bool) (n d : ℕ) : F :=
  if rne n (d * 2 ^ quantum n d) = 9007199254740992 then
    pack neg 4503599627370496 (quantum n d + 1)
  else pack neg (rne n (d * 2 ^ quantum n d)) (quantum n d)

/-- The magnitude of a finite value in units of `2^-1074`; 0 on NaN and the infinities. -/
def units : F → ℕ
  | fin _ m s => m.val * 2 ^ s.val
  | _ => 0

/-- The sign bit; false on NaN. -/
def sign : F → Bool
  | fin neg _ _ => neg
  | inf neg => neg
  | nan => false

/-- The decimal constant `n / 10^j`, converted to `float64`. -/
def lit (n j : ℕ) : F := round false (n * 2 ^ 1074) (10 ^ j)

/-- The conversion `float64(n)` of a `uint32`, which is exact. -/
def ofUint32 (n : ℕ) : F :=
  fin false ⟨n % 9007199254740992, Nat.mod_lt _ (by decide)⟩ ⟨1074, by decide⟩

/-- Unary minus. -/
def neg : F → F
  | nan => nan
  | inf n => inf (!n)
  | fin n m s => fin (!n) m s

/-- IEEE addition. -/
def add : F → F → F
  | nan, _ => nan
  | _, nan => nan
  | inf a, inf b => if a = b then inf a else nan
  | inf a, fin _ _ _ => inf a
  | fin _ _ _, inf b => inf b
  | fin a m s, fin b m' s' =>
    if a = b then round a (m.val * 2 ^ s.val + m'.val * 2 ^ s'.val) 1
    else if m'.val * 2 ^ s'.val < m.val * 2 ^ s.val then
      round a (m.val * 2 ^ s.val - m'.val * 2 ^ s'.val) 1
    else if m.val * 2 ^ s.val < m'.val * 2 ^ s'.val then
      round b (m'.val * 2 ^ s'.val - m.val * 2 ^ s.val) 1
    else fin false ⟨0, by decide⟩ ⟨0, by decide⟩

/-- IEEE multiplication. -/
def mul : F → F → F
  | nan, _ => nan
  | _, nan => nan
  | inf a, inf b => inf (xor a b)
  | inf a, fin b m _ => if m.val = 0 then nan else inf (xor a b)
  | fin a m _, inf b => if m.val = 0 then nan else inf (xor a b)
  | fin a m s, fin b m' s' =>
    round (xor a b) ((m.val * 2 ^ s.val) * (m'.val * 2 ^ s'.val)) (2 ^ 1074)

/-- IEEE division. -/
def div : F → F → F
  | nan, _ => nan
  | _, nan => nan
  | inf _, inf _ => nan
  | inf a, fin b _ _ => inf (xor a b)
  | fin a _ _, inf b => fin (xor a b) ⟨0, by decide⟩ ⟨0, by decide⟩
  | fin a m s, fin b m' s' =>
    if m'.val = 0 then (if m.val = 0 then nan else inf (xor a b))
    else round (xor a b) ((m.val * 2 ^ s.val) * 2 ^ 1074) (m'.val * 2 ^ s'.val)

instance : Neg F := ⟨neg⟩
instance : Add F := ⟨add⟩
instance : Sub F := ⟨fun a b => add a (neg b)⟩
instance : Mul F := ⟨mul⟩
instance : Div F := ⟨div⟩

/-- The comparison `a < b`: false as soon as an operand is NaN; the two zeros are equal. -/
def lt : F → F → Bool
  | nan, _ => false
  | _, nan => false
  | inf a, inf b => a && !b
  | inf a, fin _ _ _ => a
  | fin _ _ _, inf b => !b
  | fin a m s, fin b m' s' =>
    if a then
      if b then decide (m'.val * 2 ^ s'.val < m.val * 2 ^ s.val)
      else decide (0 < m.val ∨ 0 < m'.val)
    else
      if b then false
      else decide (m.val * 2 ^ s.val < m'.val * 2 ^ s'.val)

/-- The comparison `a == b`: NaN is equal to nothing; the two zeros are equal. -/
def feq : F → F → Bool
  | nan, _ => false
  | _, nan => false
  | inf a, inf b => a == b
  | inf _, fin _ _ _ => false
  | fin _ _ _, inf _ => false
  | fin a m s, fin b m' s' =>
    decide (m.val * 2 ^ s.val = m'.val * 2 ^ s'.val) &&
      (a == b || decide (m.val = 0))

/-- The comparison `a <= b`. -/
def le (a b : F) : Bool := lt a b || feq a b

/-- The test `math.IsNaN`. -/
def IsNaN : F → Bool
  | nan => true
  | _ => false

/-- The integer part of a finite value, when it fits in 32 bits: the fraction is discarded,
so a negative value has one only when its magnitude is below 1. -/
def trunc : F → Option ℕ
  | fin neg m s =>
    if neg then (if m.val * 2 ^ s.val / 2 ^ 1074 = 0 then some 0 else none)
    else if m.val * 2 ^ s.val / 2 ^ 1074 < 4294967296 then some (m.val * 2 ^ s.val / 2 ^ 1074)
    else none
  | _ => none

/-- The conversion `uint32(x)`.  When the operand, truncated toward zero, fits in 32 bits the
result is that integer.  Otherwise the result is implementation-dependent: it is the 32-bit
value `impl x` chosen by the implementation. -/
def toUint32 (impl : F → ℕ) (x : F) : ℕ :=
  match trunc x with
  | some n => n
  | none => impl x % 4294967296

/-- The finite values that are not negative and of magnitude at most `B` units; the negative
zero is one of them. -/
def Within (B : ℕ) (x : F) : Prop :=
  ∃ neg m s, x = fin neg m s ∧ m.val * 2 ^ s.val ≤ B ∧ (neg = true → m.val = 0)

/-- Whether the value is one of the two zeros. -/
def isZero : F → Bool
  | fin _ m _ => decide (m.val = 0)
  | _ => false

/-- Whether the value is finite. -/
def isFinite : F → Bool
  | fin _ _ _ => true
  | _ => false

/-- The absolute value. -/
def abs : F → F
  | nan => nan
  | inf _ => inf false
  | fin _ m s => fin false m s

/-- The constant `math.Pi`, converted to `float64`. -/
def Pi : F := lit 314159265358979323846264338327950288419716939937510582097494459 62

end F

/-- The functions of package `math` that the package calls.  Their code is not part of the
package; a value of this type is one implementation of them. -/
structure Lib where
  Pow : F → F → F
  Cbrt : F → F
  Hypot : F → F → F
  Atan2 : F → F → F
  Cos : F → F
  Sin : F → F

/-- The properties of package `math` that the counterexamples rest on: the documented special
cases `Atan2(+0, x<0) = +Pi` and `Atan2(-0, x<0) = -Pi`, the value `Hypot(p, 0) = |p|`, and
the values that the package returns at `math.Pi`, `Cos(Pi) = -1` and
`Sin(Pi) = 1.2246467991473515e-16`. -/
def Lib.AsGo (lib : Lib) : Prop :=
  (∀ y x : F, y.isZero = true → F.lt x (F.ofUint32 0) = true →
    lib.Atan2 y x = if y.sign then -F.Pi else F.Pi) ∧
  (∀ p q : F, p.isFinite = true → q.isZero = true → lib.Hypot p q = F.abs p) ∧
  lib.Cos F.Pi = -F.ofUint32 1 ∧
  lib.Sin F.Pi = F.lit 12246467991473515 32

/-- An implementation with the properties `Lib.AsGo`, which have it compute at the arguments
listed there what package `math` computes; at every other argument it returns NaN. -/
def pointLib : Lib where
  Pow := fun _ _ => F.nan
  Cbrt := fun _ => F.nan
  Hypot := fun p q => if p.isFinite && q.isZero then F.abs p else F.nan
  Atan2 := fun y x =>
    if y.isZero && F.lt x (F.ofUint32 0) then (if y.sign then -F.Pi else F.Pi) else F.nan
  Cos := fun h => if F.feq h F.Pi then -F.ofUint32 1 else F.nan
  Sin := fun h => if F.feq h F.Pi then F.lit 12246467991473515 32 else F.nan

/-- Oklab is a color in the Oklab color space. -/
structure Oklab where
  L : F
  A : F
  B : F
  Alpha : F

/-- Oklch is a color in the Oklch color space. -/
structure Oklch where
  H : F
  C : F
  L : F
  Alpha : F

/-- A value of the interface `color.Color`, by dynamic type. -/
inductive Color where
  | oklab (c : Oklab)
  | oklch (c : Oklch)
  | other (r32 g32 b32 a32 : ℕ)

/-- The function `toNonLinear`.  The constant `1.0/2.4` is the exact quotient `10/24`,
converted to `float64`. -/
def toNonLinear (lib : Lib) (x : F) : F :=
  if F.le (F.lit 31308 7) x then
    F.lit 1055 3 * lib.Pow x (F.round false (10 * 2 ^ 1074) 24) - F.lit 55 3
  else
    F.lit 1292 2 * x

/-- The function `toLinear`.  The constant `1+0.055` is the exact sum `1.055`, converted to
`float64`. -/
def toLinear (lib : Lib) (x : F) : F :=
  if F.le (F.lit 4045 5) x then
    lib.Pow ((x + F.lit 55 3) / F.lit 1055 3) (F.lit 24 1)
  else
    x / F.lit 1292 2

/-- The two statements `if x < 0 { x = 0 }` and `if x > 1 { x = 1 }`. -/
def clamp01 (x : F) : F :=
  let x := if F.lt x (F.ofUint32 0) then F.ofUint32 0 else x
  if F.lt (F.ofUint32 1) x then F.ofUint32 1 else x

/-- The linear channels `r_`, `g_`, `b_` computed by `Oklab.RGBA`. -/
def Oklab.linearRGB (c : Oklab) : F × F × F :=
  let l_ := c.L + F.lit 3963377774 10 * c.A + F.lit 2158037573 10 * c.B
  let m_ := c.L - F.lit 1055613458 10 * c.A - F.lit 638541728 10 * c.B
  let s_ := c.L - F.lit 894841775 10 * c.A - F.lit 12914855480 10 * c.B
  let l := l_ * l_ * l_
  let m := m_ * m_ * m_
  let s := s_ * s_ * s_
  (F.lit 40767416621 10 * l - F.lit 33077115913 10 * m + F.lit 2309699292 10 * s,
    -F.lit 12684380046 10 * l + F.lit 26097574011 10 * m - F.lit 3413193965 10 * s,
    -F.lit 41960863 10 * l - F.lit 7034186147 10 * m + F.lit 17076147010 10 * s)

/-- The gamma-encoded, unclamped channels `r`, `g`, `b` computed by `Oklab.RGBA`. -/
def Oklab.nonLinearRGB (lib : Lib) (c : Oklab) : F × F × F :=
  (toNonLinear lib c.linearRGB.1, toNonLinear lib c.linearRGB.2.1,
    toNonLinear lib c.linearRGB.2.2)

/-- The method `Oklab.RGBA`. -/
def Oklab.RGBA (lib : Lib) (impl : F → ℕ) (c : Oklab) : ℕ × ℕ × ℕ × ℕ :=
  let r := clamp01 (c.nonLinearRGB lib).1
  let g := clamp01 (c.nonLinearRGB lib).2.1
  let b := clamp01 (c.nonLinearRGB lib).2.2
  let a := clamp01 c.Alpha
  (F.toUint32 impl (a * r * F.ofUint32 65535), F.toUint32 impl (a * g * F.ofUint32 65535),
    F.toUint32 impl (a * b * F.ofUint32 65535), F.toUint32 impl (a * F.ofUint32 65535))

/-- The method `Oklab.oklch`. -/
def Oklab.oklch (lib : Lib) (c : Oklab) : Oklch :=
  if F.feq c.A (F.ofUint32 0) && F.feq c.B (F.ofUint32 0) then
    { L := c.L, C := F.ofUint32 0, H := F.nan, Alpha := c.Alpha }
  else
    { L := c.L, C := lib.Hypot c.A c.B, H := lib.Atan2 c.B c.A, Alpha := c.Alpha }

/-- The method `Oklch.oklab`. -/
def Oklch.oklab (lib : Lib) (c : Oklch) : Oklab :=
  if F.IsNaN c.H then
    { L := c.L, A := F.ofUint32 0, B := F.ofUint32 0, Alpha := c.Alpha }
  else
    { L := c.L, A := c.C * lib.Cos c.H, B := c.C * lib.Sin c.H, Alpha := c.Alpha }

/-- The method `Oklch.RGBA`. -/
def Oklch.RGBA (lib : Lib) (impl : F → ℕ) (c : Oklch) : ℕ × ℕ × ℕ × ℕ :=
  (c.oklab lib).RGBA lib impl

/-- The function `oklabModelFunc`. -/
def oklabModelFunc (lib : Lib) : Color → Oklab
  | .oklab c => c
  | .oklch c => c.oklab lib
  | .other r32 g32 b32 a32 =>
    let r := toLinear lib (F.ofUint32 r32 / F.ofUint32 a32)
    let g := toLinear lib (F.ofUint32 g32 / F.ofUint32 a32)
    let b := toLinear lib (F.ofUint32 b32 / F.ofUint32 a32)
    let l := F.lit 4122214708 10 * r + F.lit 5363325363 10 * g + F.lit 514459929 10 * b
    let m := F.lit 2119034982 10 * r + F.lit 6806995451 10 * g + F.lit 1073969566 10 * b
    let s := F.lit 883024619 10 * r + F.lit 2817188376 10 * g + F.lit 6299787005 10 * b
    let l_ := lib.Cbrt l
    let m_ := lib.Cbrt m
    let s_ := lib.Cbrt s
    { L := F.lit 2104542553 10 * l_ + F.lit 7936177850 10 * m_ - F.lit 40720468 10 * s_,
      A := F.lit 19779984951 10 * l_ - F.lit 24285922050 10 * m_ + F.lit 4505937099 10 * s_,
      B := F.lit 259040371 10 * l_ + F.lit 7827717662 10 * m_ - F.lit 8086757660 10 * s_,
      Alpha := F.ofUint32 a32 / F.ofUint32 65535 }

/-- The function `oklchModelFunc`. -/
def oklchModelFunc (lib : Lib) : Color → Oklch
  | .oklch c => c
  | clr => (oklabModelFunc lib clr).oklch lib

/-- The method `Convert` of `OklabModel`. -/
def OklabModel.Convert (lib : Lib) (clr : Color) : Color := .oklab (oklabModelFunc lib clr)

/-- The method `Convert` of `OklchModel`. -/
def OklchModel.Convert (lib : Lib) (clr : Color) : Color := .oklch (oklchModelFunc lib clr)

/-- The method `RGBA` of a `color.Color`, dispatched on the dynamic type. -/
def Color.RGBA (lib : Lib) (impl : F → ℕ) : Color → ℕ × ℕ × ℕ × ℕ
  | .oklab c => c.RGBA lib impl
  | .oklch c => c.RGBA lib impl
  | .other r32 g32 b32 a32 => (r32, g32, b32, a32)

end b64

/-! ## Arithmetic on finite values -/

namespace F64

@[simp]
theorem fin_add_fin (x y : ℝ) : fin x + fin y = fin (x + y) := rfl

@[simp]
theorem fin_sub_fin (x y : ℝ) : fin x - fin y = fin (x - y) := by
  show add (fin x) (neg (fin y)) = fin (x - y)
  simp [add, neg, sub_eq_add_neg]

@[simp]
theorem fin_mul_fin (x y : ℝ) : fin x * fin y = fin (x * y) := rfl

theorem fin_div_fin (x : ℝ) {y : ℝ} (hy : y ≠ 0) : fin x / fin y = fin (x / y) := by
  show div (fin x) (fin y) = fin (x / y)
  simp [div, hy]

@[simp]
theorem fin_lt_fin (x y : ℝ) : (fin x < fin y) ↔ x < y := Iff.rfl

@[simp]
theorem fin_le_fin (x y : ℝ) : (fin x ≤ fin y) ↔ x ≤ y := Iff.rfl

@[simp]
theorem nan_add (a : F64) : nan + a = nan := by
  show add nan a = nan
  cases a <;> rfl

@[simp]
theorem add_nan (a : F64) : a + nan = nan := by
  show add a nan = nan
  cases a <;> rfl

@[simp]
theorem nan_sub (a : F64) : nan - a = nan := by
  show add nan (neg a) = nan
  cases a <;> rfl

@[simp]
theorem sub_nan (a : F64) : a - nan = nan := by
  show add a (neg nan) = nan
  cases a <;> rfl

@[simp]
theorem nan_mul (a : F64) : nan * a = nan := by
  show mul nan a = nan
  cases a <;> rfl

@[simp]
theorem mul_nan (a : F64) : a * nan = nan := by
  show mul a nan = nan
  cases a <;> rfl

@[simp]
theorem not_nan_lt (a : F64) : ¬ (nan < a) := by
  show ¬ lt nan a
  cases a <;> simp [lt]

@[simp]
theorem not_lt_nan (a : F64) : ¬ (a < nan) := by
  show ¬ lt a nan
  cases a <;> simp [lt]

@[simp]
theorem not_nan_le (a : F64) : ¬ (nan ≤ a) := by
  show ¬ le nan a
  cases a <;> simp [le]

@[simp]
theorem not_le_nan (a : F64) : ¬ (a ≤ nan) := by
  show ¬ le a nan
  cases a <;> simp [le]

@[simp]
theorem isNaN_nan : IsNaN nan := trivial

@[simp]
theorem not_isNaN_fin (x : ℝ) : ¬ IsNaN (fin x) := fun h => h

theorem isNaN_iff (a : F64) : IsNaN a ↔ a = nan := by
  cases a <;> simp [IsNaN]

@[simp]
theorem feq_fin_fin (x y : ℝ) : feq (fin x) (fin y) ↔ x = y := by
  simp [feq]

theorem toUint32_fin (impl : F64 → ℕ) {x : ℝ} (h0 : 0 ≤ x) (h1 : x < 4294967296) :
    toUint32 impl (fin x) = ⌊x⌋₊ := by
  have : -1 < x := by linarith
  simp [toUint32, this, h1]

end F64

/-! ## The transfer functions and the clamp on finite values -/

theorem Pow_fin_of_pos {x : ℝ} (hx : 0 < x) {y : ℝ} (hy : y ≠ 0) :
    Pow (fin x) y = fin (x ^ y) := by
  have h1 : ¬ (x = 0 ∧ y < 0) := fun h => hx.ne' h.1
  have h2 : ¬ (x < 0 ∧ ¬ IsInt y) := fun h => absurd h.1 (not_lt.mpr hx.le)
  simp [F64.Pow, hy, h1, h2]

theorem toNonLinear_fin (x : ℝ) : toNonLinear (fin x) = fin (toNonLinearR x) := by
  unfold toNonLinear toNonLinearR
  by_cases h : (0.0031308 : ℝ) ≤ x
  · have hx : 0 < x := by linarith [show (0 : ℝ) < 0.0031308 by norm_num]
    have hy : ((1.0 : ℝ) / 2.4) ≠ 0 := by norm_num
    rw [if_pos ((fin_le_fin _ _).mpr h), if_pos h, Pow_fin_of_pos hx hy]
    simp
  · rw [if_neg (fun h' => h ((fin_le_fin _ _).mp h')), if_neg h]
    simp

theorem toLinear_fin (x : ℝ) : toLinear (fin x) = fin (toLinearR x) := by
  unfold toLinear toLinearR
  by_cases h : (0.04045 : ℝ) ≤ x
  · have hb : (0 : ℝ) < (x + 0.055) / (1 + 0.055) := by
      apply div_pos <;> linarith [show (0 : ℝ) < 0.04045 by norm_num]
    have hy : (2.4 : ℝ) ≠ 0 := by norm_num
    have hd : ((1 : ℝ) + 0.055) ≠ 0 := by norm_num
    rw [if_pos ((fin_le_fin _ _).mpr h), if_pos h, fin_add_fin, fin_div_fin _ hd,
      Pow_fin_of_pos hb hy]
  · have hd : (12.92 : ℝ) ≠ 0 := by norm_num
    rw [if_neg (fun h' => h ((fin_le_fin _ _).mp h')), if_neg h, fin_div_fin _ hd]

theorem clamp01_fin (x : ℝ) : clamp01 (fin x) = fin (clamp01R x) := by
  unfold clamp01 clamp01R
  by_cases h0 : x < 0
  · have : ¬ ((1 : ℝ) < 0) := by norm_num
    simp [h0, this]
  · by_cases h1 : 1 < x
    · simp [h0, h1]
    · simp [h0, h1]

theorem clamp01R_mem (x : ℝ) : 0 ≤ clamp01R x ∧ clamp01R x ≤ 1 := by
  unfold clamp01R
  split_ifs with h0 h1
  · norm_num
  · norm_num
  · exact ⟨not_lt.mp h0, not_lt.mp h1⟩

theorem clamp01_nan : clamp01 nan = nan := by
  simp [clamp01]

theorem clamp01_pinf : clamp01 pinf = fin 1 := by
  have h0 : ¬ (pinf < fin 0) := fun h => h
  have h1 : fin 1 < pinf := trivial
  simp [clamp01, h0, h1]

theorem clamp01_ninf : clamp01 ninf = fin 0 := by
  have h0 : ninf < fin 0 := trivial
  have : ¬ ((1 : ℝ) < 0) := by norm_num
  simp [clamp01, h0, this]

/-- A value that is not NaN is clamped to a finite value of the unit interval. -/
theorem clamp01_unit {x : F64} (h : ¬ IsNaN x) :
    ∃ y : ℝ, clamp01 x = fin y ∧ 0 ≤ y ∧ y ≤ 1 := by
  cases x with
  | nan => exact absurd trivial h
  | pinf => exact ⟨1, clamp01_pinf, by norm_num, le_refl _⟩
  | ninf => exact ⟨0, clamp01_ninf, le_refl _, by norm_num⟩
  | fin x => exact ⟨clamp01R x, clamp01_fin x, (clamp01R_mem x).1, (clamp01R_mem x).2⟩

/-- The packed channel of a product of unit-interval values. -/
theorem toUint32_unit_mul (impl : F64 → ℕ) {a r : ℝ} (ha0 : 0 ≤ a) (ha1 : a ≤ 1)
    (hr0 : 0 ≤ r) (hr1 : r ≤ 1) :
    toUint32 impl (fin a * fin r * fin 65535) = ⌊a * r * 65535⌋₊ ∧
      ⌊a * r * 65535⌋₊ ≤ ⌊a * 65535⌋₊ ∧ ⌊a * 65535⌋₊ ≤ 65535 := by
  have har0 : 0 ≤ a * r := mul_nonneg ha0 hr0
  have har1 : a * r ≤ a := by nlinarith
  refine ⟨?_, ?_, ?_⟩
  · rw [fin_mul_fin, fin_mul_fin]
    exact toUint32_fin impl (by positivity) (by nlinarith)
  · exact Nat.floor_le_floor (by nlinarith)
  · have : a * 65535 ≤ ((65535 : ℕ) : ℝ) := by push_cast; nlinarith
    calc ⌊a * 65535⌋₊ ≤ ⌊((65535 : ℕ) : ℝ)⌋₊ := Nat.floor_le_floor this
      _ = 65535 := Nat.floor_natCast _

/-- When neither `Alpha` nor the gamma-encoded channels are NaN, `Oklab.RGBA` is the
truncation of the products of the clamped values, and every channel is in range and bounded
by the alpha channel. -/
theorem RGBA_of_not_nan (impl : F64 → ℕ) (c : Oklab)
    (hr : ¬ IsNaN c.nonLinearRGB.1) (hg : ¬ IsNaN c.nonLinearRGB.2.1)
    (hb : ¬ IsNaN c.nonLinearRGB.2.2) (ha : ¬ IsNaN c.Alpha) :
    ∃ a r g b : ℝ,
      clamp01 c.Alpha = fin a ∧ clamp01 c.nonLinearRGB.1 = fin r ∧
      clamp01 c.nonLinearRGB.2.1 = fin g ∧ clamp01 c.nonLinearRGB.2.2 = fin b ∧
      (0 ≤ a ∧ a ≤ 1) ∧ (0 ≤ r ∧ r ≤ 1) ∧ (0 ≤ g ∧ g ≤ 1) ∧ (0 ≤ b ∧ b ≤ 1) ∧
      c.RGBA impl = (⌊a * r * 65535⌋₊, ⌊a * g * 65535⌋₊, ⌊a * b * 65535⌋₊, ⌊a * 65535⌋₊) := by
  obtain ⟨a, hae, ha0, ha1⟩ := clamp01_unit ha
  obtain ⟨r, hre, hr0, hr1⟩ := clamp01_unit hr
  obtain ⟨g, hge, hg0, hg1⟩ := clamp01_unit hg
  obtain ⟨b, hbe, hb0, hb1⟩ := clamp01_unit hb
  refine ⟨a, r, g, b, hae, hre, hge, hbe, ⟨ha0, ha1⟩, ⟨hr0, hr1⟩, ⟨hg0, hg1⟩, ⟨hb0, hb1⟩, ?_⟩
  have hA : toUint32 impl (fin a * fin 65535) = ⌊a * 65535⌋₊ := by
    rw [fin_mul_fin]
    exact toUint32_fin impl (by positivity) (by nlinarith)
  simp only [Oklab.RGBA, hae, hre, hge, hbe]
  rw [(toUint32_unit_mul impl ha0 ha1 hr0 hr1).1, (toUint32_unit_mul impl ha0 ha1 hg0 hg1).1,
    (toUint32_unit_mul impl ha0 ha1 hb0 hb1).1, hA]

/-- Every channel of `Oklab.RGBA` is at most 65535 when no clamped operand is NaN. -/
theorem RGBA_range_of_not_nan (impl : F64 → ℕ) (c : Oklab)
    (hr : ¬ IsNaN c.nonLinearRGB.1) (hg : ¬ IsNaN c.nonLinearRGB.2.1)
    (hb : ¬ IsNaN c.nonLinearRGB.2.2) (ha : ¬ IsNaN c.Alpha) :
    ((c.RGBA impl).1 ≤ (c.RGBA impl).2.2.2 ∧ (c.RGBA impl).2.1 ≤ (c.RGBA impl).2.2.2 ∧
      (c.RGBA impl).2.2.1 ≤ (c.RGBA impl).2.2.2) ∧ (c.RGBA impl).2.2.2 ≤ 65535 := by
  obtain ⟨a, r, g, b, -, -, -, -, ⟨ha0, ha1⟩, ⟨hr0, hr1⟩, ⟨hg0, hg1⟩, ⟨hb0, hb1⟩, h⟩ :=
    RGBA_of_not_nan impl c hr hg hb ha
  rw [h]
  exact ⟨⟨(toUint32_unit_mul impl ha0 ha1 hr0 hr1).2.1, (toUint32_unit_mul impl ha0 ha1 hg0 hg1).2.1,
    (toUint32_unit_mul impl ha0 ha1 hb0 hb1).2.1⟩, (toUint32_unit_mul impl ha0 ha1 hr0 hr1).2.2⟩

/-- On finite `L`, `a`, `b` the gamma-encoded channels are finite. -/
theorem nonLinearRGB_fin (L A B : ℝ) (al : F64) :
    ¬ IsNaN (Oklab.nonLinearRGB ⟨fin L, fin A, fin B, al⟩).1 ∧
    ¬ IsNaN (Oklab.nonLinearRGB ⟨fin L, fin A, fin B, al⟩).2.1 ∧
    ¬ IsNaN (Oklab.nonLinearRGB ⟨fin L, fin A, fin B, al⟩).2.2 := by
  simp [Oklab.nonLinearRGB, toNonLinear_fin]

theorem clamp01_of_le_zero {x : F64} (h : x ≤ fin 0) : clamp01 x = fin 0 := by
  cases x with
  | nan => exact absurd h (not_nan_le _)
  | pinf => exact absurd h (fun h => h)
  | ninf => exact clamp01_ninf
  | fin x =>
    have hx : x ≤ 0 := (fin_le_fin _ _).mp h
    rw [clamp01_fin]
    unfold clamp01R
    split_ifs with h0 h1
    · rfl
    · exact absurd h1 (by linarith)
    · exact congrArg fin (le_antisymm hx (not_lt.mp h0))

theorem nonLinearRGB_nan (A B al : F64) :
    Oklab.nonLinearRGB ⟨nan, A, B, al⟩ = (nan, nan, nan) := by
  simp [Oklab.nonLinearRGB, toNonLinear]

theorem clamp01_one : clamp01 (fin 1) = fin 1 := by
  rw [clamp01_fin]; norm_num [clamp01R]

theorem clamp01_zero : clamp01 (fin 0) = fin 0 := by
  rw [clamp01_fin]; norm_num [clamp01R]

/-! ## The polar form -/

theorem hypot_mul_cos_arg {a b : ℝ} (h : ¬ (a = 0 ∧ b = 0)) :
    Real.sqrt (a * a + b * b) * Real.cos (Complex.arg ⟨a, b⟩) = a := by
  have hz : (⟨a, b⟩ : ℂ) ≠ 0 := by
    intro h0
    exact h ⟨congrArg Complex.re h0, congrArg Complex.im h0⟩
  have habs : Complex.abs ⟨a, b⟩ = Real.sqrt (a * a + b * b) := by
    rw [Complex.abs_apply, Complex.normSq_mk]
  have hpos : 0 < Complex.abs ⟨a, b⟩ := Complex.abs.pos hz
  rw [Complex.cos_arg hz, ← habs]
  field_simp

theorem hypot_mul_sin_arg {a b : ℝ} (h : ¬ (a = 0 ∧ b = 0)) :
    Real.sqrt (a * a + b * b) * Real.sin (Complex.arg ⟨a, b⟩) = b := by
  have hz : (⟨a, b⟩ : ℂ) ≠ 0 := by
    intro h0
    exact h ⟨congrArg Complex.re h0, congrArg Complex.im h0⟩
  have habs : Complex.abs ⟨a, b⟩ = Real.sqrt (a * a + b * b) := by
    rw [Complex.abs_apply, Complex.normSq_mk]
  have hpos : 0 < Complex.abs ⟨a, b⟩ := Complex.abs.pos hz
  rw [Complex.sin_arg, ← habs]
  field_simp

/-- The method `Oklab.oklch` on finite `a`, `b` that are not both zero. -/
theorem oklch_of_chromatic (L al : F64) {a b : ℝ} (h : ¬ (a = 0 ∧ b = 0)) :
    Oklab.oklch ⟨L, fin a, fin b, al⟩ =
      { L := L, C := fin (Real.sqrt (a * a + b * b)), H := fin (Complex.arg ⟨a, b⟩),
        Alpha := al } := by
  simp [Oklab.oklch, h, Hypot, Atan2]

/-- The method `Oklab.oklch` on `a = b = 0`. -/
theorem oklch_of_achromatic (L al : F64) :
    Oklab.oklch ⟨L, fin 0, fin 0, al⟩ = { L := L, C := fin 0, H := nan, Alpha := al } := by
  simp [Oklab.oklch, NaN]

/-- Converting an Oklab value with finite `a`, `b` to Oklch and back gives the value itself. -/
theorem oklab_oklch_of_fin (L al : F64) (a b : ℝ) :
    (Oklab.oklch ⟨L, fin a, fin b, al⟩).oklab = ⟨L, fin a, fin b, al⟩ := by
  by_cases h : a = 0 ∧ b = 0
  · obtain ⟨rfl, rfl⟩ := h
    rw [oklch_of_achromatic]
    simp [Oklch.oklab]
  · rw [oklch_of_chromatic L al h]
    simp [Oklch.oklab, Cos, Sin, hypot_mul_cos_arg h, hypot_mul_sin_arg h]

/-! ## The conversions on finite values -/

/-- The gamma-encoded channels of an Oklab value with finite `L`, `a`, `b`. -/
theorem nonLinearRGB_fin_eq (L A B : ℝ) (al : F64) :
    Oklab.nonLinearRGB ⟨fin L, fin A, fin B, al⟩ =
      (fin (toNonLinearR (labToLinear L A B).1), fin (toNonLinearR (labToLinear L A B).2.1),
        fin (toNonLinearR (labToLinear L A B).2.2)) := by
  simp [Oklab.nonLinearRGB, toNonLinear_fin, labToLinear]

/-- The function `oklabModelFunc` on a colour that is neither Oklab nor Oklch and whose
alpha is not zero. -/
theorem oklabModelFunc_other (r32 g32 b32 a32 : ℕ) (ha : a32 ≠ 0) :
    oklabModelFunc (.other r32 g32 b32 a32) =
      ⟨fin (linearToLab (toLinearR (r32 / a32)) (toLinearR (g32 / a32))
          (toLinearR (b32 / a32))).1,
        fin (linearToLab (toLinearR (r32 / a32)) (toLinearR (g32 / a32))
          (toLinearR (b32 / a32))).2.1,
        fin (linearToLab (toLinearR (r32 / a32)) (toLinearR (g32 / a32))
          (toLinearR (b32 / a32))).2.2,
        fin (a32 / 65535)⟩ := by
  have ha' : (a32 : ℝ) ≠ 0 := Nat.cast_ne_zero.mpr ha
  have h65 : (65535 : ℝ) ≠ 0 := by norm_num
  simp [oklabModelFunc, ofUint32, fin_div_fin _ ha', fin_div_fin _ h65, toLinear_fin, Cbrt,
    linearToLab]

/-! ## Real analysis of the round trip -/

theorem realCbrt_spec {x : ℝ} (h0 : 0 ≤ x) (h1 : x ≤ 1) :
    0 ≤ realCbrt x ∧ realCbrt x ≤ 1 ∧ realCbrt x ^ 3 = x := by
  unfold realCbrt
  rw [if_pos h0]
  refine ⟨Real.rpow_nonneg h0 _, Real.rpow_le_one h0 h1 (by norm_num), ?_⟩
  rw [← Real.rpow_natCast, ← Real.rpow_mul h0]
  norm_num

/-- A cube moves by at most a little more than three times what its root moves, on the
unit interval. -/
theorem cube_close {u d e : ℝ} (hu0 : 0 ≤ u) (hu1 : u ≤ 1) (hd : |d| ≤ e) (he : e ≤ 1 / 1000000) :
    |(u + d) ^ 3 - u ^ 3| ≤ 3.00001 * e := by
  have he0 : 0 ≤ e := le_trans (abs_nonneg d) hd
  have hfac : (u + d) ^ 3 - u ^ 3 = d * (3 * u ^ 2 + 3 * u * d + d ^ 2) := by ring
  obtain ⟨hd1, hd2⟩ := abs_le.mp hd
  have hq0 : 0 ≤ 3 * u ^ 2 + 3 * u * d + d ^ 2 := by nlinarith [sq_nonneg (u + d), sq_nonneg u, sq_nonneg (2 * u + d)]
  have hq1 : 3 * u ^ 2 + 3 * u * d + d ^ 2 ≤ 3.00001 := by nlinarith [sq_nonneg d]
  rw [hfac, abs_mul, abs_of_nonneg hq0]
  calc |d| * (3 * u ^ 2 + 3 * u * d + d ^ 2) ≤ e * 3.00001 :=
        mul_le_mul hd hq1 hq0 he0
    _ = 3.00001 * e := by ring

/-- The second pair of matrices: the cone responses recovered by `Oklab.RGBA` from
`L`, `a`, `b` differ from the cube roots that produced them by a few `1e-8`. -/
theorem cone_close {u1 u2 u3 : ℝ} (h1 : 0 ≤ u1 ∧ u1 ≤ 1) (h2 : 0 ≤ u2 ∧ u2 ≤ 1)
    (h3 : 0 ≤ u3 ∧ u3 ≤ 1) :
    let L := 0.2104542553 * u1 + 0.7936177850 * u2 - 0.0040720468 * u3
    let A := 1.9779984951 * u1 - 2.4285922050 * u2 + 0.4505937099 * u3
    let B := 0.0259040371 * u1 + 0.7827717662 * u2 - 0.8086757660 * u3
    |L + 0.3963377774 * A + 0.2158037573 * B - u1| ≤ 3.7e-8 ∧
    |L - 0.1055613458 * A - 0.0638541728 * B - u2| ≤ 1.2e-8 ∧
    |L - 0.0894841775 * A - 1.2914855480 * B - u3| ≤ 6.6e-8 := by
  intro L A B
  obtain ⟨h10, h11⟩ := h1
  obtain ⟨h20, h21⟩ := h2
  obtain ⟨h30, h31⟩ := h3
  simp only [L, A, B]
  refine ⟨abs_le.mpr ⟨?_, ?_⟩, abs_le.mpr ⟨?_, ?_⟩, abs_le.mpr ⟨?_, ?_⟩⟩ <;> linarith

/-- The first pair of matrices: linear channels recovered from cone responses that are
close to the exact ones are close to the original linear channels. -/
theorem rows_close {r g b l m s : ℝ} (hr : 0 ≤ r ∧ r ≤ 1) (hg : 0 ≤ g ∧ g ≤ 1)
    (hb : 0 ≤ b ∧ b ≤ 1)
    (hl : |l - (0.4122214708 * r + 0.5363325363 * g + 0.0514459929 * b)| ≤ 1.2e-7)
    (hm : |m - (0.2119034982 * r + 0.6806995451 * g + 0.1073969566 * b)| ≤ 4e-8)
    (hs : |s - (0.0883024619 * r + 0.2817188376 * g + 0.6299787005 * b)| ≤ 2e-7) :
    |4.0767416621 * l - 3.3077115913 * m + 0.2309699292 * s - r| ≤ 7e-7 ∧
    |-1.2684380046 * l + 2.6097574011 * m - 0.3413193965 * s - g| ≤ 7e-7 ∧
    |-0.0041960863 * l - 0.7034186147 * m + 1.7076147010 * s - b| ≤ 7e-7 := by
  obtain ⟨hr0, hr1⟩ := hr
  obtain ⟨hg0, hg1⟩ := hg
  obtain ⟨hb0, hb1⟩ := hb
  obtain ⟨hl0, hl1⟩ := abs_le.mp hl
  obtain ⟨hm0, hm1⟩ := abs_le.mp hm
  obtain ⟨hs0, hs1⟩ := abs_le.mp hs
  refine ⟨abs_le.mpr ⟨?_, ?_⟩, abs_le.mpr ⟨?_, ?_⟩, abs_le.mpr ⟨?_, ?_⟩⟩ <;> linarith

/-- The cube of a recovered cone response is close to the exact cone value. -/
theorem cube_recovered {u x e t : ℝ} (hu0 : 0 ≤ u) (hu1 : u ≤ 1)
    (hx : |x - u| ≤ e) (he : e ≤ 1 / 1000000) (ht : 3.00001 * e ≤ t) :
    |x * x * x - u ^ 3| ≤ t := by
  have h := cube_close hu0 hu1 hx he
  have hxx : x * x * x = (u + (x - u)) ^ 3 := by ring
  rw [hxx]
  exact le_trans h ht

/-- Linear channels in the unit interval are recovered within `7e-7` by the conversion to
Oklab followed by the first part of `Oklab.RGBA`. -/
theorem labToLinear_linearToLab {r g b : ℝ} (hr : 0 ≤ r ∧ r ≤ 1) (hg : 0 ≤ g ∧ g ≤ 1)
    (hb : 0 ≤ b ∧ b ≤ 1) :
    |(labToLinear (linearToLab r g b).1 (linearToLab r g b).2.1 (linearToLab r g b).2.2).1 - r|
        ≤ 7e-7 ∧
    |(labToLinear (linearToLab r g b).1 (linearToLab r g b).2.1 (linearToLab r g b).2.2).2.1 - g|
        ≤ 7e-7 ∧
    |(labToLinear (linearToLab r g b).1 (linearToLab r g b).2.1 (linearToLab r g b).2.2).2.2 - b|
        ≤ 7e-7 := by
  have hl : 0 ≤ 0.4122214708 * r + 0.5363325363 * g + 0.0514459929 * b ∧
      0.4122214708 * r + 0.5363325363 * g + 0.0514459929 * b ≤ 1 := by
    constructor <;> linarith [hr.1, hr.2, hg.1, hg.2, hb.1, hb.2]
  have hm : 0 ≤ 0.2119034982 * r + 0.6806995451 * g + 0.1073969566 * b ∧
      0.2119034982 * r + 0.6806995451 * g + 0.1073969566 * b ≤ 1 := by
    constructor <;> linarith [hr.1, hr.2, hg.1, hg.2, hb.1, hb.2]
  have hs : 0 ≤ 0.0883024619 * r + 0.2817188376 * g + 0.6299787005 * b ∧
      0.0883024619 * r + 0.2817188376 * g + 0.6299787005 * b ≤ 1 := by
    constructor <;> linarith [hr.1, hr.2, hg.1, hg.2, hb.1, hb.2]
  obtain ⟨hu10, hu11, hu1c⟩ := realCbrt_spec hl.1 hl.2
  obtain ⟨hu20, hu21, hu2c⟩ := realCbrt_spec hm.1 hm.2
  obtain ⟨hu30, hu31, hu3c⟩ := realCbrt_spec hs.1 hs.2
  obtain ⟨hc1, hc2, hc3⟩ := cone_close ⟨hu10, hu11⟩ ⟨hu20, hu21⟩ ⟨hu30, hu31⟩
  have hq1 := cube_recovered hu10 hu11 hc1 (by norm_num) (show 3.00001 * 3.7e-8 ≤ (1.2e-7 : ℝ) by norm_num)
  have hq2 := cube_recovered hu20 hu21 hc2 (by norm_num) (show 3.00001 * 1.2e-8 ≤ (4e-8 : ℝ) by norm_num)
  have hq3 := cube_recovered hu30 hu31 hc3 (by norm_num) (show 3.00001 * 6.6e-8 ≤ (2e-7 : ℝ) by norm_num)
  rw [hu1c] at hq1
  rw [hu2c] at hq2
  rw [hu3c] at hq3
  exact rows_close hr hg hb hq1 hq2 hq3

/-- A lower bound on a real power with rational exponent `p / q`, from natural powers. -/
theorem le_rpow_of_pow_le {z c r : ℝ} (hz : 0 ≤ z) (p q : ℕ) (hq : q ≠ 0)
    (hr : r * (q : ℝ) = (p : ℝ)) (h : c ^ q ≤ z ^ p) : c ≤ z ^ r := by
  by_contra hlt
  have hlt' : z ^ r < c := not_le.mp hlt
  have h0 : 0 ≤ z ^ r := Real.rpow_nonneg hz r
  have h1 : (z ^ r) ^ q < c ^ q := pow_lt_pow_left₀ hlt' h0 hq
  have h2 : (z ^ r) ^ q = z ^ p := by
    rw [← Real.rpow_natCast, ← Real.rpow_mul hz, hr, Real.rpow_natCast]
  rw [h2] at h1
  exact absurd h (not_le.mpr h1)

/-- The inverse transfer function grows at least at the rate `0.084` above `0.0929`. -/
theorem rpow_step {w t : ℝ} (hw : 0.0929 ≤ w) (ht : 0 ≤ t) :
    w ^ (2.4 : ℝ) + 0.084 * t ≤ (w + t) ^ (2.4 : ℝ) := by
  have hw0 : 0 < w := by linarith [show (0 : ℝ) < 0.0929 by norm_num]
  have hb : 1 + 2.4 * (t / w) ≤ (1 + t / w) ^ (2.4 : ℝ) :=
    one_add_mul_self_le_rpow_one_add (by have := div_nonneg ht hw0.le; linarith) (by norm_num)
  have hsplit : (w + t) ^ (2.4 : ℝ) = w ^ (2.4 : ℝ) * (1 + t / w) ^ (2.4 : ℝ) := by
    rw [← Real.mul_rpow hw0.le (by have := div_nonneg ht hw0.le; linarith)]
    congr 1
    field_simp
  have h14 : (0.035 : ℝ) ≤ w ^ (1.4 : ℝ) := by
    have hmono : (0.0929 : ℝ) ^ (1.4 : ℝ) ≤ w ^ (1.4 : ℝ) :=
      Real.rpow_le_rpow (by norm_num) hw (by norm_num)
    have hc : (0.035 : ℝ) ≤ (0.0929 : ℝ) ^ (1.4 : ℝ) :=
      le_rpow_of_pow_le (by norm_num) 7 5 (by norm_num) (by norm_num) (by norm_num)
    exact le_trans hc hmono
  have h24 : w ^ (2.4 : ℝ) = w ^ (1.4 : ℝ) * w := by
    rw [← Real.rpow_add_one hw0.ne']
    norm_num
  have hw24 : 0 ≤ w ^ (2.4 : ℝ) := Real.rpow_nonneg hw0.le _
  have hkey : w ^ (2.4 : ℝ) * (2.4 * (t / w)) = 2.4 * t * w ^ (1.4 : ℝ) := by
    rw [h24]
    field_simp
    ring
  rw [hsplit]
  have h1 : w ^ (2.4 : ℝ) * (1 + 2.4 * (t / w)) ≤ w ^ (2.4 : ℝ) * (1 + t / w) ^ (2.4 : ℝ) :=
    mul_le_mul_of_nonneg_left hb hw24
  have h2 : w ^ (2.4 : ℝ) * (1 + 2.4 * (t / w)) = w ^ (2.4 : ℝ) + 2.4 * t * w ^ (1.4 : ℝ) := by
    rw [mul_add, mul_one, hkey]
  have h3 : 0.084 * t ≤ 2.4 * t * w ^ (1.4 : ℝ) := by nlinarith
  linarith

/-- The inverse transfer function maps the unit interval into itself. -/
theorem toLinearR_unit {x : ℝ} (h0 : 0 ≤ x) (h1 : x ≤ 1) :
    0 ≤ toLinearR x ∧ toLinearR x ≤ 1 := by
  unfold toLinearR
  split_ifs with h
  · have hz0 : 0 ≤ (x + 0.055) / (1 + 0.055) := by
      apply div_nonneg <;> linarith
    have hz1 : (x + 0.055) / (1 + 0.055) ≤ 1 := by
      rw [div_le_one (by norm_num)]; linarith
    exact ⟨Real.rpow_nonneg hz0 _, Real.rpow_le_one hz0 hz1 (by norm_num)⟩
  · constructor
    · apply div_nonneg h0; norm_num
    · rw [div_le_one (by norm_num)]; linarith

/-- The transfer function undoes the inverse transfer function at every 8-bit level, up to
less than one 16-bit unit, even when its argument is off by `7e-7`. -/
theorem toNonLinearR_near (R : ℕ) (hR : R ≤ 255) {v : ℝ}
    (hv : |v - toLinearR ((R : ℝ) / 255)| ≤ 7e-7) :
    (R : ℝ) / 255 - 1 / 65535 < toNonLinearR v ∧ toNonLinearR v < (R : ℝ) / 255 + 1 / 65535 := by
  obtain ⟨hv0, hv1⟩ := abs_le.mp hv
  have hRr : (R : ℝ) ≤ 255 := by exact_mod_cast hR
  have hR0 : (0 : ℝ) ≤ R := Nat.cast_nonneg R
  rcases Nat.lt_or_ge R 11 with hlt | hge
  · -- the linear pieces
    have hRl : (R : ℝ) ≤ 10 := by exact_mod_cast Nat.lt_succ_iff.mp hlt
    have hx : ¬ ((0.04045 : ℝ) ≤ (R : ℝ) / 255) := by
      rw [not_le, div_lt_iff₀ (by norm_num)]; linarith
    have hy : toLinearR ((R : ℝ) / 255) = (R : ℝ) / 255 / 12.92 := by
      unfold toLinearR; rw [if_neg hx]
    rw [hy] at hv0 hv1
    have hq : (R : ℝ) / 255 / 12.92 * 12.92 = (R : ℝ) / 255 := by field_simp; ring
    have hxle : (R : ℝ) / 255 ≤ 10 / 255 := by
      apply div_le_div_of_nonneg_right hRl; norm_num
    have hvb : ¬ ((0.0031308 : ℝ) ≤ v) := by
      rw [not_le]; nlinarith
    unfold toNonLinearR
    rw [if_neg hvb]
    constructor <;> nlinarith
  · -- the power pieces
    have hRg : (11 : ℝ) ≤ R := by exact_mod_cast hge
    have hxge : (11 : ℝ) / 255 ≤ (R : ℝ) / 255 := by
      apply div_le_div_of_nonneg_right hRg; norm_num
    have hx : (0.04045 : ℝ) ≤ (R : ℝ) / 255 := by
      refine le_trans ?_ hxge; norm_num
    set z : ℝ := ((R : ℝ) / 255 + 0.055) / (1 + 0.055) with hz
    have hzx : 1.055 * z = (R : ℝ) / 255 + 0.055 := by
      rw [hz]; field_simp; ring
    have hy : toLinearR ((R : ℝ) / 255) = z ^ (2.4 : ℝ) := by
      unfold toLinearR; rw [if_pos hx]
    rw [hy] at hv0 hv1
    have hzlo : (0.09302 : ℝ) ≤ z := by
      have : (1.055 : ℝ) * 0.09302 ≤ 1.055 * z := by rw [hzx]; linarith
      linarith
    have hz0 : 0 ≤ z := by linarith
    have hylo : (0.0033 : ℝ) ≤ z ^ (2.4 : ℝ) := by
      have hmono : (0.09302 : ℝ) ^ (2.4 : ℝ) ≤ z ^ (2.4 : ℝ) :=
        Real.rpow_le_rpow (by norm_num) hzlo (by norm_num)
      have hc : (0.0033 : ℝ) ≤ (0.09302 : ℝ) ^ (2.4 : ℝ) :=
        le_rpow_of_pow_le (by norm_num) 12 5 (by norm_num) (by norm_num) (by norm_num)
      exact le_trans hc hmono
    have hvb : (0.0031308 : ℝ) ≤ v := by linarith
    have hv0' : 0 ≤ v := by linarith
    have he : ((1.0 : ℝ) / 2.4) = 5 / 12 := by norm_num
    have hinv : ∀ w : ℝ, 0 ≤ w → (w ^ (2.4 : ℝ)) ^ ((5 : ℝ) / 12) = w := by
      intro w hw
      rw [← Real.rpow_mul hw]
      norm_num
    set k : ℝ := 1 / (65535 * 1.055) with hk
    have hk0 : 0 < k := by rw [hk]; norm_num
    have hkk : 1.055 * k = 1 / 65535 := by rw [hk]; norm_num
    have hkv : (7e-7 : ℝ) < 0.084 * k := by rw [hk]; norm_num
    have hkle : k ≤ 0.00002 := by rw [hk]; norm_num
    clear_value z k
    have hup : v ^ ((5 : ℝ) / 12) < z + k := by
      have h1 := rpow_step (show (0.0929 : ℝ) ≤ z by linarith) hk0.le
      have h2 : v < (z + k) ^ (2.4 : ℝ) := by linarith
      have h3 := Real.rpow_lt_rpow hv0' h2 (show (0 : ℝ) < 5 / 12 by norm_num)
      rwa [hinv (z + k) (by linarith)] at h3
    have hlow : z - k < v ^ ((5 : ℝ) / 12) := by
      have hw : (0.0929 : ℝ) ≤ z - k := by linarith
      have h1 := rpow_step hw hk0.le
      rw [sub_add_cancel] at h1
      have h2 : (z - k) ^ (2.4 : ℝ) < v := by linarith
      have h3 := Real.rpow_lt_rpow (Real.rpow_nonneg (by linarith) _) h2
        (show (0 : ℝ) < 5 / 12 by norm_num)
      rwa [hinv (z - k) (by linarith)] at h3
    unfold toNonLinearR
    rw [if_pos hvb, he]
    generalize v ^ ((5 : ℝ) / 12) = p at hup hlow ⊢
    constructor
    · linarith only [hlow, hzx, hkk]
    · linarith only [hup, hzx, hkk]

/-- The method `Oklab.RGBA` on finite fields. -/
theorem RGBA_fin (impl : F64 → ℕ) (L A B al : ℝ) :
    Oklab.RGBA impl ⟨fin L, fin A, fin B, fin al⟩ =
      (⌊clamp01R al * clamp01R (toNonLinearR (labToLinear L A B).1) * 65535⌋₊,
        ⌊clamp01R al * clamp01R (toNonLinearR (labToLinear L A B).2.1) * 65535⌋₊,
        ⌊clamp01R al * clamp01R (toNonLinearR (labToLinear L A B).2.2) * 65535⌋₊,
        ⌊clamp01R al * 65535⌋₊) := by
  have ha := clamp01R_mem al
  have hA : toUint32 impl (fin (clamp01R al) * fin 65535) = ⌊clamp01R al * 65535⌋₊ := by
    rw [fin_mul_fin]
    exact toUint32_fin impl (by nlinarith [ha.1]) (by nlinarith [ha.2])
  simp only [Oklab.RGBA, nonLinearRGB_fin_eq, clamp01_fin]
  rw [(toUint32_unit_mul impl ha.1 ha.2 (clamp01R_mem _).1 (clamp01R_mem _).2).1,
    (toUint32_unit_mul impl ha.1 ha.2 (clamp01R_mem _).1 (clamp01R_mem _).2).1,
    (toUint32_unit_mul impl ha.1 ha.2 (clamp01R_mem _).1 (clamp01R_mem _).2).1, hA]

/-- A gamma-encoded value within one 16-bit unit of the 8-bit level `R` is packed, at full
opacity, to a 16-bit channel whose high byte is `R`. -/
theorem channel8 (R : ℕ) (hR : R ≤ 255) {t : ℝ}
    (ht : (R : ℝ) / 255 - 1 / 65535 < t ∧ t < (R : ℝ) / 255 + 1 / 65535) :
    (⌊clamp01R 1 * clamp01R t * 65535⌋₊ >>> 8) % 256 = R := by
  obtain ⟨ht0, ht1⟩ := ht
  have hRr : (R : ℝ) ≤ 255 := by exact_mod_cast hR
  have hR0 : (0 : ℝ) ≤ R := Nat.cast_nonneg R
  have h1 : clamp01R 1 = 1 := by norm_num [clamp01R]
  have hc := clamp01R_mem t
  have hx : (R : ℝ) / 255 = (R : ℝ) * 257 / 65535 := by field_simp; ring
  rw [hx] at ht0 ht1
  have hlow : ((256 * R : ℕ) : ℝ) ≤ clamp01R 1 * clamp01R t * 65535 := by
    rw [h1, one_mul]
    push_cast
    unfold clamp01R
    split_ifs with h0 h1'
    · have hRlt : (R : ℝ) < 1 := by
        have : (R : ℝ) * 257 / 65535 - 1 / 65535 < 0 := lt_trans ht0 h0
        rw [div_sub_div_same, div_lt_iff₀ (by norm_num)] at this
        linarith
      have : R = 0 := by
        have : R < 1 := by exact_mod_cast hRlt
        omega
      subst this
      norm_num
    · linarith
    · rcases Nat.eq_zero_or_pos R with h | h
      · subst h
        have := not_lt.mp h0
        norm_num
        linarith
      · have hR1 : (1 : ℝ) ≤ R := by exact_mod_cast h
        rw [div_sub_div_same, div_lt_iff₀ (by norm_num)] at ht0
        linarith
  have hup : clamp01R 1 * clamp01R t * 65535 < ((256 * R + 256 : ℕ) : ℝ) := by
    rw [h1, one_mul]
    push_cast
    unfold clamp01R
    split_ifs with h0 h1'
    · linarith
    · have hRgt : (254 : ℝ) < R := by
        have : 1 < (R : ℝ) * 257 / 65535 + 1 / 65535 := lt_trans h1' ht1
        rw [div_add_div_same, lt_div_iff₀ (by norm_num)] at this
        linarith
      have : 254 < R := by exact_mod_cast hRgt
      have hR255 : (255 : ℝ) ≤ R := by exact_mod_cast this
      linarith
    · rw [div_add_div_same, lt_div_iff₀ (by norm_num)] at ht1
      linarith
  have hnn : 0 ≤ clamp01R 1 * clamp01R t * 65535 := by
    rw [h1]; nlinarith [hc.1]
  have hA := Nat.le_floor hlow
  have hB := (Nat.floor_lt hnn).mpr hup
  rw [Nat.shiftRight_eq_div_pow]
  omega

/-- The Oklab value of an opaque 8-bit colour. -/
theorem oklabModelFunc_rgba8 (R G B : ℕ) :
    oklabModelFunc (rgba8 R G B 255) =
      ⟨fin (linearToLab (toLinearR ((R : ℝ) / 255)) (toLinearR ((G : ℝ) / 255))
          (toLinearR ((B : ℝ) / 255))).1,
        fin (linearToLab (toLinearR ((R : ℝ) / 255)) (toLinearR ((G : ℝ) / 255))
          (toLinearR ((B : ℝ) / 255))).2.1,
        fin (linearToLab (toLinearR ((R : ℝ) / 255)) (toLinearR ((G : ℝ) / 255))
          (toLinearR ((B : ℝ) / 255))).2.2,
        fin 1⟩ := by
  have hdiv : ∀ n : ℕ, ((n * 257 : ℕ) : ℝ) / ((255 * 257 : ℕ) : ℝ) = (n : ℝ) / 255 := by
    intro n
    push_cast
    field_simp
    ring
  have hal : (((255 * 257 : ℕ) : ℝ)) / 65535 = 1 := by norm_num
  unfold rgba8
  rw [oklabModelFunc_other _ _ _ _ (by norm_num), hdiv R, hdiv G, hdiv B, hal]

/-- An opaque 8-bit colour converted to Oklab and packed again has the original bytes as
the high bytes of its channels. -/
theorem rgba8_round_trip (impl : F64 → ℕ) (R G B : ℕ) (hR : R ≤ 255) (hG : G ≤ 255)
    (hB : B ≤ 255) :
    (((Oklab.RGBA impl (oklabModelFunc (rgba8 R G B 255))).1 >>> 8) % 256,
      ((Oklab.RGBA impl (oklabModelFunc (rgba8 R G B 255))).2.1 >>> 8) % 256,
      ((Oklab.RGBA impl (oklabModelFunc (rgba8 R G B 255))).2.2.1 >>> 8) % 256,
      ((Oklab.RGBA impl (oklabModelFunc (rgba8 R G B 255))).2.2.2 >>> 8) % 256) =
    (R, G, B, 255) := by
  have hu : ∀ n : ℕ, n ≤ 255 → 0 ≤ toLinearR ((n : ℝ) / 255) ∧ toLinearR ((n : ℝ) / 255) ≤ 1 := by
    intro n hn
    have hn' : (n : ℝ) ≤ 255 := by exact_mod_cast hn
    exact toLinearR_unit (div_nonneg (Nat.cast_nonneg n) (by norm_num))
      ((div_le_one (by norm_num)).mpr hn')
  obtain ⟨h1, h2, h3⟩ := labToLinear_linearToLab (hu R hR) (hu G hG) (hu B hB)
  have hr := channel8 R hR (toNonLinearR_near R hR h1)
  have hg := channel8 G hG (toNonLinearR_near G hG h2)
  have hb := channel8 B hB (toNonLinearR_near B hB h3)
  have ha : (⌊clamp01R 1 * 65535⌋₊ >>> 8) % 256 = 255 := by
    have h1 : clamp01R 1 = 1 := by norm_num [clamp01R]
    have h2 : ⌊(1 : ℝ) * 65535⌋₊ = 65535 := by
      rw [one_mul]
      exact Nat.floor_natCast 65535
    rw [h1, h2]
    rfl
  rw [oklabModelFunc_rgba8, RGBA_fin, hr, hg, hb, ha]

theorem realCbrt_zero : realCbrt 0 = 0 := by
  unfold realCbrt
  rw [if_pos (le_refl _)]
  exact Real.zero_rpow (by norm_num)

theorem toLinearR_zero : toLinearR 0 = 0 := by
  unfold toLinearR
  rw [if_neg (by norm_num)]
  norm_num

theorem linearToLab_zero : linearToLab 0 0 0 = (0, 0, 0) := by
  simp [linearToLab, realCbrt_zero]

/-- Opaque black is the Oklab value with `L = a = b = 0` and `Alpha = 1`. -/
theorem oklabModelFunc_black :
    oklabModelFunc (rgba8 0 0 0 255) = ⟨fin 0, fin 0, fin 0, fin 1⟩ := by
  rw [oklabModelFunc_rgba8]
  simp [toLinearR_zero, linearToLab_zero]

/-- Through Oklch, an opaque 8-bit colour is packed as it is through Oklab. -/
theorem oklch_RGBA_rgba8 (impl : F64 → ℕ) (R G B : ℕ) :
    Oklch.RGBA impl (oklchModelFunc (rgba8 R G B 255)) =
      Oklab.RGBA impl (oklabModelFunc (rgba8 R G B 255)) := by
  have h : oklchModelFunc (rgba8 R G B 255) = (oklabModelFunc (rgba8 R G B 255)).oklch := rfl
  rw [h, Oklch.RGBA, oklabModelFunc_rgba8, oklab_oklch_of_fin]

/-! ## Black and fully transparent inputs -/

/-- The function `oklabModelFunc` in terms of the values passed to the cube root. -/
theorem oklabModelFunc_lms (r32 g32 b32 a32 : ℕ) :
    oklabModelFunc (.other r32 g32 b32 a32) =
      ⟨fin 0.2104542553 * Cbrt (lmsOf r32 g32 b32 a32).1 +
          fin 0.7936177850 * Cbrt (lmsOf r32 g32 b32 a32).2.1 -
          fin 0.0040720468 * Cbrt (lmsOf r32 g32 b32 a32).2.2,
        fin 1.9779984951 * Cbrt (lmsOf r32 g32 b32 a32).1 -
          fin 2.4285922050 * Cbrt (lmsOf r32 g32 b32 a32).2.1 +
          fin 0.4505937099 * Cbrt (lmsOf r32 g32 b32 a32).2.2,
        fin 0.0259040371 * Cbrt (lmsOf r32 g32 b32 a32).1 +
          fin 0.7827717662 * Cbrt (lmsOf r32 g32 b32 a32).2.1 -
          fin 0.8086757660 * Cbrt (lmsOf r32 g32 b32 a32).2.2,
        ofUint32 a32 / fin 65535⟩ := rfl

/-- The Oklab value of a colour whose packed colour channels are zero and whose alpha is
not. -/
theorem oklabModelFunc_zero (a32 : ℕ) (ha : a32 ≠ 0) :
    oklabModelFunc (.other 0 0 0 a32) = ⟨fin 0, fin 0, fin 0, fin ((a32 : ℝ) / 65535)⟩ := by
  rw [oklabModelFunc_other _ _ _ _ ha]
  simp [toLinearR_zero, linearToLab_zero]

/-- Un-premultiplying by a zero alpha gives NaN for a zero channel, and `+Inf` otherwise. -/
theorem div_zero_alpha (n : ℕ) :
    ofUint32 n / ofUint32 0 = nan ∨ ofUint32 n / ofUint32 0 = pinf := by
  show F64.div (fin (n : ℝ)) (fin ((0 : ℕ) : ℝ)) = nan ∨
    F64.div (fin (n : ℝ)) (fin ((0 : ℕ) : ℝ)) = pinf
  rcases Nat.eq_zero_or_pos n with h | h
  · left
    subst h
    simp [F64.div]
  · right
    have hn : (0 : ℝ) < n := by exact_mod_cast h
    simp [F64.div, hn.ne', hn]

theorem toLinear_nan : toLinear nan = nan := by
  have h : ¬ (fin 0.04045 ≤ nan) := not_le_nan _
  unfold toLinear
  rw [if_neg h]
  rfl

theorem toLinear_pinf : toLinear pinf = pinf := by
  have h : fin 0.04045 ≤ pinf := trivial
  have h1 : pinf + fin 0.055 = pinf := rfl
  have h2 : pinf / fin (1 + 0.055) = pinf := by
    show F64.div pinf (fin (1 + 0.055)) = pinf
    have : (0 : ℝ) ≤ 1 + 0.055 := by norm_num
    simp [F64.div, this]
  unfold toLinear
  rw [if_pos h, h1, h2]
  have h3 : (2.4 : ℝ) ≠ 0 := by norm_num
  have h4 : (0 : ℝ) < 2.4 := by norm_num
  simp [F64.Pow, h3, h4]

theorem fin_mul_pinf {c : ℝ} (hc : 0 < c) : fin c * pinf = pinf := by
  show infTimes true c = pinf
  simp [infTimes, hc.ne', hc]

/-- With a zero alpha, each of `l`, `m`, `s` is NaN, or all of them are `+Inf`. -/
theorem lmsOf_zero_alpha (r32 g32 b32 : ℕ) :
    lmsOf r32 g32 b32 0 = (nan, nan, nan) ∨ lmsOf r32 g32 b32 0 = (pinf, pinf, pinf) := by
  have c1 : fin 0.4122214708 * pinf = pinf := fin_mul_pinf (by norm_num)
  have c2 : fin 0.5363325363 * pinf = pinf := fin_mul_pinf (by norm_num)
  have c3 : fin 0.0514459929 * pinf = pinf := fin_mul_pinf (by norm_num)
  have c4 : fin 0.2119034982 * pinf = pinf := fin_mul_pinf (by norm_num)
  have c5 : fin 0.6806995451 * pinf = pinf := fin_mul_pinf (by norm_num)
  have c6 : fin 0.1073969566 * pinf = pinf := fin_mul_pinf (by norm_num)
  have c7 : fin 0.0883024619 * pinf = pinf := fin_mul_pinf (by norm_num)
  have c8 : fin 0.2817188376 * pinf = pinf := fin_mul_pinf (by norm_num)
  have c9 : fin 0.6299787005 * pinf = pinf := fin_mul_pinf (by norm_num)
  have hpp : pinf + pinf = pinf := rfl
  unfold lmsOf linearOf
  rcases div_zero_alpha r32 with hr | hr <;> rcases div_zero_alpha g32 with hg | hg <;>
    rcases div_zero_alpha b32 with hb | hb <;>
    simp [hr, hg, hb, toLinear_nan, toLinear_pinf, c1, c2, c3, c4, c5, c6, c7, c8, c9, hpp]

/-- The Oklab value of a colour whose packed alpha is zero. -/
theorem oklabModelFunc_zero_alpha (r32 g32 b32 : ℕ) :
    oklabModelFunc (.other r32 g32 b32 0) = ⟨nan, nan, nan, fin 0⟩ := by
  have c1 : fin 0.2104542553 * pinf = pinf := fin_mul_pinf (by norm_num)
  have c2 : fin 0.7936177850 * pinf = pinf := fin_mul_pinf (by norm_num)
  have c3 : fin 0.0040720468 * pinf = pinf := fin_mul_pinf (by norm_num)
  have c4 : fin 1.9779984951 * pinf = pinf := fin_mul_pinf (by norm_num)
  have c5 : fin 2.4285922050 * pinf = pinf := fin_mul_pinf (by norm_num)
  have c6 : fin 0.4505937099 * pinf = pinf := fin_mul_pinf (by norm_num)
  have c7 : fin 0.0259040371 * pinf = pinf := fin_mul_pinf (by norm_num)
  have c8 : fin 0.7827717662 * pinf = pinf := fin_mul_pinf (by norm_num)
  have c9 : fin 0.8086757660 * pinf = pinf := fin_mul_pinf (by norm_num)
  have hpp : pinf + pinf = pinf := rfl
  have hpm : pinf - pinf = nan := rfl
  have hal : ofUint32 0 / fin 65535 = fin 0 := by
    show F64.div (fin ((0 : ℕ) : ℝ)) (fin 65535) = fin 0
    simp [F64.div]
  rw [oklabModelFunc_lms, hal]
  rcases lmsOf_zero_alpha r32 g32 b32 with h | h
  · rw [h]
    simp [Cbrt]
  · rw [h]
    simp [Cbrt, c1, c2, c3, c4, c5, c6, c7, c8, c9, hpp, hpm]

/-! ## The transfer functions near their thresholds -/

/-- An upper bound on a real power with rational exponent `p / q`, from natural powers. -/
theorem rpow_lt_of_pow_lt {z c r : ℝ} (hz : 0 ≤ z) (hc : 0 ≤ c) (p q : ℕ)
    (hr : r * (q : ℝ) = (p : ℝ)) (h : z ^ p < c ^ q) : z ^ r < c := by
  by_contra hle
  have hle' : c ≤ z ^ r := not_lt.mp hle
  have h1 : c ^ q ≤ (z ^ r) ^ q := pow_le_pow_left₀ hc hle' q
  have h2 : (z ^ r) ^ q = z ^ p := by
    rw [← Real.rpow_natCast, ← Real.rpow_mul hz, hr, Real.rpow_natCast]
  rw [h2] at h1
  exact absurd h (not_lt.mpr h1)

/-- The inverse transfer function is not negative on values that are not negative. -/
theorem toLinearR_nonneg {x : ℝ} (h0 : 0 ≤ x) : 0 ≤ toLinearR x := by
  unfold toLinearR
  split_ifs with h
  · apply Real.rpow_nonneg
    apply div_nonneg <;> linarith
  · apply div_nonneg h0; norm_num

/-- The power piece of `toNonLinear` at the threshold is below the linear piece there. -/
theorem threshold_rpow_lt :
    (0.0031308 : ℝ) ^ ((5 : ℝ) / 12) < (0.040449936 + 0.055) / 1.055 :=
  rpow_lt_of_pow_lt (by norm_num) (by norm_num) 5 12 (by norm_num) (by norm_num)

/-- The power piece of `toNonLinear` at the threshold is less than `3e-8` below the linear
piece there. -/
theorem threshold_rpow_ge :
    (0.040449936 - 3e-8 + 0.055) / 1.055 ≤ (0.0031308 : ℝ) ^ ((5 : ℝ) / 12) :=
  le_rpow_of_pow_le (by norm_num) 5 12 (by norm_num) (by norm_num) (by norm_num)

theorem toNonLinearR_of_lt {x : ℝ} (h : x < 0.0031308) : toNonLinearR x = 12.92 * x := by
  unfold toNonLinearR
  rw [if_neg (not_le.mpr h)]

theorem toNonLinearR_of_ge {x : ℝ} (h : 0.0031308 ≤ x) :
    toNonLinearR x = 1.055 * x ^ ((5 : ℝ) / 12) - 0.055 := by
  unfold toNonLinearR
  rw [if_pos h]
  norm_num

theorem toLinearR_of_lt {x : ℝ} (h : x < 0.04045) : toLinearR x = x / 12.92 := by
  unfold toLinearR
  rw [if_neg (not_le.mpr h)]

theorem toLinearR_of_ge {x : ℝ} (h : 0.04045 ≤ x) :
    toLinearR x = ((x + 0.055) / 1.055) ^ ((12 : ℝ) / 5) := by
  unfold toLinearR
  rw [if_pos h]
  norm_num

/-- The transfer function undoes its inverse outside the window `[0.040449936, 0.04045)`. -/
theorem toNonLinearR_toLinearR {x : ℝ} (h : x < 0.040449936 ∨ 0.04045 ≤ x) :
    toNonLinearR (toLinearR x) = x := by
  rcases h with h | h
  · have hx : x < 0.04045 := by linarith [show (0.040449936 : ℝ) < 0.04045 by norm_num]
    rw [toLinearR_of_lt hx]
    have hy : x / 12.92 < 0.0031308 := by
      rw [div_lt_iff₀ (by norm_num)]
      linarith [show (0.0031308 : ℝ) * 12.92 = 0.040449936 by norm_num]
    rw [toNonLinearR_of_lt hy]
    field_simp
  · rw [toLinearR_of_ge h]
    have hz0 : (0.09545 : ℝ) / 1.055 ≤ (x + 0.055) / 1.055 := by
      apply div_le_div_of_nonneg_right _ (by norm_num)
      linarith
    have hzpos : (0 : ℝ) ≤ (x + 0.055) / 1.055 := le_trans (by norm_num) hz0
    have hc : (0.0031308 : ℝ) ≤ ((0.09545 : ℝ) / 1.055) ^ ((12 : ℝ) / 5) :=
      le_rpow_of_pow_le (by norm_num) 12 5 (by norm_num) (by norm_num) (by norm_num)
    have hy : (0.0031308 : ℝ) ≤ ((x + 0.055) / 1.055) ^ ((12 : ℝ) / 5) :=
      le_trans hc (Real.rpow_le_rpow (by norm_num) hz0 (by norm_num))
    rw [toNonLinearR_of_ge hy, ← Real.rpow_mul hzpos]
    norm_num
    field_simp
    ring

/-- The inverse transfer function undoes the transfer function outside the window
`[0.0031308, 0.0031308073)`. -/
theorem toLinearR_toNonLinearR {y : ℝ} (h : y < 0.0031308 ∨ 0.0031308073 ≤ y) :
    toLinearR (toNonLinearR y) = y := by
  rcases h with h | h
  · rw [toNonLinearR_of_lt h]
    have ht : 12.92 * y < 0.04045 := by linarith
    rw [toLinearR_of_lt ht]
    field_simp
  · have hy : (0.0031308 : ℝ) ≤ y := by linarith
    have hy0 : (0 : ℝ) ≤ y := by linarith
    rw [toNonLinearR_of_ge hy]
    have hc : (0.09545 : ℝ) / 1.055 ≤ (0.0031308073 : ℝ) ^ ((5 : ℝ) / 12) :=
      le_rpow_of_pow_le (by norm_num) 5 12 (by norm_num) (by norm_num) (by norm_num)
    have hp : (0.09545 : ℝ) / 1.055 ≤ y ^ ((5 : ℝ) / 12) :=
      le_trans hc (Real.rpow_le_rpow (by norm_num) h (by norm_num))
    have ht : (0.04045 : ℝ) ≤ 1.055 * y ^ ((5 : ℝ) / 12) - 0.055 := by
      have : (1.055 : ℝ) * (0.09545 / 1.055) = 0.09545 := by norm_num
      nlinarith
    rw [toLinearR_of_ge ht]
    have hs : (1.055 * y ^ ((5 : ℝ) / 12) - 0.055 + 0.055) / 1.055 = y ^ ((5 : ℝ) / 12) := by
      field_simp
    rw [hs, ← Real.rpow_mul hy0]
    norm_num

/-- At `x = 0.040449936` the transfer function does not undo its inverse. -/
theorem toNonLinearR_toLinearR_window :
    toNonLinearR (toLinearR 0.040449936) < 0.040449936 := by
  have hx : (0.040449936 : ℝ) < 0.04045 := by norm_num
  have hy : (0.040449936 : ℝ) / 12.92 = 0.0031308 := by norm_num
  rw [toLinearR_of_lt hx, hy, toNonLinearR_of_ge (le_refl _)]
  have h := threshold_rpow_lt
  rw [lt_div_iff₀ (by norm_num)] at h
  linarith

/-- At `y = 0.0031308` the inverse transfer function does not undo the transfer function. -/
theorem toLinearR_toNonLinearR_window :
    toLinearR (toNonLinearR 0.0031308) < 0.0031308 := by
  have h := threshold_rpow_lt
  rw [lt_div_iff₀ (by norm_num)] at h
  rw [toNonLinearR_of_ge (le_refl _)]
  have ht : 1.055 * (0.0031308 : ℝ) ^ ((5 : ℝ) / 12) - 0.055 < 0.04045 := by linarith
  rw [toLinearR_of_lt ht, div_lt_iff₀ (by norm_num)]
  linarith [show (0.0031308 : ℝ) * 12.92 = 0.040449936 by norm_num]

/-- The transfer function does not decrease below its threshold. -/
theorem toNonLinearR_mono_lt {x y : ℝ} (hxy : x ≤ y) (hy : y < 0.0031308) :
    toNonLinearR x ≤ toNonLinearR y := by
  rw [toNonLinearR_of_lt hy, toNonLinearR_of_lt (lt_of_le_of_lt hxy hy)]
  linarith

/-- The transfer function does not decrease from its threshold on. -/
theorem toNonLinearR_mono_ge {x y : ℝ} (hx : 0.0031308 ≤ x) (hxy : x ≤ y) :
    toNonLinearR x ≤ toNonLinearR y := by
  rw [toNonLinearR_of_ge hx, toNonLinearR_of_ge (le_trans hx hxy)]
  have h0 : (0 : ℝ) ≤ x := le_trans (by norm_num) hx
  have := Real.rpow_le_rpow h0 hxy (show (0 : ℝ) ≤ 5 / 12 by norm_num)
  linarith

/-- Across its threshold the transfer function drops by less than `3e-8`. -/
theorem toNonLinearR_across {x y : ℝ} (hx : x < 0.0031308) (hy : 0.0031308 ≤ y) :
    toNonLinearR x < toNonLinearR y + 3e-8 := by
  have h1 := toNonLinearR_mono_ge (le_refl (0.0031308 : ℝ)) hy
  rw [toNonLinearR_of_ge (le_refl (0.0031308 : ℝ))] at h1
  have h2 := threshold_rpow_ge
  rw [div_le_iff₀ (by norm_num)] at h2
  rw [toNonLinearR_of_lt hx]
  generalize toNonLinearR y = t at h1 ⊢
  generalize (0.0031308 : ℝ) ^ ((5 : ℝ) / 12) = p at h1 h2
  linarith

/-- Just below the threshold the transfer function is above its value at the threshold. -/
theorem toNonLinearR_drop : toNonLinearR 0.0031308 < toNonLinearR 0.003130799 := by
  rw [toNonLinearR_of_ge (le_refl _), toNonLinearR_of_lt (by norm_num)]
  have h : (0.0031308 : ℝ) ^ ((5 : ℝ) / 12) < (12.92 * 0.003130799 + 0.055) / 1.055 :=
    rpow_lt_of_pow_lt (by norm_num) (by norm_num) 5 12 (by norm_num) (by norm_num)
  rw [lt_div_iff₀ (by norm_num)] at h
  linarith

/-! ## The neutral axis -/

/-- On the neutral axis the linear channels are all the cube of `L`. -/
theorem labToLinear_neutral (L : ℝ) : labToLinear L 0 0 = (L ^ 3, L ^ 3, L ^ 3) := by
  unfold labToLinear
  simp only [mul_zero, add_zero, sub_zero, Prod.mk.injEq]
  refine ⟨?_, ?_, ?_⟩ <;> ring

theorem fin_mul_ninf {c : ℝ} (hc : 0 < c) : fin c * ninf = ninf := by
  show infTimes false c = ninf
  simp [infTimes, hc.ne', hc]

theorem fin_neg_mul_pinf {c : ℝ} (hc : c < 0) : fin c * pinf = ninf := by
  show infTimes true c = ninf
  simp [infTimes, hc.ne, not_lt.mpr hc.le]

theorem fin_neg_mul_ninf {c : ℝ} (hc : c < 0) : fin c * ninf = pinf := by
  show infTimes false c = pinf
  simp [infTimes, hc.ne, not_lt.mpr hc.le]

/-- On the neutral axis the three gamma-encoded channels are equal, whatever `L` is. -/
theorem nonLinearRGB_neutral (L al : F64) :
    (Oklab.nonLinearRGB ⟨L, fin 0, fin 0, al⟩).1 = (Oklab.nonLinearRGB ⟨L, fin 0, fin 0, al⟩).2.1 ∧
    (Oklab.nonLinearRGB ⟨L, fin 0, fin 0, al⟩).2.1 =
      (Oklab.nonLinearRGB ⟨L, fin 0, fin 0, al⟩).2.2 := by
  have p1 : fin 4.0767416621 * pinf = pinf := fin_mul_pinf (by norm_num)
  have p2 : fin 3.3077115913 * pinf = pinf := fin_mul_pinf (by norm_num)
  have p4 : fin (-1.2684380046) * pinf = ninf := fin_neg_mul_pinf (by norm_num)
  have p5 : fin 2.6097574011 * pinf = pinf := fin_mul_pinf (by norm_num)
  have p7 : fin (-0.0041960863) * pinf = ninf := fin_neg_mul_pinf (by norm_num)
  have p8 : fin 0.7034186147 * pinf = pinf := fin_mul_pinf (by norm_num)
  have p9 : fin 1.7076147010 * pinf = pinf := fin_mul_pinf (by norm_num)
  have n1 : fin 4.0767416621 * ninf = ninf := fin_mul_ninf (by norm_num)
  have n2 : fin 3.3077115913 * ninf = ninf := fin_mul_ninf (by norm_num)
  have n4 : fin (-1.2684380046) * ninf = pinf := fin_neg_mul_ninf (by norm_num)
  have n5 : fin 2.6097574011 * ninf = ninf := fin_mul_ninf (by norm_num)
  have n7 : fin (-0.0041960863) * ninf = pinf := fin_neg_mul_ninf (by norm_num)
  have n8 : fin 0.7034186147 * ninf = ninf := fin_mul_ninf (by norm_num)
  have n9 : fin 1.7076147010 * ninf = ninf := fin_mul_ninf (by norm_num)
  have a1 : ∀ x : ℝ, pinf + fin x = pinf := fun _ => rfl
  have a2 : ∀ x : ℝ, ninf + fin x = ninf := fun _ => rfl
  have a3 : ∀ x : ℝ, pinf - fin x = pinf := fun _ => rfl
  have a4 : ∀ x : ℝ, ninf - fin x = ninf := fun _ => rfl
  have m1 : pinf * pinf = pinf := rfl
  have m2 : ninf * ninf = pinf := rfl
  have m3 : pinf * ninf = ninf := rfl
  have s1 : pinf - pinf = nan := rfl
  have s2 : ninf - ninf = nan := rfl
  have s3 : ninf + pinf = nan := rfl
  have s4 : pinf + ninf = nan := rfl
  have s5 : ninf - pinf = ninf := rfl
  have s6 : pinf - ninf = pinf := rfl
  cases L with
  | nan => simp [Oklab.nonLinearRGB]
  | pinf => simp [Oklab.nonLinearRGB, a1, a3, m1, p1, p2, p4, p5, p7, p8, p9, s1, s3, s5]
  | ninf =>
    simp [Oklab.nonLinearRGB, a2, a4, m2, m3, n1, n2, n4, n5, n7, n8, n9, s2, s4, s6]
  | fin L =>
    rw [nonLinearRGB_fin_eq, labToLinear_neutral]
    exact ⟨rfl, rfl⟩

/-- On the neutral axis `Oklab.RGBA` returns equal red, green and blue channels. -/
theorem RGBA_neutral (impl : F64 → ℕ) (L al : F64) :
    (Oklab.RGBA impl ⟨L, fin 0, fin 0, al⟩).1 = (Oklab.RGBA impl ⟨L, fin 0, fin 0, al⟩).2.1 ∧
    (Oklab.RGBA impl ⟨L, fin 0, fin 0, al⟩).2.1 =
      (Oklab.RGBA impl ⟨L, fin 0, fin 0, al⟩).2.2.1 := by
  obtain ⟨h1, h2⟩ := nonLinearRGB_neutral L al
  simp only [Oklab.RGBA]
  rw [h1, h2]
  exact ⟨rfl, rfl⟩

/-- From `0.0031308023` on the power piece of `toNonLinear` is above the whole linear piece. -/
theorem toNonLinearR_far {x y : ℝ} (hx : x < 0.0031308) (hy : 0.0031308023 ≤ y) :
    toNonLinearR x ≤ toNonLinearR y := by
  have hy0 : (0.0031308 : ℝ) ≤ 0.0031308023 := by norm_num
  have h1 := toNonLinearR_mono_ge hy0 hy
  rw [toNonLinearR_of_ge hy0] at h1
  have h2 : (0.040449936 + 0.055) / 1.055 ≤ (0.0031308023 : ℝ) ^ ((5 : ℝ) / 12) :=
    le_rpow_of_pow_le (by norm_num) 5 12 (by norm_num) (by norm_num) (by norm_num)
  rw [div_le_iff₀ (by norm_num)] at h2
  rw [toNonLinearR_of_lt hx]
  generalize toNonLinearR y = t at h1 ⊢
  generalize (0.0031308023 : ℝ) ^ ((5 : ℝ) / 12) = p at h1 h2
  linarith

end Exact

namespace b64

set_option exponentiation.threshold 8192

/-! ## Rounding to binary64 -/

theorem log2Bis_spec : ∀ (fuel lo n : ℕ), 2 ^ lo ≤ n → n < 2 ^ (lo + 2 ^ fuel) →
    2 ^ log2Bis fuel lo n ≤ n ∧ n < 2 ^ (log2Bis fuel lo n + 1)
  | 0, lo, n, h1, h2 => by
    simp only [log2Bis]
    exact ⟨h1, by simpa using h2⟩
  | fuel + 1, lo, n, h1, h2 => by
    simp only [log2Bis]
    split_ifs with h
    · exact log2Bis_spec fuel _ n h (by rw [add_assoc, ← two_mul, ← pow_succ']; exact h2)
    · exact log2Bis_spec fuel lo n h1 (not_le.mp h)

/-- The value `ilog2 n` is the binary exponent of `n`. -/
theorem ilog2_spec {n : ℕ} (h0 : 0 < n) (h : n < 2 ^ 4096) :
    2 ^ ilog2 n ≤ n ∧ n < 2 ^ (ilog2 n + 1) := by
  have e : 0 + 2 ^ 12 = 4096 := by norm_num
  exact log2Bis_spec 12 0 n (by rw [pow_zero]; exact h0) (by rw [e]; exact h)

theorem ilog2_zero : ilog2 0 = 0 := by decide!

/-- The binary exponent is determined by the binade. -/
theorem ilog2_eq {n e : ℕ} (h1 : 2 ^ e ≤ n) (h2 : n < 2 ^ (e + 1)) (h : n < 2 ^ 4096) :
    ilog2 n = e := by
  have h0 : 0 < n := lt_of_lt_of_le (by positivity) h1
  obtain ⟨a, b⟩ := ilog2_spec h0 h
  have c1 : ilog2 n < e + 1 := (Nat.pow_lt_pow_iff_right (by norm_num)).mp (lt_of_le_of_lt a h2)
  have c2 : e < ilog2 n + 1 := (Nat.pow_lt_pow_iff_right (by norm_num)).mp (lt_of_le_of_lt h1 b)
  omega

/-- The two outcomes of `rne`: the quotient, when the remainder is below half the divisor or
at half with the quotient even, and the quotient plus one otherwise. -/
theorem rne_cases {n den : ℕ} (hd : 0 < den) :
    ∃ q r, n = q * den + r ∧ r < den ∧
      ((rne n den = q ∧ (2 * r < den ∨ (2 * r = den ∧ q % 2 = 0))) ∨
        (rne n den = q + 1 ∧ (den < 2 * r ∨ (2 * r = den ∧ q % 2 = 1)))) := by
  refine ⟨n / den, n % den, ?_, Nat.mod_lt n hd, ?_⟩
  · rw [mul_comm]; exact (Nat.div_add_mod n den).symm
  · unfold rne
    split_ifs with a b c
    · exact Or.inl ⟨rfl, Or.inl a⟩
    · exact Or.inr ⟨rfl, Or.inl b⟩
    · exact Or.inl ⟨rfl, Or.inr ⟨by omega, c⟩⟩
    · exact Or.inr ⟨rfl, Or.inr ⟨by omega, by omega⟩⟩

/-- The rounded quotient is within half a unit of the quotient. -/
theorem rne_near (n den : ℕ) (hd : 0 < den) :
    2 * (rne n den * den) ≤ 2 * n + den ∧ 2 * n ≤ 2 * (rne n den * den) + den := by
  obtain ⟨q, r, hn, hr, ⟨e, h⟩ | ⟨e, h⟩⟩ := rne_cases (n := n) hd <;> rw [e, hn] <;>
    constructor <;> rcases h with h | ⟨h, -⟩ <;> linarith

theorem rne_le_of_le {n den z : ℕ} (hd : 0 < den) (h : n ≤ z * den) : rne n den ≤ z := by
  obtain ⟨q, r, hn, hr, ⟨e, -⟩ | ⟨e, h'⟩⟩ := rne_cases (n := n) hd <;> rw [e] <;>
    by_contra hc
  · have : (z + 1) * den ≤ q * den := Nat.mul_le_mul_right _ (by omega)
    linarith
  · have : (z + 1) * den ≤ (q + 1) * den := Nat.mul_le_mul_right _ (by omega)
    rcases h' with h' | ⟨h', -⟩ <;> linarith

theorem rne_ge_of_ge {n den z : ℕ} (hd : 0 < den) (h : z * den ≤ n) : z ≤ rne n den := by
  obtain ⟨q, r, hn, hr, ⟨e, -⟩ | ⟨e, -⟩⟩ := rne_cases (n := n) hd <;> rw [e] <;>
    by_contra hc
  · have : (q + 1) * den ≤ z * den := Nat.mul_le_mul_right _ (by omega)
    linarith
  · have : (q + 1 + 1) * den ≤ z * den := Nat.mul_le_mul_right _ (by omega)
    linarith

theorem rne_mono {n n' den : ℕ} (hd : 0 < den) (h : n ≤ n') : rne n den ≤ rne n' den := by
  obtain ⟨q, r, hn, hr, c⟩ := rne_cases (n := n) hd
  obtain ⟨q', r', hn', hr', c'⟩ := rne_cases (n := n') hd
  have hq : q ≤ q' := by
    by_contra hc
    have : (q' + 1) * den ≤ q * den := Nat.mul_le_mul_right _ (by omega)
    linarith
  rcases Nat.lt_or_ge q q' with hlt | hge
  · rcases c with ⟨e, -⟩ | ⟨e, -⟩ <;> rcases c' with ⟨e', -⟩ | ⟨e', -⟩ <;> omega
  · have e : q = q' := le_antisymm hq hge
    subst e
    have hr2 : r ≤ r' := by linarith
    rcases c with ⟨e, -⟩ | ⟨e, k⟩ <;> rcases c' with ⟨e', k'⟩ | ⟨e', -⟩ <;> omega

theorem rne_scale {c : ℕ} (hc : 0 < c) (n den : ℕ) : rne (c * n) (c * den) = rne n den := by
  unfold rne
  rw [Nat.mul_div_mul_left _ _ hc, Nat.mul_mod_mul_left]
  have e1 : 2 * (c * (n % den)) < c * den ↔ 2 * (n % den) < den := by
    rw [show 2 * (c * (n % den)) = c * (2 * (n % den)) by ring]
    exact Nat.mul_lt_mul_left hc
  have e2 : c * den < 2 * (c * (n % den)) ↔ den < 2 * (n % den) := by
    rw [show 2 * (c * (n % den)) = c * (2 * (n % den)) by ring]
    exact Nat.mul_lt_mul_left hc
  simp only [e1, e2]

/-- Rounding is monotone in the fraction. -/
theorem rne_mono_frac {n n' den den' : ℕ} (hd : 0 < den) (hd' : 0 < den')
    (h : n * den' ≤ n' * den) : rne n den ≤ rne n' den' := by
  rw [← rne_scale hd' n den, ← rne_scale hd n' den', mul_comm den' den]
  exact rne_mono (Nat.mul_pos hd hd') (by nlinarith)

/-- A quotient strictly nearer to `m` than to any other integer rounds to `m`. -/
theorem rne_eq_of_near {n den m : ℕ} (hd : 0 < den) (h1 : 2 * n < (2 * m + 1) * den)
    (h2 : 2 * m * den < 2 * n + den) : rne n den = m := by
  obtain ⟨q, r, hn, hr, ⟨e, k⟩ | ⟨e, k⟩⟩ := rne_cases (n := n) hd <;> rw [e] <;>
    by_contra hne
  · rcases Nat.lt_or_gt_of_ne hne with l | l
    · have : (q + 1) * den ≤ m * den := Nat.mul_le_mul_right _ l
      rcases k with k | ⟨k, -⟩ <;> linarith
    · have : (m + 1) * den ≤ q * den := Nat.mul_le_mul_right _ l
      linarith
  · rcases Nat.lt_or_gt_of_ne hne with l | l
    · have : (q + 1 + 1) * den ≤ m * den := Nat.mul_le_mul_right _ l
      linarith
    · have : (m + 1) * den ≤ (q + 1) * den := Nat.mul_le_mul_right _ l
      rcases k with k | ⟨k, -⟩ <;> linarith

/-- The quantum of a rounding: the fraction is below `2^(s+53)`, and at least `2^(s+52)`
unless `s = 0`. -/
theorem quantum_spec {n d : ℕ} (hd : 0 < d) (hn : n < 2 ^ 4096 * d) :
    n < 2 ^ (quantum n d + 53) * d ∧ (quantum n d = 0 ∨ 2 ^ (quantum n d + 52) * d ≤ n) := by
  have hq : n / d < 2 ^ 4096 := (Nat.div_lt_iff_lt_mul hd).mpr hn
  have hlt : n < (n / d + 1) * d := by
    have := Nat.div_add_mod n d
    have := Nat.mod_lt n hd
    nlinarith
  have hle : n / d * d ≤ n := Nat.div_mul_le_self n d
  unfold quantum
  rcases Nat.eq_zero_or_pos (n / d) with h0 | h0
  · rw [h0, ilog2_zero]
    refine ⟨?_, Or.inl rfl⟩
    rw [h0] at hlt
    calc n < (0 + 1) * d := hlt
      _ ≤ 2 ^ (0 - 52 + 53) * d := Nat.mul_le_mul_right _ (Nat.one_le_two_pow)
  · obtain ⟨a, b⟩ := ilog2_spec h0 hq
    constructor
    · have h1 : 2 ^ (ilog2 (n / d) + 1) ≤ 2 ^ (ilog2 (n / d) - 52 + 53) :=
        Nat.pow_le_pow_right (by norm_num) (by omega)
      calc n < (n / d + 1) * d := hlt
        _ ≤ 2 ^ (ilog2 (n / d) + 1) * d := Nat.mul_le_mul_right _ b
        _ ≤ 2 ^ (ilog2 (n / d) - 52 + 53) * d := Nat.mul_le_mul_right _ h1
    · rcases Nat.eq_zero_or_pos (ilog2 (n / d) - 52) with h | h
      · exact Or.inl h
      · right
        have e : ilog2 (n / d) - 52 + 52 = ilog2 (n / d) := by omega
        rw [e]
        calc 2 ^ ilog2 (n / d) * d ≤ n / d * d := Nat.mul_le_mul_right _ a
          _ ≤ n := hle

/-- The rounded significand has at most 53 bits, the value `2^53` included. -/
theorem rne_quantum_le {n d : ℕ} (hd : 0 < d) (hn : n < 2 ^ 4096 * d) :
    rne n (d * 2 ^ quantum n d) ≤ 2 ^ 53 := by
  apply rne_le_of_le (by positivity)
  have h := (quantum_spec hd hn).1
  rw [pow_add] at h
  nlinarith

/-- Above the subnormal range the rounded significand has its leading bit. -/
theorem rne_quantum_ge {n d : ℕ} (hd : 0 < d) (hn : n < 2 ^ 4096 * d)
    (hs : 0 < quantum n d) : 2 ^ 52 ≤ rne n (d * 2 ^ quantum n d) := by
  apply rne_ge_of_ge (by positivity)
  rcases (quantum_spec hd hn).2 with h | h
  · omega
  · rw [pow_add] at h
    nlinarith

/-- The quantum is at most `E` when the fraction is below `2^(E+53)`. -/
theorem quantum_le {n d E : ℕ} (hd : 0 < d) (hn : n < 2 ^ 4096 * d)
    (h : n < 2 ^ (E + 53) * d) : quantum n d ≤ E := by
  rcases (quantum_spec hd hn).2 with h0 | h1
  · omega
  · have : 2 ^ (quantum n d + 52) * d < 2 ^ (E + 53) * d := lt_of_le_of_lt h1 h
    have : 2 ^ (quantum n d + 52) < 2 ^ (E + 53) := lt_of_mul_lt_mul_right this (Nat.zero_le _)
    have := (Nat.pow_lt_pow_iff_right (by norm_num)).mp this
    omega

/-- A representable bound above the fraction bounds the rounded value. -/
theorem roundU_le {n d c t : ℕ} (hd : 0 < d) (hn : n < 2 ^ 4096 * d)
    (hc : c < 2 ^ 53) (h : n ≤ c * 2 ^ t * d) : roundU n d ≤ c * 2 ^ t := by
  have hs : quantum n d ≤ t := by
    apply quantum_le hd hn
    calc n ≤ c * 2 ^ t * d := h
      _ < 2 ^ (t + 53) * d := by
        apply Nat.mul_lt_mul_of_pos_right _ hd
        rw [pow_add, mul_comm]
        exact Nat.mul_lt_mul_of_pos_left hc (by positivity)
  obtain ⟨k, hk⟩ := Nat.exists_eq_add_of_le hs
  unfold roundU
  have e : c * 2 ^ t = c * 2 ^ k * 2 ^ quantum n d := by rw [hk, pow_add]; ring
  rw [e]
  apply Nat.mul_le_mul_right
  apply rne_le_of_le (by positivity)
  calc n ≤ c * 2 ^ t * d := h
    _ = c * 2 ^ k * (d * 2 ^ quantum n d) := by rw [e]; ring

/-- A representable bound below the fraction bounds the rounded value. -/
theorem roundU_ge {n d c t : ℕ} (hd : 0 < d) (hn : n < 2 ^ 4096 * d)
    (hc : c < 2 ^ 53) (h : c * 2 ^ t * d ≤ n) : c * 2 ^ t ≤ roundU n d := by
  unfold roundU
  rcases Nat.le_total (quantum n d) t with hs | hs
  · obtain ⟨k, hk⟩ := Nat.exists_eq_add_of_le hs
    have e : c * 2 ^ t = c * 2 ^ k * 2 ^ quantum n d := by rw [hk, pow_add]; ring
    rw [e]
    apply Nat.mul_le_mul_right
    apply rne_ge_of_ge (by positivity)
    calc c * 2 ^ k * (d * 2 ^ quantum n d) = c * 2 ^ t * d := by rw [e]; ring
      _ ≤ n := h
  · rcases Nat.eq_or_lt_of_le hs with hs' | hs'
    · rw [← hs']
      apply Nat.mul_le_mul_right
      apply rne_ge_of_ge (by positivity)
      calc c * (d * 2 ^ t) = c * 2 ^ t * d := by ring
        _ ≤ n := h
    · have h52 := rne_quantum_ge hd hn (by omega)
      have h1 : 2 ^ (t + 1) ≤ 2 ^ quantum n d := Nat.pow_le_pow_right (by norm_num) hs'
      calc c * 2 ^ t ≤ 2 ^ 53 * 2 ^ t := Nat.mul_le_mul_right _ hc.le
        _ = 2 ^ 52 * 2 ^ (t + 1) := by ring
        _ ≤ rne n (d * 2 ^ quantum n d) * 2 ^ quantum n d := Nat.mul_le_mul h52 h1

/-- A fraction that is a representable value rounds to itself. -/
theorem roundU_exact {d c t : ℕ} (hd : 0 < d) (hn : c * 2 ^ t * d < 2 ^ 4096 * d)
    (hc : c < 2 ^ 53) : roundU (c * 2 ^ t * d) d = c * 2 ^ t :=
  le_antisymm (roundU_le hd hn hc le_rfl) (roundU_ge hd hn hc le_rfl)

/-- Rounding is monotone. -/
theorem roundU_mono {n d n' d' : ℕ} (hd : 0 < d) (hn : n < 2 ^ 4096 * d) (hd' : 0 < d')
    (hn' : n' < 2 ^ 4096 * d') (h : n * d' ≤ n' * d) : roundU n d ≤ roundU n' d' := by
  rcases Nat.lt_trichotomy (quantum n d) (quantum n' d') with hs | hs | hs
  · have h52 := rne_quantum_ge hd' hn' (by omega)
    have h53 := rne_quantum_le hd hn
    have h1 : 2 ^ (quantum n d + 1) ≤ 2 ^ quantum n' d' := Nat.pow_le_pow_right (by norm_num) hs
    unfold roundU
    calc rne n (d * 2 ^ quantum n d) * 2 ^ quantum n d ≤ 2 ^ 53 * 2 ^ quantum n d :=
          Nat.mul_le_mul_right _ h53
      _ = 2 ^ 52 * 2 ^ (quantum n d + 1) := by ring
      _ ≤ rne n' (d' * 2 ^ quantum n' d') * 2 ^ quantum n' d' := Nat.mul_le_mul h52 h1
  · unfold roundU
    rw [hs]
    apply Nat.mul_le_mul_right
    apply rne_mono_frac (by positivity) (by positivity)
    calc n * (d' * 2 ^ quantum n' d') = n * d' * 2 ^ quantum n' d' := by ring
      _ ≤ n' * d * 2 ^ quantum n' d' := Nat.mul_le_mul_right _ h
      _ = n' * (d * 2 ^ quantum n' d') := by ring
  · exfalso
    have a := (quantum_spec hd' hn').1
    rcases (quantum_spec hd hn).2 with b | b
    · omega
    · have h1 : 2 ^ (quantum n' d' + 53) ≤ 2 ^ (quantum n d + 52) :=
        Nat.pow_le_pow_right (by norm_num) (by omega)
      have h2 : n' * d < 2 ^ (quantum n d + 52) * d' * d := by
        apply Nat.mul_lt_mul_of_pos_right _ hd
        calc n' < 2 ^ (quantum n' d' + 53) * d' := a
          _ ≤ 2 ^ (quantum n d + 52) * d' := Nat.mul_le_mul_right _ h1
      have h3 : 2 ^ (quantum n d + 52) * d' * d ≤ n * d' := by
        calc 2 ^ (quantum n d + 52) * d' * d = 2 ^ (quantum n d + 52) * d * d' := by ring
          _ ≤ n * d' := Nat.mul_le_mul_right _ b
      omega

/-- The rounding error is at most half a quantum. -/
theorem roundU_err {n d E : ℕ} (hd : 0 < d) (hn : n < 2 ^ 4096 * d)
    (h : n < 2 ^ (E + 53) * d) :
    2 * (roundU n d * d) ≤ 2 * n + d * 2 ^ E ∧ 2 * n ≤ 2 * (roundU n d * d) + d * 2 ^ E := by
  have hs := quantum_le hd hn h
  have hp : d * 2 ^ quantum n d ≤ d * 2 ^ E :=
    Nat.mul_le_mul_left _ (Nat.pow_le_pow_right (by norm_num) hs)
  obtain ⟨a, b⟩ := rne_near n (d * 2 ^ quantum n d) (by positivity)
  have e : roundU n d * d = rne n (d * 2 ^ quantum n d) * (d * 2 ^ quantum n d) := by
    unfold roundU; ring
  rw [e]
  constructor <;> omega

/-- A fraction in the binade of the normal value `c * 2^t` and strictly nearer to it than to
its neighbours rounds to it. -/
theorem roundU_near {n d c t : ℕ} (hd : 0 < d) (hn : n < 2 ^ 4096 * d)
    (h1 : 2 ^ (t + 52) * d ≤ n) (h2 : n < 2 ^ (t + 53) * d)
    (h3 : 2 * n < (2 * c + 1) * (d * 2 ^ t)) (h4 : 2 * c * (d * 2 ^ t) < 2 * n + d * 2 ^ t) :
    roundU n d = c * 2 ^ t := by
  have hq : quantum n d = t := by
    unfold quantum
    have : ilog2 (n / d) = t + 52 := by
      apply ilog2_eq
      · exact (Nat.le_div_iff_mul_le hd).mpr h1
      · exact (Nat.div_lt_iff_lt_mul hd).mpr h2
      · exact (Nat.div_lt_iff_lt_mul hd).mpr hn
    omega
  unfold roundU
  rw [hq, rne_eq_of_near (by positivity) h3 h4]

/-! ## The operations of binary64 -/

namespace F

theorem pack_fin (neg : Bool) (m s : ℕ) (hm : m < 2 ^ 53) (hs : s ≤ 2045) :
    ∃ M S, pack neg m s = fin neg M S ∧ M.val = m ∧ S.val = s := by
  have hm' : m < 9007199254740992 := by norm_num at hm; exact hm
  unfold pack
  rw [if_neg (by omega)]
  exact ⟨_, _, rfl, Nat.mod_eq_of_lt hm', Nat.mod_eq_of_lt (by omega)⟩

theorem pack_inf {neg : Bool} {m s : ℕ} (hs : 2045 < s) : pack neg m s = inf neg := by
  unfold pack
  rw [if_pos hs]

/-- The result of a rounding: the finite value of magnitude `roundU n d` when that is below
`2^1024`, the infinity otherwise. -/
theorem round_spec (neg : Bool) {n d : ℕ} (hd : 0 < d) (hn : n < 2 ^ 4096 * d) :
    (roundU n d < 2 ^ 2098 →
      ∃ M S, round neg n d = fin neg M S ∧ M.val * 2 ^ S.val = roundU n d) ∧
    (2 ^ 2098 ≤ roundU n d → round neg n d = inf neg) := by
  have h53 := rne_quantum_le hd hn
  have e53 : (2 : ℕ) ^ 53 = 9007199254740992 := by norm_num
  have e52 : (2 : ℕ) ^ 52 = 4503599627370496 := by norm_num
  have key : ∀ s : ℕ, 2045 < s → (2 : ℕ) ^ 2098 ≤ 2 ^ 52 * 2 ^ s := by
    intro s hs
    rw [← pow_add]
    exact Nat.pow_le_pow_right (by norm_num) (by omega)
  have key' : ∀ s : ℕ, s ≤ 2045 → ∀ m, m < 2 ^ 53 → m * 2 ^ s < (2 : ℕ) ^ 2098 := by
    intro s hs m hm
    calc m * 2 ^ s < 2 ^ 53 * 2 ^ s := Nat.mul_lt_mul_of_pos_right hm (by positivity)
      _ = 2 ^ (53 + s) := by rw [pow_add]
      _ ≤ 2 ^ 2098 := Nat.pow_le_pow_right (by norm_num) (by omega)
  unfold round roundU
  split_ifs with h
  · -- the significand rounded up to `2^53`
    have e : rne n (d * 2 ^ quantum n d) * 2 ^ quantum n d = 2 ^ 52 * 2 ^ (quantum n d + 1) := by
      rw [h, ← e53]; ring
    rw [e]
    rcases Nat.lt_or_ge 2045 (quantum n d + 1) with hs | hs
    · refine ⟨fun hlt => absurd (key _ hs) (not_le.mpr hlt), fun _ => pack_inf hs⟩
    · refine ⟨fun _ => ?_, fun hge => absurd (key' _ hs (2 ^ 52) (by norm_num)) (not_lt.mpr hge)⟩
      obtain ⟨M, S, e1, e2, e3⟩ := pack_fin neg 4503599627370496 (quantum n d + 1)
        (by norm_num) hs
      exact ⟨M, S, e1, by rw [e2, e3, e52]⟩
  · have hm : rne n (d * 2 ^ quantum n d) < 2 ^ 53 := by
      rw [e53] at h53 ⊢
      omega
    rcases Nat.lt_or_ge 2045 (quantum n d) with hs | hs
    · have h52 := rne_quantum_ge hd hn (by omega)
      have : (2 : ℕ) ^ 2098 ≤ rne n (d * 2 ^ quantum n d) * 2 ^ quantum n d :=
        (key _ hs).trans (Nat.mul_le_mul_right _ h52)
      exact ⟨fun hlt => absurd this (not_le.mpr hlt), fun _ => pack_inf hs⟩
    · refine ⟨fun _ => ?_, fun hge => absurd (key' _ hs _ hm) (not_lt.mpr hge)⟩
      obtain ⟨M, S, e1, e2, e3⟩ := pack_fin neg _ _ hm hs
      exact ⟨M, S, e1, by rw [e2, e3]⟩

/-- The magnitude of a finite value is below `2^1024`. -/
theorem units_lt (m : Fin 9007199254740992) (s : Fin 2046) :
    m.val * 2 ^ s.val < 2 ^ 2098 := by
  have hm : m.val < 2 ^ 53 := by
    have := m.isLt
    omega
  have hs : s.val ≤ 2045 := by
    have := s.isLt
    omega
  calc m.val * 2 ^ s.val < 2 ^ 53 * 2 ^ s.val := Nat.mul_lt_mul_of_pos_right hm (by positivity)
    _ = 2 ^ (53 + s.val) := by rw [pow_add]
    _ ≤ 2 ^ 2098 := Nat.pow_le_pow_right (by norm_num) (by omega)

theorem mul_fin (a b : Bool) (m m' : Fin 9007199254740992) (s s' : Fin 2046) :
    fin a m s * fin b m' s' =
      round (xor a b) ((m.val * 2 ^ s.val) * (m'.val * 2 ^ s'.val)) (2 ^ 1074) := rfl

theorem nan_times (x : F) : nan * x = nan := by
  cases x <;> rfl

theorem times_nan (x : F) : x * nan = nan := by
  cases x <;> rfl

/-- The product of two magnitudes is in the range of the rounding. -/
theorem mul_range {k k' : ℕ} (h : k < 2 ^ 2098) (h' : k' < 2 ^ 2098) :
    k * k' < 2 ^ 4096 * 2 ^ 1074 := by
  calc k * k' < 2 ^ 2098 * 2 ^ 2098 := Nat.mul_lt_mul'' h h'
    _ = 2 ^ 4196 := by rw [← pow_add]
    _ ≤ 2 ^ 5170 := Nat.pow_le_pow_right (by norm_num) (by norm_num)
    _ = 2 ^ 4096 * 2 ^ 1074 := by rw [← pow_add]

/-- The product of two finite values whose rounded magnitude is below `2^1024`. -/
theorem mul_fin_spec (a b : Bool) (m m' : Fin 9007199254740992) (s s' : Fin 2046)
    (h : roundU ((m.val * 2 ^ s.val) * (m'.val * 2 ^ s'.val)) (2 ^ 1074) < 2 ^ 2098) :
    ∃ M S, fin a m s * fin b m' s' = fin (xor a b) M S ∧
      M.val * 2 ^ S.val = roundU ((m.val * 2 ^ s.val) * (m'.val * 2 ^ s'.val)) (2 ^ 1074) := by
  rw [mul_fin]
  exact (round_spec _ (by positivity) (mul_range (units_lt m s) (units_lt m' s'))).1 h

theorem roundU_zero {d : ℕ} (hd : 0 < d) : roundU 0 d = 0 := by
  have h := roundU_le (n := 0) (c := 0) (t := 0) hd (by positivity) (by norm_num) (by simp)
  simpa using h

/-- The product of two values within bounds is within the product of the bounds, when that
is a `float64`. -/
theorem within_mul {B B' c t : ℕ} {x y : F} (hx : Within B x) (hy : Within B' y)
    (hc : c < 2 ^ 53) (hB : c * 2 ^ t < 2 ^ 2098) (h : B * B' ≤ c * 2 ^ t * 2 ^ 1074) :
    Within (c * 2 ^ t) (x * y) := by
  obtain ⟨a, m, s, rfl, hk, hz⟩ := hx
  obtain ⟨b, m', s', rfl, hk', hz'⟩ := hy
  have hn := mul_range (units_lt m s) (units_lt m' s')
  have hle : roundU ((m.val * 2 ^ s.val) * (m'.val * 2 ^ s'.val)) (2 ^ 1074) ≤ c * 2 ^ t :=
    roundU_le (by positivity) hn hc ((Nat.mul_le_mul hk hk').trans h)
  obtain ⟨M, S, e, hu⟩ := mul_fin_spec a b m m' s s' (lt_of_le_of_lt hle hB)
  refine ⟨xor a b, M, S, e, by rw [hu]; exact hle, ?_⟩
  intro hs
  have h0 : (m.val * 2 ^ s.val) * (m'.val * 2 ^ s'.val) = 0 := by
    cases a <;> cases b <;> simp at hs
    · rw [hz' rfl]; simp
    · rw [hz rfl]; simp
  rw [h0, roundU_zero (by positivity)] at hu
  rcases Nat.mul_eq_zero.mp hu with h1 | h1
  · exact h1
  · exact absurd h1 (by positivity)

/-- The conversion `uint32(x)` of a value within the 32-bit range is its integer part. -/
theorem trunc_within {B : ℕ} {x : F} (hx : Within B x) (hB : B < 4294967296 * 2 ^ 1074) :
    trunc x = some (x.units / 2 ^ 1074) := by
  obtain ⟨a, m, s, rfl, hk, hz⟩ := hx
  have hlt : m.val * 2 ^ s.val / 2 ^ 1074 < 4294967296 :=
    (Nat.div_lt_iff_lt_mul (by positivity)).mpr (lt_of_le_of_lt hk hB)
  cases a
  · simp only [trunc, units]
    rw [if_neg (by simp), if_pos hlt]
  · simp only [trunc, units]
    rw [hz rfl]
    simp

theorem toUint32_of_trunc (impl : F → ℕ) {x : F} {n : ℕ} (h : trunc x = some n) :
    toUint32 impl x = n := by
  unfold toUint32
  rw [h]

theorem toUint32_nan (impl : F → ℕ) : toUint32 impl nan = impl nan % 4294967296 := rfl

theorem ofUint32_units {n : ℕ} (h : n < 2 ^ 53) : (ofUint32 n).units = n * 2 ^ 1074 := by
  have h' : n < 9007199254740992 := by norm_num at h; exact h
  simp only [ofUint32, units, Nat.mod_eq_of_lt h']

theorem ofUint32_eq {n : ℕ} (h : n < 2 ^ 53) :
    ∃ M S, ofUint32 n = fin false M S ∧ M.val * 2 ^ S.val = n * 2 ^ 1074 := by
  have h' : n < 9007199254740992 := by norm_num at h; exact h
  exact ⟨_, _, rfl, by simp only [Nat.mod_eq_of_lt h']⟩

theorem within_ofUint32 {n : ℕ} (h : n < 2 ^ 53) : Within (n * 2 ^ 1074) (ofUint32 n) := by
  have h' : n < 9007199254740992 := by norm_num at h; exact h
  exact ⟨false, _, _, rfl, by simp [Nat.mod_eq_of_lt h'], by simp⟩

end F

open F

/-! ## The clamp and the packed channels in binary64 -/

/-- A clamped value is NaN, which happens only on NaN, or a value of the unit interval. -/
theorem clamp01_cases (x : F) :
    (x = nan ∧ clamp01 x = nan) ∨ Within (2 ^ 1074) (clamp01 x) := by
  have w0 : Within (2 ^ 1074) (ofUint32 0) := by
    have := within_ofUint32 (n := 0) (by norm_num)
    obtain ⟨a, m, s, e, h1, h2⟩ := this
    exact ⟨a, m, s, e, h1.trans (by simp), h2⟩
  have w1 : Within (2 ^ 1074) (ofUint32 1) := by
    have := within_ofUint32 (n := 1) (by norm_num)
    simpa using this
  have e1 : 1 % 9007199254740992 = 1 := by norm_num
  cases x with
  | nan => exact Or.inl ⟨rfl, rfl⟩
  | inf neg =>
    right
    cases neg
    · have : clamp01 (inf false) = ofUint32 1 := rfl
      rw [this]; exact w1
    · have : clamp01 (inf true) = ofUint32 0 := rfl
      rw [this]; exact w0
  | fin neg m s =>
    right
    cases neg
    · by_cases h : 1 * 2 ^ 1074 < m.val * 2 ^ s.val
      · have : clamp01 (fin false m s) = ofUint32 1 := by
          simp only [clamp01, lt, ofUint32, Nat.zero_mod, e1, zero_mul, Nat.not_lt_zero, decide_False,
            Bool.false_eq_true, if_false, h, decide_True, if_true, lt_self_iff_false, or_false]
        rw [this]; exact w1
      · have : clamp01 (fin false m s) = fin false m s := by
          simp only [clamp01, lt, ofUint32, Nat.zero_mod, e1, zero_mul, Nat.not_lt_zero, decide_False,
            Bool.false_eq_true, if_false, h, decide_True, if_true, lt_self_iff_false, or_false]
        rw [this]
        exact ⟨false, m, s, rfl, by omega, by simp⟩
    · by_cases h : 0 < m.val
      · have : clamp01 (fin true m s) = ofUint32 0 := by
          simp only [clamp01, lt, ofUint32, Nat.zero_mod, e1, zero_mul, Nat.not_lt_zero, decide_False,
            Bool.false_eq_true, if_false, h, decide_True, if_true, lt_self_iff_false, or_false]
        rw [this]; exact w0
      · have : clamp01 (fin true m s) = fin true m s := by
          simp only [clamp01, lt, ofUint32, Nat.zero_mod, e1, zero_mul, Nat.not_lt_zero, decide_False,
            Bool.false_eq_true, if_false, h, decide_True, if_true, lt_self_iff_false, or_false]
        rw [this]
        exact ⟨true, m, s, rfl, by simp [Nat.eq_zero_of_not_pos h], fun _ => by omega⟩

/-- Multiplication by a fixed finite value is monotone in the magnitude of the other
factor. -/
theorem mul_units_mono (a a' b : Bool) (m m' k : Fin 9007199254740992) (s s' j : Fin 2046)
    (h : m.val * 2 ^ s.val ≤ m'.val * 2 ^ s'.val)
    (hfin : roundU ((m'.val * 2 ^ s'.val) * (k.val * 2 ^ j.val)) (2 ^ 1074) < 2 ^ 2098) :
    (fin a m s * fin b k j).units ≤ (fin a' m' s' * fin b k j).units := by
  have hn := mul_range (units_lt m s) (units_lt k j)
  have hn' := mul_range (units_lt m' s') (units_lt k j)
  have hle : roundU ((m.val * 2 ^ s.val) * (k.val * 2 ^ j.val)) (2 ^ 1074) ≤
      roundU ((m'.val * 2 ^ s'.val) * (k.val * 2 ^ j.val)) (2 ^ 1074) :=
    roundU_mono (by positivity) hn (by positivity) hn'
      (Nat.mul_le_mul_right _ (Nat.mul_le_mul_right _ h))
  obtain ⟨M, S, e, hu⟩ := mul_fin_spec a b m k s j (lt_of_le_of_lt hle hfin)
  obtain ⟨M', S', e', hu'⟩ := mul_fin_spec a' b m' k s' j hfin
  rw [e, e']
  simp only [units]
  rw [hu, hu']
  exact hle

/-- The constant `0xffff` is within 65535. -/
theorem within_K : Within (65535 * 2 ^ 1074) (ofUint32 65535) :=
  within_ofUint32 (by norm_num)

/-- A value of the unit interval times `0xffff` is within 65535. -/
theorem within_mul_K {x : F} (hx : Within (2 ^ 1074) x) :
    Within (65535 * 2 ^ 1074) (x * ofUint32 65535) :=
  within_mul hx within_K (by norm_num)
    (by
      calc 65535 * 2 ^ 1074 < 2 ^ 16 * 2 ^ 1074 := Nat.mul_lt_mul_of_pos_right (by norm_num)
            (by positivity)
        _ = 2 ^ 1090 := by rw [← pow_add]
        _ ≤ 2 ^ 2098 := Nat.pow_le_pow_right (by norm_num) (by norm_num))
    (by ring_nf; exact le_refl _)

/-- The product of two values of the unit interval is in the unit interval. -/
theorem within_mul_unit {x y : F} (hx : Within (2 ^ 1074) x) (hy : Within (2 ^ 1074) y) :
    Within (2 ^ 1074) (x * y) := by
  have h := within_mul (c := 1) (t := 1074) hx hy (by norm_num)
    (by rw [one_mul]; exact Nat.pow_lt_pow_right (by norm_num) (by norm_num))
    (by rw [one_mul])
  rwa [one_mul] at h

/-- The integer part of a value within 65535 is at most 65535. -/
theorem trunc_le {x : F} (hx : Within (65535 * 2 ^ 1074) x) :
    trunc x = some (x.units / 2 ^ 1074) ∧ x.units / 2 ^ 1074 ≤ 65535 := by
  refine ⟨trunc_within hx (Nat.mul_lt_mul_of_pos_right (by norm_num) (by positivity)), ?_⟩
  obtain ⟨a, m, s, rfl, hk, -⟩ := hx
  simp only [units]
  calc m.val * 2 ^ s.val / 2 ^ 1074 ≤ 65535 * 2 ^ 1074 / 2 ^ 1074 := Nat.div_le_div_right hk
    _ = 65535 := Nat.mul_div_cancel _ (by positivity)

/-- The premultiplied product is at most the alpha product. -/
theorem premul_units_le {x y : F} (hx : Within (2 ^ 1074) x) (hy : Within (2 ^ 1074) y) :
    (x * y * ofUint32 65535).units ≤ (x * ofUint32 65535).units := by
  obtain ⟨a, m, s, rfl, hk, hz⟩ := hx
  obtain ⟨b, m', s', rfl, hk', hz'⟩ := hy
  -- the product `x * y` is at most `x`
  have hle : Within (m.val * 2 ^ s.val) (fin a m s * fin b m' s') :=
    within_mul ⟨a, m, s, rfl, le_rfl, hz⟩ ⟨b, m', s', rfl, hk', hz'⟩
      (by have := m.isLt; omega) (units_lt m s) (Nat.le_refl _)
  obtain ⟨c, M, S, e, hM, -⟩ := hle
  obtain ⟨kM, kS, eK, hK⟩ := ofUint32_eq (n := 65535) (by norm_num)
  rw [e, eK]
  have hfin : roundU ((m.val * 2 ^ s.val) * (kM.val * 2 ^ kS.val)) (2 ^ 1074) < 2 ^ 2098 := by
    have hn := mul_range (units_lt m s) (units_lt kM kS)
    have : roundU ((m.val * 2 ^ s.val) * (kM.val * 2 ^ kS.val)) (2 ^ 1074) ≤
        65535 * 2 ^ 1074 := by
      apply roundU_le (by positivity) hn (by norm_num)
      rw [hK]
      calc m.val * 2 ^ s.val * (65535 * 2 ^ 1074) = 65535 * (m.val * 2 ^ s.val) * 2 ^ 1074 := by
            ring
        _ ≤ 65535 * 2 ^ 1074 * 2 ^ 1074 :=
            Nat.mul_le_mul_right _ (Nat.mul_le_mul_left _ hk)
    calc _ ≤ 65535 * 2 ^ 1074 := this
      _ < 2 ^ 16 * 2 ^ 1074 := Nat.mul_lt_mul_of_pos_right (by norm_num) (by positivity)
      _ = 2 ^ 1090 := by rw [← pow_add]
      _ ≤ 2 ^ 2098 := Nat.pow_le_pow_right (by norm_num) (by norm_num)
  exact mul_units_mono c a false M m kM S s kS hM hfin

/-- The alpha channel: the conversion of NaN when `Alpha` is NaN, and otherwise the integer
part of the product, which is at most 65535. -/
theorem alpha_channel_cases (impl : F → ℕ) (α : F) :
    (α = nan ∧ clamp01 α * ofUint32 65535 = nan ∧
      toUint32 impl (clamp01 α * ofUint32 65535) = toUint32 impl nan) ∨
    (Within (65535 * 2 ^ 1074) (clamp01 α * ofUint32 65535) ∧
      toUint32 impl (clamp01 α * ofUint32 65535) =
        (clamp01 α * ofUint32 65535).units / 2 ^ 1074 ∧
      (clamp01 α * ofUint32 65535).units / 2 ^ 1074 ≤ 65535) := by
  rcases clamp01_cases α with ⟨h, e⟩ | h
  · left
    rw [e, nan_times]
    exact ⟨h, rfl, rfl⟩
  · right
    have w := within_mul_K h
    exact ⟨w, toUint32_of_trunc impl (trunc_le w).1, (trunc_le w).2⟩

/-- A colour channel: the conversion of NaN when `Alpha` or the channel is NaN, and otherwise
the integer part of the product, which is at most that of the alpha channel. -/
theorem colour_channel_cases (impl : F → ℕ) (α r : F) :
    ((α = nan ∨ r = nan) ∧ clamp01 α * clamp01 r * ofUint32 65535 = nan ∧
      toUint32 impl (clamp01 α * clamp01 r * ofUint32 65535) = toUint32 impl nan) ∨
    (α ≠ nan ∧ Within (65535 * 2 ^ 1074) (clamp01 α * clamp01 r * ofUint32 65535) ∧
      toUint32 impl (clamp01 α * clamp01 r * ofUint32 65535) =
        (clamp01 α * clamp01 r * ofUint32 65535).units / 2 ^ 1074 ∧
      (clamp01 α * clamp01 r * ofUint32 65535).units / 2 ^ 1074 ≤
        (clamp01 α * ofUint32 65535).units / 2 ^ 1074 ∧
      toUint32 impl (clamp01 α * ofUint32 65535) =
        (clamp01 α * ofUint32 65535).units / 2 ^ 1074 ∧
      (clamp01 α * ofUint32 65535).units / 2 ^ 1074 ≤ 65535) := by
  rcases clamp01_cases α with ⟨h, e⟩ | h
  · left
    rw [e, nan_times, nan_times]
    exact ⟨Or.inl h, rfl, rfl⟩
  · rcases clamp01_cases r with ⟨h', e'⟩ | h'
    · left
      rw [e', times_nan, nan_times]
      exact ⟨Or.inr h', rfl, rfl⟩
    · right
      have w := within_mul_K (within_mul_unit h h')
      have wa := within_mul_K h
      refine ⟨?_, w, toUint32_of_trunc impl (trunc_le w).1,
        Nat.div_le_div_right (premul_units_le h h'),
        toUint32_of_trunc impl (trunc_le wa).1, (trunc_le wa).2⟩
      rintro rfl
      obtain ⟨a, m, s, e, -, -⟩ := h
      rw [show clamp01 nan = nan from rfl] at e
      cases e

/-- With `Alpha <= 0` the clamped `Alpha` is a zero. -/
theorem clamp01_within_zero {α : F} (h : F.le α (ofUint32 0) = true) :
    Within 0 (clamp01 α) := by
  have e1 : 1 % 9007199254740992 = 1 := by norm_num
  have w0 : Within 0 (ofUint32 0) := ⟨false, _, _, rfl, by simp, by simp⟩
  cases α with
  | nan => exact absurd h (by decide)
  | inf neg =>
    cases neg
    · exact absurd h (by decide)
    · have : clamp01 (inf true) = ofUint32 0 := rfl
      rw [this]; exact w0
  | fin neg m s =>
    cases neg
    · have hm : m.val * 2 ^ s.val = 0 := by
        simp only [F.le, F.lt, F.feq, ofUint32, Nat.zero_mod, zero_mul, Bool.false_eq_true,
          if_false, Nat.not_lt_zero, decide_False, Bool.false_or, Bool.and_eq_true,
          decide_eq_true_eq] at h
        exact h.1
      have hlt : ¬ 1 * 2 ^ 1074 < m.val * 2 ^ s.val := by rw [hm]; exact Nat.not_lt_zero _
      have : clamp01 (fin false m s) = fin false m s := by
        simp only [clamp01, lt, ofUint32, Nat.zero_mod, e1, zero_mul, Nat.not_lt_zero,
          decide_False, Bool.false_eq_true, if_false, hlt]
      rw [this]
      exact ⟨false, m, s, rfl, by omega, by simp⟩
    · by_cases hm : 0 < m.val
      · have : clamp01 (fin true m s) = ofUint32 0 := by
          simp only [clamp01, lt, ofUint32, Nat.zero_mod, e1, zero_mul, Nat.not_lt_zero,
            decide_False, Bool.false_eq_true, if_false, hm, decide_True, if_true,
            lt_self_iff_false, or_false]
        rw [this]; exact w0
      · have : clamp01 (fin true m s) = fin true m s := by
          simp only [clamp01, lt, ofUint32, Nat.zero_mod, e1, zero_mul, Nat.not_lt_zero,
            decide_False, Bool.false_eq_true, if_false, hm, decide_True, if_true,
            lt_self_iff_false, or_false]
        rw [this]
        exact ⟨true, m, s, rfl, by simp [Nat.eq_zero_of_not_pos hm], fun _ => by omega⟩

/-- With `Alpha <= 0` the alpha channel is 0. -/
theorem alpha_channel_zero (impl : F → ℕ) {α : F} (h : F.le α (ofUint32 0) = true) :
    toUint32 impl (clamp01 α * ofUint32 65535) = 0 := by
  have w : Within (0 * 2 ^ 0) (clamp01 α * ofUint32 65535) :=
    within_mul (clamp01_within_zero h) within_K (by norm_num) (by norm_num) (by simp)
  have hB : 0 * 2 ^ 0 < 4294967296 * 2 ^ 1074 := by positivity
  rw [toUint32_of_trunc impl (trunc_within w hB)]
  obtain ⟨a, m, s, e, hk, -⟩ := w
  rw [e]
  simp only [units]
  have : m.val * 2 ^ s.val = 0 := by omega
  rw [this]
  exact Nat.zero_div _

/-! ## The alpha channel of a converted colour -/

/-- A value of the unit interval is left unchanged by the clamp. -/
theorem clamp01_of_within {x : F} (h : Within (2 ^ 1074) x) : clamp01 x = x := by
  have e1 : 1 % 9007199254740992 = 1 := by norm_num
  obtain ⟨a, m, s, rfl, hk, hz⟩ := h
  cases a
  · have h : ¬ 1 * 2 ^ 1074 < m.val * 2 ^ s.val := by omega
    simp only [clamp01, lt, ofUint32, Nat.zero_mod, e1, zero_mul, Nat.not_lt_zero, decide_False,
      Bool.false_eq_true, if_false, h]
  · have h : ¬ 0 < m.val := by
      rw [hz rfl]; exact lt_irrefl 0
    simp only [clamp01, lt, ofUint32, Nat.zero_mod, e1, zero_mul, Nat.not_lt_zero, decide_False,
      Bool.false_eq_true, if_false, h, decide_True, if_true, lt_self_iff_false, or_false]

/-- The quotient `float64(a) / 0xffff` for `a <= 65535`: a value of the unit interval, the
rounding of `a / 65535`. -/
theorem alpha_quotient {a : ℕ} (h : a ≤ 65535) :
    ∃ M S, ofUint32 a / ofUint32 65535 = fin false M S ∧
      M.val * 2 ^ S.val = roundU (a * 2 ^ 1074 * 2 ^ 1074) (65535 * 2 ^ 1074) ∧
      M.val * 2 ^ S.val ≤ 2 ^ 1074 := by
  have ea : a % 9007199254740992 = a := Nat.mod_eq_of_lt (by omega)
  have ek : 65535 % 9007199254740992 = 65535 := by norm_num
  have hn : a * 2 ^ 1074 * 2 ^ 1074 < 2 ^ 4096 * (65535 * 2 ^ 1074) := by
    have h1 : a * 2 ^ 1074 < 2 ^ 4096 := by
      calc a * 2 ^ 1074 < 2 ^ 16 * 2 ^ 1074 :=
            Nat.mul_lt_mul_of_pos_right (by norm_num; omega) (by positivity)
        _ = 2 ^ 1090 := by rw [← pow_add]
        _ ≤ 2 ^ 4096 := Nat.pow_le_pow_right (by norm_num) (by norm_num)
    calc a * 2 ^ 1074 * 2 ^ 1074 < 2 ^ 4096 * 2 ^ 1074 :=
          Nat.mul_lt_mul_of_pos_right h1 (by positivity)
      _ ≤ 2 ^ 4096 * (65535 * 2 ^ 1074) := Nat.mul_le_mul_left _ (by omega)
  have hle : roundU (a * 2 ^ 1074 * 2 ^ 1074) (65535 * 2 ^ 1074) ≤ 1 * 2 ^ 1074 := by
    apply roundU_le (by positivity) hn (by norm_num)
    calc a * 2 ^ 1074 * 2 ^ 1074 ≤ 65535 * 2 ^ 1074 * 2 ^ 1074 :=
          Nat.mul_le_mul_right _ (Nat.mul_le_mul_right _ h)
      _ = 1 * 2 ^ 1074 * (65535 * 2 ^ 1074) := by ring
  have hlt : roundU (a * 2 ^ 1074 * 2 ^ 1074) (65535 * 2 ^ 1074) < 2 ^ 2098 :=
    lt_of_le_of_lt hle (by rw [one_mul]; exact Nat.pow_lt_pow_right (by norm_num) (by norm_num))
  obtain ⟨M, S, e, hu⟩ := (round_spec false (by positivity) hn).1 hlt
  refine ⟨M, S, ?_, hu, by rw [hu]; simpa using hle⟩
  rw [← e]
  show F.div (ofUint32 a) (ofUint32 65535) = _
  simp only [F.div, ofUint32, ea, ek]
  rw [if_neg (by norm_num)]
  rfl

/-- The arithmetic of the alpha round trip: with `P` the product of the rounded quotient and
65535, `x` the value `a`, `y` the power of two below `a` and `v` the unit, all in units of
`2^-68`, the error of the division leaves `P` in the binade of `a` and strictly nearer to `a`
than half a quantum. -/
theorem alpha_arith (P x y v : ℕ) (hv : 0 < v) (hy : y ≤ 32768 * v) (h1 : y + v ≤ x)
    (h2 : x + v ≤ 2 * y) (e1 : 2 * P ≤ 2 * (295147905179352825856 * x) + 65535 * y)
    (e2 : 2 * (295147905179352825856 * x) ≤ 2 * P + 65535 * y) :
    295147905179352825856 * y ≤ P ∧ P < 590295810358705651712 * y ∧
      2 * P < 2 * (295147905179352825856 * x) + 65536 * y ∧
      2 * (295147905179352825856 * x) < 2 * P + 65536 * y := by
  refine ⟨?_, ?_, ?_, ?_⟩ <;> omega

/-- The product of the rounded quotient with 65535 rounds back to `a`, for an `a` strictly
between two powers of two and below 65535. -/
theorem alpha_key {a j : ℕ} (hj : j ≤ 15) (h1 : 2 ^ j < a) (h2 : a < 2 ^ (j + 1))
    (h3 : a * 32768 < 65535 * 2 ^ j) :
    roundU (roundU (a * 2 ^ 1074 * 2 ^ 1074) (65535 * 2 ^ 1074) * (65535 * 2 ^ 1074))
      (2 ^ 1074) = a * 2 ^ 1074 := by
  have hA : 2 ^ j ≤ 32768 := by
    calc 2 ^ j ≤ 2 ^ 15 := Nat.pow_le_pow_right (by norm_num) hj
      _ = 32768 := by norm_num
  have hU : (2 : ℕ) ^ 1074 = 2 ^ 68 * 2 ^ 1006 := by rw [← pow_add]
  have hE : (2 : ℕ) ^ (1006 + j) = 2 ^ j * 2 ^ 1006 := by rw [pow_add, mul_comm]
  have hE53 : (2 : ℕ) ^ (1006 + j + 53) = 2 ^ 53 * (2 ^ j * 2 ^ 1006) := by
    rw [pow_add, pow_add]; ring
  have ht : (2 : ℕ) ^ (1022 + j) = 2 ^ 16 * (2 ^ j * 2 ^ 1006) := by
    rw [show 1022 + j = 16 + (j + 1006) by omega, pow_add, pow_add]
  have ht52 : (2 : ℕ) ^ (1022 + j + 52) = 2 ^ 68 * (2 ^ j * 2 ^ 1006) := by
    rw [show 1022 + j + 52 = 68 + (j + 1006) by omega, pow_add, pow_add]
  have ht53 : (2 : ℕ) ^ (1022 + j + 53) = 2 ^ 69 * (2 ^ j * 2 ^ 1006) := by
    rw [show 1022 + j + 53 = 69 + (j + 1006) by omega, pow_add, pow_add]
  have ec : a * 2 ^ (52 - j) * 2 ^ (1022 + j) = a * 2 ^ 1074 := by
    rw [mul_assoc, ← pow_add, show 52 - j + (1022 + j) = 1074 by omega]
  have h2' : a + 1 ≤ 2 * 2 ^ j := by rw [pow_succ] at h2; omega
  -- the atoms
  have hV : 0 < 2 ^ 1006 := by positivity
  have hAV : 2 ^ j * 2 ^ 1006 ≤ 32768 * 2 ^ 1006 := Nat.mul_le_mul_right _ hA
  have haV1 : (2 ^ j + 1) * 2 ^ 1006 ≤ a * 2 ^ 1006 := Nat.mul_le_mul_right _ h1
  have haV2 : (a + 1) * 2 ^ 1006 ≤ 2 * 2 ^ j * 2 ^ 1006 := Nat.mul_le_mul_right _ h2'
  have haV3 : a * 32768 * 2 ^ 1006 < 65535 * 2 ^ j * 2 ^ 1006 :=
    Nat.mul_lt_mul_of_pos_right h3 hV
  have hApos : 0 < 2 ^ j * 2 ^ 1006 := by positivity
  -- the division
  have hn1 : a * 2 ^ 1074 * 2 ^ 1074 < 2 ^ 4096 * (65535 * 2 ^ 1074) := by
    have h1 : a * 2 ^ 1074 < 2 ^ 4096 := by
      calc a * 2 ^ 1074 < 2 ^ 16 * 2 ^ 1074 :=
            Nat.mul_lt_mul_of_pos_right (by norm_num; omega) (by positivity)
        _ = 2 ^ 1090 := by rw [← pow_add]
        _ ≤ 2 ^ 4096 := Nat.pow_le_pow_right (by norm_num) (by norm_num)
    calc a * 2 ^ 1074 * 2 ^ 1074 < 2 ^ 4096 * 2 ^ 1074 :=
          Nat.mul_lt_mul_of_pos_right h1 (by positivity)
      _ ≤ 2 ^ 4096 * (65535 * 2 ^ 1074) := Nat.mul_le_mul_left _ (by omega)
  have hE1 : a * 2 ^ 1074 * 2 ^ 1074 < 2 ^ (1006 + j + 53) * (65535 * 2 ^ 1074) := by
    have : a * 2 ^ 1074 < 2 ^ (1006 + j + 53) * 65535 := by
      rw [hE53, hU]
      calc a * (2 ^ 68 * 2 ^ 1006) = 2 ^ 53 * (a * 32768 * 2 ^ 1006) := by norm_num; ring
        _ < 2 ^ 53 * (65535 * 2 ^ j * 2 ^ 1006) :=
            Nat.mul_lt_mul_of_pos_left haV3 (by positivity)
        _ = 2 ^ 53 * (2 ^ j * 2 ^ 1006) * 65535 := by ring
    calc a * 2 ^ 1074 * 2 ^ 1074 < 2 ^ (1006 + j + 53) * 65535 * 2 ^ 1074 :=
          Nat.mul_lt_mul_of_pos_right this (by positivity)
      _ = 2 ^ (1006 + j + 53) * (65535 * 2 ^ 1074) := by ring
  obtain ⟨e1, e2⟩ := roundU_err (E := 1006 + j) (by positivity) hn1 hE1
  have hq1 : roundU (a * 2 ^ 1074 * 2 ^ 1074) (65535 * 2 ^ 1074) ≤ 1 * 2 ^ 1074 := by
    apply roundU_le (by positivity) hn1 (by norm_num)
    calc a * 2 ^ 1074 * 2 ^ 1074 ≤ 65535 * 2 ^ 1074 * 2 ^ 1074 :=
          Nat.mul_le_mul_right _ (Nat.mul_le_mul_right _ (by omega))
      _ = 1 * 2 ^ 1074 * (65535 * 2 ^ 1074) := by ring
  generalize roundU (a * 2 ^ 1074 * 2 ^ 1074) (65535 * 2 ^ 1074) = kq at e1 e2 hq1 ⊢
  have e1' : 2 * (kq * 65535) ≤ 2 * (a * 2 ^ 1074) + 65535 * 2 ^ (1006 + j) := by
    apply Nat.le_of_mul_le_mul_right _ (show 0 < 2 ^ 1074 by positivity)
    calc 2 * (kq * 65535) * 2 ^ 1074 = 2 * (kq * (65535 * 2 ^ 1074)) := by ring
      _ ≤ 2 * (a * 2 ^ 1074 * 2 ^ 1074) + 65535 * 2 ^ 1074 * 2 ^ (1006 + j) := e1
      _ = (2 * (a * 2 ^ 1074) + 65535 * 2 ^ (1006 + j)) * 2 ^ 1074 := by ring
  have e2' : 2 * (a * 2 ^ 1074) ≤ 2 * (kq * 65535) + 65535 * 2 ^ (1006 + j) := by
    apply Nat.le_of_mul_le_mul_right _ (show 0 < 2 ^ 1074 by positivity)
    calc 2 * (a * 2 ^ 1074) * 2 ^ 1074 = 2 * (a * 2 ^ 1074 * 2 ^ 1074) := by ring
      _ ≤ 2 * (kq * (65535 * 2 ^ 1074)) + 65535 * 2 ^ 1074 * 2 ^ (1006 + j) := e2
      _ = (2 * (kq * 65535) + 65535 * 2 ^ (1006 + j)) * 2 ^ 1074 := by ring
  rw [← ec]
  have hn2 : kq * (65535 * 2 ^ 1074) < 2 ^ 4096 * 2 ^ 1074 := by
    have : kq * 65535 < 2 ^ 4096 := by
      calc kq * 65535 ≤ 1 * 2 ^ 1074 * 65535 := Nat.mul_le_mul_right _ hq1
        _ < 2 ^ 1074 * 2 ^ 16 := by norm_num
        _ = 2 ^ 1090 := by rw [← pow_add]
        _ ≤ 2 ^ 4096 := Nat.pow_le_pow_right (by norm_num) (by norm_num)
    calc kq * (65535 * 2 ^ 1074) = kq * 65535 * 2 ^ 1074 := by ring
      _ < 2 ^ 4096 * 2 ^ 1074 := Nat.mul_lt_mul_of_pos_right this (by positivity)
  have key : 2 ^ 68 * (2 ^ j * 2 ^ 1006) ≤ kq * 65535 ∧
      kq * 65535 < 2 ^ 69 * (2 ^ j * 2 ^ 1006) ∧
      2 * (kq * 65535) < 2 * (a * 2 ^ 1074) + 2 ^ 16 * (2 ^ j * 2 ^ 1006) ∧
      2 * (a * 2 ^ 1074) < 2 * (kq * 65535) + 2 ^ 16 * (2 ^ j * 2 ^ 1006) := by
    have eU : a * 2 ^ 1074 = 295147905179352825856 * (a * 2 ^ 1006) := by
      rw [hU]; norm_num; ring
    rw [hE, eU] at e1' e2'
    rw [eU]
    have := alpha_arith (kq * 65535) (a * 2 ^ 1006) (2 ^ j * 2 ^ 1006) (2 ^ 1006) hV hAV
      (by linarith) (by linarith) e1' e2'
    norm_num
    exact this
  obtain ⟨k1, k2, k3, k4⟩ := key
  apply roundU_near (by positivity) hn2
  · rw [ht52]
    calc 2 ^ 68 * (2 ^ j * 2 ^ 1006) * 2 ^ 1074 ≤ kq * 65535 * 2 ^ 1074 :=
          Nat.mul_le_mul_right _ k1
      _ = kq * (65535 * 2 ^ 1074) := by ring
  · rw [ht53]
    calc kq * (65535 * 2 ^ 1074) = kq * 65535 * 2 ^ 1074 := by ring
      _ < 2 ^ 69 * (2 ^ j * 2 ^ 1006) * 2 ^ 1074 :=
          Nat.mul_lt_mul_of_pos_right k2 (by positivity)
  · calc 2 * (kq * (65535 * 2 ^ 1074)) = 2 * (kq * 65535) * 2 ^ 1074 := by ring
      _ < (2 * (a * 2 ^ 1074) + 2 ^ 16 * (2 ^ j * 2 ^ 1006)) * 2 ^ 1074 :=
          Nat.mul_lt_mul_of_pos_right k3 (by positivity)
      _ = (2 * (a * 2 ^ (52 - j)) + 1) * (2 ^ 1074 * 2 ^ (1022 + j)) := by
          rw [← ht, ← ec]; ring
  · calc 2 * (a * 2 ^ (52 - j)) * (2 ^ 1074 * 2 ^ (1022 + j))
          = 2 * (a * 2 ^ 1074) * 2 ^ 1074 := by rw [← ec]; ring
      _ < (2 * (kq * 65535) + 2 ^ 16 * (2 ^ j * 2 ^ 1006)) * 2 ^ 1074 :=
          Nat.mul_lt_mul_of_pos_right k4 (by positivity)
      _ = 2 * (kq * (65535 * 2 ^ 1074)) + 2 ^ 1074 * 2 ^ (1022 + j) := by
          rw [← ht]; ring

/-- The alpha round trip at the powers of two, by evaluation. -/
theorem alpha_pow2 : ∀ j < 16,
    roundU (roundU (2 ^ j * 2 ^ 1074 * 2 ^ 1074) (65535 * 2 ^ 1074) * (65535 * 2 ^ 1074))
      (2 ^ 1074) = 2 ^ j * 2 ^ 1074 := by
  decide!

/-- The alpha round trip at 65535, by evaluation. -/
theorem alpha_max :
    roundU (roundU (65535 * 2 ^ 1074 * 2 ^ 1074) (65535 * 2 ^ 1074) * (65535 * 2 ^ 1074))
      (2 ^ 1074) = 65535 * 2 ^ 1074 := by
  decide!

/-- The product of the rounded quotient `a / 65535` with 65535 rounds to `a`. -/
theorem alpha_units {a : ℕ} (h1 : 1 ≤ a) (h2 : a ≤ 65535) :
    roundU (roundU (a * 2 ^ 1074 * 2 ^ 1074) (65535 * 2 ^ 1074) * (65535 * 2 ^ 1074))
      (2 ^ 1074) = a * 2 ^ 1074 := by
  have ha : a ≠ 0 := by omega
  have hlo : 2 ^ a.log2 ≤ a := Nat.log2_self_le ha
  have hhi : a < 2 ^ (a.log2 + 1) := Nat.lt_log2_self
  have hj : a.log2 < 16 := (Nat.log2_lt ha).mpr (by norm_num; omega)
  by_cases hp : a = 2 ^ a.log2
  · have := alpha_pow2 a.log2 hj
    rw [← hp] at this
    exact this
  by_cases hm : a = 65535
  · rw [hm]; exact alpha_max
  have hA : 2 ^ a.log2 ≤ 2 ^ 15 := Nat.pow_le_pow_right (by norm_num) (by omega)
  apply alpha_key (j := a.log2) (by omega) (lt_of_le_of_ne hlo (Ne.symm hp)) hhi
  rw [pow_succ] at hhi
  norm_num at hA
  omega

/-- The alpha channel of the Oklab value converted from a colour of packed alpha `a`. -/
theorem alpha_path (impl : F → ℕ) {a : ℕ} (h1 : 1 ≤ a) (h2 : a ≤ 65535) :
    toUint32 impl (clamp01 (ofUint32 a / ofUint32 65535) * ofUint32 65535) = a := by
  obtain ⟨M, S, e, hu, hle⟩ := alpha_quotient h2
  obtain ⟨kM, kS, eK, hK⟩ := ofUint32_eq (n := 65535) (by norm_num)
  rw [e, clamp01_of_within ⟨false, M, S, rfl, hle, by simp⟩, eK]
  have key : roundU ((M.val * 2 ^ S.val) * (kM.val * 2 ^ kS.val)) (2 ^ 1074) = a * 2 ^ 1074 := by
    rw [hu, hK]
    exact alpha_units h1 h2
  have hlt : a * 2 ^ 1074 < 4294967296 * 2 ^ 1074 :=
    Nat.mul_lt_mul_of_pos_right (by omega) (by positivity)
  have hfin : roundU ((M.val * 2 ^ S.val) * (kM.val * 2 ^ kS.val)) (2 ^ 1074) < 2 ^ 2098 := by
    rw [key]
    calc a * 2 ^ 1074 < 2 ^ 32 * 2 ^ 1074 := by norm_num at hlt ⊢; exact hlt
      _ = 2 ^ 1106 := by rw [← pow_add]
      _ ≤ 2 ^ 2098 := Nat.pow_le_pow_right (by norm_num) (by norm_num)
  obtain ⟨M', S', e', hu'⟩ := mul_fin_spec false false M kM S kS hfin
  rw [e']
  have w : Within (a * 2 ^ 1074) (fin (xor false false) M' S') :=
    ⟨_, M', S', rfl, by rw [hu', key], by simp⟩
  rw [toUint32_of_trunc impl (trunc_within w hlt)]
  simp only [units]
  rw [hu', key]
  exact Nat.mul_div_cancel _ (by positivity)

/-! ## Package math at given arguments -/

/-- Below the threshold `toNonLinear` is the multiplication by 12.92, whatever the
library. -/
theorem toNonLinear_linear (lib : Lib) {x : F} (h : F.le (F.lit 31308 7) x = false) :
    toNonLinear lib x = F.lit 1292 2 * x := by
  unfold toNonLinear
  rw [h]
  rfl

/-- A colour channel in the linear part of `toNonLinear`, from its integer part. -/
theorem channel_linear (lib : Lib) (impl : F → ℕ) {α v : F} {n : ℕ}
    (h : F.le (F.lit 31308 7) v = false)
    (e : trunc (clamp01 α * clamp01 (F.lit 1292 2 * v) * ofUint32 65535) = some n) :
    toUint32 impl (clamp01 α * clamp01 (toNonLinear lib v) * ofUint32 65535) = n := by
  rw [toNonLinear_linear lib h]
  exact toUint32_of_trunc impl e

theorem pointLib_asGo : pointLib.AsGo := by
  refine ⟨?_, ?_, by decide!, by decide!⟩
  · intro y x hy hx
    simp only [pointLib, hy, hx, Bool.and_self, if_true]
  · intro p q hp hq
    simp only [pointLib, hp, hq, Bool.and_self, if_true]

/-- With the properties `Lib.AsGo`, the Oklch form of an Oklab value with finite `A < 0` and
`B` a zero: the hue is `+Pi` or `-Pi`, with the sign of the zero. -/
theorem oklch_neg_axis (lib : Lib) (h : lib.AsGo) (c : Oklab) (hA : F.lt c.A (ofUint32 0) = true)
    (hf : c.A.isFinite = true) (hB : c.B.isZero = true) :
    c.oklch lib =
      { L := c.L, C := F.abs c.A, H := if c.B.sign then -F.Pi else F.Pi, Alpha := c.Alpha } := by
  have h0 : F.feq c.A (ofUint32 0) = false := by
    cases hc : c.A with
    | nan => rfl
    | inf n => rfl
    | fin n m s =>
      rw [hc] at hA
      cases n
      · simp [F.lt, ofUint32] at hA
      · simp only [F.lt, ofUint32, if_true, Bool.false_eq_true, if_false, Nat.zero_mod,
          lt_self_iff_false, or_false, decide_eq_true_eq] at hA
        simp only [F.feq, ofUint32, Nat.zero_mod, zero_mul, Bool.and_eq_false_imp,
          decide_eq_true_eq]
        intro _
        simp
        omega
  unfold Oklab.oklch
  rw [h0, h.1 c.B c.A hB hA, h.2.1 c.A c.B hf hB]
  rfl

/-- With the properties `Lib.AsGo`, the Oklab form of an Oklch value of hue `math.Pi`. -/
theorem oklab_at_pi (lib : Lib) (h : lib.AsGo) (C L α : F) :
    Oklch.oklab lib { H := F.Pi, C := C, L := L, Alpha := α } =
      { L := L, A := C * -ofUint32 1, B := C * F.lit 12246467991473515 32, Alpha := α } := by
  have hn : F.IsNaN F.Pi = false := by decide!
  unfold Oklch.oklab
  simp only [hn, Bool.false_eq_true, if_false]
  rw [h.2.2.1, h.2.2.2]

/-- The four channels of an Oklab value whose three linear channels are below the threshold
of `toNonLinear`, from the integer parts of the products. -/
theorem RGBA_linear (lib : Lib) (impl : F → ℕ) (c : Oklab) {r g b a : ℕ}
    (h1 : F.le (F.lit 31308 7) c.linearRGB.1 = false)
    (h2 : F.le (F.lit 31308 7) c.linearRGB.2.1 = false)
    (h3 : F.le (F.lit 31308 7) c.linearRGB.2.2 = false)
    (e1 : trunc (clamp01 c.Alpha * clamp01 (F.lit 1292 2 * c.linearRGB.1) * ofUint32 65535) =
      some r)
    (e2 : trunc (clamp01 c.Alpha * clamp01 (F.lit 1292 2 * c.linearRGB.2.1) * ofUint32 65535) =
      some g)
    (e3 : trunc (clamp01 c.Alpha * clamp01 (F.lit 1292 2 * c.linearRGB.2.2) * ofUint32 65535) =
      some b)
    (e4 : trunc (clamp01 c.Alpha * ofUint32 65535) = some a) :
    c.RGBA lib impl = (r, g, b, a) := by
  show (toUint32 impl (clamp01 c.Alpha * clamp01 (toNonLinear lib c.linearRGB.1) *
      ofUint32 65535),
    toUint32 impl (clamp01 c.Alpha * clamp01 (toNonLinear lib c.linearRGB.2.1) *
      ofUint32 65535),
    toUint32 impl (clamp01 c.Alpha * clamp01 (toNonLinear lib c.linearRGB.2.2) *
      ofUint32 65535),
    toUint32 impl (clamp01 c.Alpha * ofUint32 65535)) = (r, g, b, a)
  rw [channel_linear lib impl h1 e1, channel_linear lib impl h2 e2,
    channel_linear lib impl h3 e3, toUint32_of_trunc impl e4]

end b64

/-! ## The claims -/

open F64

set_option exponentiation.threshold 8192

/-- Claim C1: for every 8-bit triple `(R, G, B)` with full opacity, converting the packed colour
`(R*257, G*257, B*257, 65535)` with `OklabModel.Convert`, calling `RGBA()` on the result and
shifting every channel right by 8, as `color.RGBAModel.Convert` does, gives `(R, G, B, 255)`.
Finite `float64` values are exact reals here. -/
theorem C1_rgb_oklab_rgb (impl : F64 → ℕ) (R G B : ℕ) (hR : R ≤ 255) (hG : G ≤ 255)
    (hB : B ≤ 255) :
    rgbaModel impl (OklabModel.Convert (rgba8 R G B 255)) = (R, G, B, 255) :=
  rgba8_round_trip impl R G B hR hG hB

/-- Claim C1 at pure red, `(255, 0, 0, 255)`. -/
theorem C1_rgb_oklab_rgb_witness :
    rgbaModel (fun _ => 0) (OklabModel.Convert (rgba8 255 0 0 255)) = (255, 0, 0, 255) :=
  C1_rgb_oklab_rgb (fun _ => 0) 255 0 0 (by decide) (by decide) (by decide)

/-- Claim C2: for every 8-bit triple `(R, G, B)` with full opacity, converting the packed colour
with `OklchModel.Convert`, calling `RGBA()` on the result and shifting every channel right
by 8 gives `(R, G, B, 255)`; this includes black, whose hue comes out as NaN.  Finite
`float64` values are exact reals here. -/
theorem C2_rgb_oklch_rgb (impl : F64 → ℕ) (R G B : ℕ) (hR : R ≤ 255) (hG : G ≤ 255)
    (hB : B ≤ 255) :
    rgbaModel impl (OklchModel.Convert (rgba8 R G B 255)) = (R, G, B, 255) ∧
      IsNaN (oklchModelFunc (rgba8 0 0 0 255)).H := by
  constructor
  · have h := rgba8_round_trip impl R G B hR hG hB
    rw [← oklch_RGBA_rgba8] at h
    exact h
  · have h : oklchModelFunc (rgba8 0 0 0 255) = (oklabModelFunc (rgba8 0 0 0 255)).oklch := rfl
    rw [h, oklabModelFunc_black, oklch_of_achromatic]
    trivial

/-- Claim C2 at black, the achromatic input `(0, 0, 0, 255)`. -/
theorem C2_rgb_oklch_rgb_witness :
    rgbaModel (fun _ => 0) (OklchModel.Convert (rgba8 0 0 0 255)) = (0, 0, 0, 255) :=
  (C2_rgb_oklch_rgb (fun _ => 0) 0 0 0 (by decide) (by decide) (by decide)).1

/-- Claim C3: `OklabModel.Convert` returns an Oklab value itself and `OklchModel.Convert`
returns an Oklch value itself, whatever the fields (NaN included); so each `Convert` is
idempotent on every input. -/
theorem C3_identity_conversion :
    (∀ x : Oklab, OklabModel.Convert (.oklab x) = .oklab x) ∧
    (∀ y : Oklch, OklchModel.Convert (.oklch y) = .oklch y) ∧
    (∀ c : Color, OklabModel.Convert (OklabModel.Convert c) = OklabModel.Convert c) ∧
    (∀ c : Color, OklchModel.Convert (OklchModel.Convert c) = OklchModel.Convert c) :=
  ⟨fun _ => rfl, fun _ => rfl, fun _ => rfl, fun _ => rfl⟩

/-- Claim C4: in binary64 arithmetic, whatever package `math` computes, every one of the four
channels returned by `Oklab.RGBA` is at most 65535, for every Oklab value: NaN, infinite,
overflowing and out-of-gamut fields, and `Alpha` outside `[0, 1]`, included; and the same for
`Oklch.RGBA` on every Oklch value.  The clamped products are NaN or within `[0, 65535]`; the
one conversion that the language leaves to the implementation is `uint32(NaN)`, which the
hypothesis takes to be in the range, as it is for the compiler gc on amd64 and arm64, where
it is 0.  The channels are natural numbers, so none is negative. -/
theorem C4_output_range (lib : b64.Lib) (impl : b64.F → ℕ)
    (h : b64.F.toUint32 impl b64.F.nan ≤ 65535) :
    (∀ c : b64.Oklab,
      (c.RGBA lib impl).1 ≤ 65535 ∧ (c.RGBA lib impl).2.1 ≤ 65535 ∧
        (c.RGBA lib impl).2.2.1 ≤ 65535 ∧ (c.RGBA lib impl).2.2.2 ≤ 65535) ∧
    (∀ c : b64.Oklch,
      (c.RGBA lib impl).1 ≤ 65535 ∧ (c.RGBA lib impl).2.1 ≤ 65535 ∧
        (c.RGBA lib impl).2.2.1 ≤ 65535 ∧ (c.RGBA lib impl).2.2.2 ≤ 65535) := by
  have key : ∀ c : b64.Oklab,
      (c.RGBA lib impl).1 ≤ 65535 ∧ (c.RGBA lib impl).2.1 ≤ 65535 ∧
        (c.RGBA lib impl).2.2.1 ≤ 65535 ∧ (c.RGBA lib impl).2.2.2 ≤ 65535 := by
    intro c
    have col : ∀ r : b64.F, b64.F.toUint32 impl
        (b64.clamp01 c.Alpha * b64.clamp01 r * b64.F.ofUint32 65535) ≤ 65535 := by
      intro r
      rcases b64.colour_channel_cases impl c.Alpha r with ⟨-, -, e⟩ | ⟨-, -, e, h1, -, h2⟩
      · rw [e]; exact h
      · rw [e]; exact h1.trans h2
    refine ⟨col _, col _, col _, ?_⟩
    show b64.F.toUint32 impl (b64.clamp01 c.Alpha * b64.F.ofUint32 65535) ≤ 65535
    rcases b64.alpha_channel_cases impl c.Alpha with ⟨-, -, e⟩ | ⟨-, e, h1⟩
    · rw [e]; exact h
    · rw [e]; exact h1
  exact ⟨key, fun c => key (c.oklab lib)⟩

/-- Claim C4 with `uint32(NaN) = 0`, at `Oklab{NaN, 0, 0, 1}` and at `Oklab{1e103, 0, 0, 1}`,
whose cubes overflow. -/
theorem C4_output_range_witness :
    b64.F.toUint32 (fun _ => 0) b64.F.nan ≤ 65535 ∧
    ((b64.Oklab.RGBA b64.pointLib (fun _ => 0)
        ⟨b64.F.nan, b64.F.ofUint32 0, b64.F.ofUint32 0, b64.F.ofUint32 1⟩).1 ≤ 65535 ∧
      (b64.Oklab.RGBA b64.pointLib (fun _ => 0)
        ⟨b64.F.nan, b64.F.ofUint32 0, b64.F.ofUint32 0, b64.F.ofUint32 1⟩).2.1 ≤ 65535 ∧
      (b64.Oklab.RGBA b64.pointLib (fun _ => 0)
        ⟨b64.F.nan, b64.F.ofUint32 0, b64.F.ofUint32 0, b64.F.ofUint32 1⟩).2.2.1 ≤ 65535 ∧
      (b64.Oklab.RGBA b64.pointLib (fun _ => 0)
        ⟨b64.F.nan, b64.F.ofUint32 0, b64.F.ofUint32 0, b64.F.ofUint32 1⟩).2.2.2 ≤ 65535) ∧
    (b64.Oklab.RGBA b64.pointLib (fun _ => 0)
      ⟨b64.F.lit (10 ^ 103) 0, b64.F.ofUint32 0, b64.F.ofUint32 0,
        b64.F.ofUint32 1⟩).1 ≤ 65535 :=
  ⟨by decide,
    (C4_output_range b64.pointLib (fun _ => 0) (by decide)).1 _,
    ((C4_output_range b64.pointLib (fun _ => 0) (by decide)).1 _).1⟩

/-- Claim C5: in binary64 arithmetic, whatever package `math` computes, the red, green and
blue channels returned by `Oklab.RGBA` are each at most the returned alpha channel, for every
Oklab value, and `Alpha <= 0` gives `(0, 0, 0, 0)`.  Rounding is monotone, so the rounded
product `a * r * 65535` is at most the rounded `a * 65535` for `r` in `[0, 1]`.  When `Alpha`
is NaN the four channels are the same conversion `uint32(NaN)`; when only a colour channel is
NaN, its conversion is compared with a proper alpha channel, and the hypothesis takes
`uint32(NaN)` to be 0, as it is for the compiler gc on amd64 and arm64. -/
theorem C5_premultiplied (lib : b64.Lib) (impl : b64.F → ℕ)
    (h : b64.F.toUint32 impl b64.F.nan = 0) (c : b64.Oklab) :
    ((c.RGBA lib impl).1 ≤ (c.RGBA lib impl).2.2.2 ∧
      (c.RGBA lib impl).2.1 ≤ (c.RGBA lib impl).2.2.2 ∧
      (c.RGBA lib impl).2.2.1 ≤ (c.RGBA lib impl).2.2.2) ∧
    (b64.F.le c.Alpha (b64.F.ofUint32 0) = true → c.RGBA lib impl = (0, 0, 0, 0)) ∧
    (c.Alpha = b64.F.nan →
      (c.RGBA lib impl).1 = (c.RGBA lib impl).2.2.2 ∧
      (c.RGBA lib impl).2.1 = (c.RGBA lib impl).2.2.2 ∧
      (c.RGBA lib impl).2.2.1 = (c.RGBA lib impl).2.2.2) := by
  have col : ∀ r : b64.F, b64.F.toUint32 impl
      (b64.clamp01 c.Alpha * b64.clamp01 r * b64.F.ofUint32 65535) ≤
      b64.F.toUint32 impl (b64.clamp01 c.Alpha * b64.F.ofUint32 65535) := by
    intro r
    rcases b64.colour_channel_cases impl c.Alpha r with ⟨-, -, e⟩ | ⟨-, -, e, h1, e', -⟩
    · rw [e, h]; exact Nat.zero_le _
    · rw [e, e']; exact h1
  refine ⟨⟨col _, col _, col _⟩, ?_, ?_⟩
  · intro hle
    have hz : b64.F.toUint32 impl (b64.clamp01 c.Alpha * b64.F.ofUint32 65535) = 0 :=
      b64.alpha_channel_zero impl hle
    have col0 : ∀ r : b64.F, b64.F.toUint32 impl
        (b64.clamp01 c.Alpha * b64.clamp01 r * b64.F.ofUint32 65535) = 0 := by
      intro r
      have := col r
      rw [hz] at this
      exact Nat.le_zero.mp this
    show (b64.F.toUint32 impl (b64.clamp01 c.Alpha * b64.clamp01 (c.nonLinearRGB lib).1 *
        b64.F.ofUint32 65535),
      b64.F.toUint32 impl (b64.clamp01 c.Alpha * b64.clamp01 (c.nonLinearRGB lib).2.1 *
        b64.F.ofUint32 65535),
      b64.F.toUint32 impl (b64.clamp01 c.Alpha * b64.clamp01 (c.nonLinearRGB lib).2.2 *
        b64.F.ofUint32 65535),
      b64.F.toUint32 impl (b64.clamp01 c.Alpha * b64.F.ofUint32 65535)) = (0, 0, 0, 0)
    rw [col0, col0, col0, hz]
  · intro hn
    have col' : ∀ r : b64.F, b64.F.toUint32 impl
        (b64.clamp01 c.Alpha * b64.clamp01 r * b64.F.ofUint32 65535) =
        b64.F.toUint32 impl (b64.clamp01 c.Alpha * b64.F.ofUint32 65535) := by
      intro r
      rw [hn, show b64.clamp01 b64.F.nan = b64.F.nan from rfl, b64.F.nan_times,
        b64.F.nan_times]
    exact ⟨col' _, col' _, col' _⟩

/-- Claim C5 with `uint32(NaN) = 0`, at `Oklab{0.1, 0.01, -0.01, 0.5}`, which packs to
`(575, 321, 720, 32767)`. -/
theorem C5_premultiplied_witness :
    b64.F.toUint32 (fun _ => 0) b64.F.nan = 0 ∧
    ((b64.Oklab.RGBA b64.pointLib (fun _ => 0)
        ⟨b64.F.lit 1 1, b64.F.lit 1 2, -b64.F.lit 1 2, b64.F.lit 5 1⟩).1 ≤
      (b64.Oklab.RGBA b64.pointLib (fun _ => 0)
        ⟨b64.F.lit 1 1, b64.F.lit 1 2, -b64.F.lit 1 2, b64.F.lit 5 1⟩).2.2.2 ∧
    (b64.Oklab.RGBA b64.pointLib (fun _ => 0)
        ⟨b64.F.lit 1 1, b64.F.lit 1 2, -b64.F.lit 1 2, b64.F.lit 5 1⟩).2.1 ≤
      (b64.Oklab.RGBA b64.pointLib (fun _ => 0)
        ⟨b64.F.lit 1 1, b64.F.lit 1 2, -b64.F.lit 1 2, b64.F.lit 5 1⟩).2.2.2 ∧
    (b64.Oklab.RGBA b64.pointLib (fun _ => 0)
        ⟨b64.F.lit 1 1, b64.F.lit 1 2, -b64.F.lit 1 2, b64.F.lit 5 1⟩).2.2.1 ≤
      (b64.Oklab.RGBA b64.pointLib (fun _ => 0)
        ⟨b64.F.lit 1 1, b64.F.lit 1 2, -b64.F.lit 1 2, b64.F.lit 5 1⟩).2.2.2) ∧
    b64.Oklab.RGBA b64.pointLib (fun _ => 0)
      ⟨b64.F.lit 1 1, b64.F.lit 1 2, -b64.F.lit 1 2, b64.F.lit 5 1⟩ = (575, 321, 720, 32767) :=
  ⟨by decide, (C5_premultiplied b64.pointLib (fun _ => 0) (by decide) _).1,
    b64.RGBA_linear _ _ _ (by decide!) (by decide!) (by decide!) (by decide!) (by decide!)
      (by decide!) (by decide!)⟩

/-- Claim C6: in binary64 arithmetic, whatever package `math` computes, for every Oklab value,
with `a` the clamped `Alpha` and `r`, `g`, `b` the clamped gamma-encoded channels,
`Oklab.RGBA` returns the conversions to `uint32` of the four float64 products `a * r * 65535`,
`a * g * 65535`, `a * b * 65535` and `a * 65535`.  Each product is NaN, which happens only
when `Alpha` or the channel is NaN, or a number of `[0, 65535]`, and the conversion of a
number is its integer part: the quotient of its magnitude, counted in units of `2^-1074`, by
`2^1074`, the fraction being dropped.  With `Alpha = 0.5` the product is exactly 32767.5 and
the alpha channel is 32767, not 32768.  It is the float64 product that is truncated: with
`Alpha = float64(1) / 65535` the product rounds to 1 and the alpha channel is 1. -/
theorem C6_truncating_quantisation (lib : b64.Lib) (impl : b64.F → ℕ) :
    (∀ c : b64.Oklab, ∃ a r g b : b64.F,
      a = b64.clamp01 c.Alpha ∧ r = b64.clamp01 (c.nonLinearRGB lib).1 ∧
      g = b64.clamp01 (c.nonLinearRGB lib).2.1 ∧ b = b64.clamp01 (c.nonLinearRGB lib).2.2 ∧
      c.RGBA lib impl =
        (b64.F.toUint32 impl (a * r * b64.F.ofUint32 65535),
          b64.F.toUint32 impl (a * g * b64.F.ofUint32 65535),
          b64.F.toUint32 impl (a * b * b64.F.ofUint32 65535),
          b64.F.toUint32 impl (a * b64.F.ofUint32 65535)) ∧
      ∀ p ∈ [a * r * b64.F.ofUint32 65535, a * g * b64.F.ofUint32 65535,
          a * b * b64.F.ofUint32 65535, a * b64.F.ofUint32 65535],
        p = b64.F.nan ∨
          (b64.F.Within (65535 * 2 ^ 1074) p ∧
            b64.F.toUint32 impl p = p.units / 2 ^ 1074)) ∧
    (∀ L A B : b64.F,
      (b64.clamp01 (b64.F.lit 5 1) * b64.F.ofUint32 65535).units * 2 = 65535 * 2 ^ 1074 ∧
      (b64.Oklab.RGBA lib impl ⟨L, A, B, b64.F.lit 5 1⟩).2.2.2 = 32767) ∧
    (∀ L A B : b64.F,
      (b64.Oklab.RGBA lib impl
        ⟨L, A, B, b64.F.ofUint32 1 / b64.F.ofUint32 65535⟩).2.2.2 = 1) := by
  refine ⟨fun c => ⟨_, _, _, _, rfl, rfl, rfl, rfl, rfl, ?_⟩, ?_, ?_⟩
  · have col : ∀ r : b64.F,
        b64.clamp01 c.Alpha * b64.clamp01 r * b64.F.ofUint32 65535 = b64.F.nan ∨
        (b64.F.Within (65535 * 2 ^ 1074)
            (b64.clamp01 c.Alpha * b64.clamp01 r * b64.F.ofUint32 65535) ∧
          b64.F.toUint32 impl (b64.clamp01 c.Alpha * b64.clamp01 r * b64.F.ofUint32 65535) =
            (b64.clamp01 c.Alpha * b64.clamp01 r * b64.F.ofUint32 65535).units / 2 ^ 1074) := by
      intro r
      rcases b64.colour_channel_cases impl c.Alpha r with ⟨-, e, -⟩ | ⟨-, w, e, -⟩
      · exact Or.inl e
      · exact Or.inr ⟨w, e⟩
    intro p hp
    simp only [List.mem_cons, List.mem_singleton, List.not_mem_nil, or_false] at hp
    rcases hp with rfl | rfl | rfl | rfl
    · exact col _
    · exact col _
    · exact col _
    · rcases b64.alpha_channel_cases impl c.Alpha with ⟨-, e, -⟩ | ⟨w, e, -⟩
      · exact Or.inl e
      · exact Or.inr ⟨w, e⟩
  · intro L A B
    refine ⟨by decide!, ?_⟩
    show b64.F.toUint32 impl (b64.clamp01 (b64.F.lit 5 1) * b64.F.ofUint32 65535) = 32767
    exact b64.F.toUint32_of_trunc impl (by decide!)
  · intro L A B
    show b64.F.toUint32 impl
      (b64.clamp01 (b64.F.ofUint32 1 / b64.F.ofUint32 65535) * b64.F.ofUint32 65535) = 1
    exact b64.F.toUint32_of_trunc impl (by decide!)

/-- Claim C7: an Oklab value with `a = 0` and `b = 0`, whatever `L` and `Alpha`, is converted
to an Oklch value with `C = 0` and `H` NaN, by `Oklab.oklch` and so by `oklchModelFunc`. -/
theorem C7_achromatic_forward (c : Oklab) (hA : c.A = fin 0) (hB : c.B = fin 0) :
    c.oklch.C = fin 0 ∧ IsNaN c.oklch.H ∧
      (oklchModelFunc (.oklab c)).C = fin 0 ∧ IsNaN (oklchModelFunc (.oklab c)).H := by
  have h : c.oklch = { L := c.L, C := fin 0, H := NaN, Alpha := c.Alpha } := by
    simp [Oklab.oklch, hA, hB]
  have h2 : oklchModelFunc (.oklab c) = c.oklch := rfl
  rw [h2, h]
  exact ⟨rfl, trivial, rfl, trivial⟩

/-- Claim C7 at the grey `L = 0.5`. -/
theorem C7_achromatic_forward_witness :
    (Oklab.oklch ⟨fin 0.5, fin 0, fin 0, fin 1⟩).C = fin 0 ∧
      IsNaN (Oklab.oklch ⟨fin 0.5, fin 0, fin 0, fin 1⟩).H :=
  ⟨(C7_achromatic_forward ⟨fin 0.5, fin 0, fin 0, fin 1⟩ rfl rfl).1,
    (C7_achromatic_forward ⟨fin 0.5, fin 0, fin 0, fin 1⟩ rfl rfl).2.1⟩

/-- Claim C8: an Oklch value whose `H` is NaN, whatever its `C`, is converted to an Oklab
value with `a = 0` and `b = 0`, by `Oklch.oklab` and so by `oklabModelFunc`. -/
theorem C8_achromatic_inverse (c : Oklch) (hH : IsNaN c.H) :
    c.oklab.A = fin 0 ∧ c.oklab.B = fin 0 ∧
      (oklabModelFunc (.oklch c)).A = fin 0 ∧ (oklabModelFunc (.oklch c)).B = fin 0 := by
  have h : c.oklab = { L := c.L, A := fin 0, B := fin 0, Alpha := c.Alpha } := by
    simp [Oklch.oklab, hH]
  have h2 : oklabModelFunc (.oklch c) = c.oklab := rfl
  rw [h2, h]
  exact ⟨rfl, rfl, rfl, rfl⟩

/-- Claim C8 at an Oklch value with NaN hue and `C = 0.3`. -/
theorem C8_achromatic_inverse_witness :
    (Oklch.oklab ⟨nan, fin 0.3, fin 0.5, fin 1⟩).A = fin 0 ∧
      (Oklch.oklab ⟨nan, fin 0.3, fin 0.5, fin 1⟩).B = fin 0 :=
  ⟨(C8_achromatic_inverse ⟨nan, fin 0.3, fin 0.5, fin 1⟩ trivial).1,
    (C8_achromatic_inverse ⟨nan, fin 0.3, fin 0.5, fin 1⟩ trivial).2.1⟩

/-- Claim C9, amended: for every Oklab value with finite `a`, `b` not both zero, the conversion
to Oklch takes `C = Hypot(a, b)` and `H = Atan2(b, a)`, the conversion back takes `C*cos H` and
`C*sin H`, and in exact real arithmetic, where no operation rounds, these are `a` and `b`
again, so that the round trip returns the Oklab value itself. -/
theorem C9_polar_round_trip (c : Oklab) (a b : ℝ) (hA : c.A = fin a) (hB : c.B = fin b)
    (hab : (a, b) ≠ (0, 0)) :
    c.oklch.C = Hypot c.A c.B ∧ c.oklch.H = Atan2 c.B c.A ∧
      c.oklch.oklab.A = c.oklch.C * Cos c.oklch.H ∧
      c.oklch.oklab.B = c.oklch.C * Sin c.oklch.H ∧
      c.oklch.oklab.A = fin a ∧ c.oklch.oklab.B = fin b ∧ c.oklch.oklab = c := by
  have h : ¬ (a = 0 ∧ b = 0) := fun h => hab (by rw [h.1, h.2])
  obtain ⟨L, A, B, al⟩ := c
  simp only at hA hB
  subst hA hB
  have hrt := oklab_oklch_of_fin L al a b
  rw [oklch_of_chromatic L al h] at hrt ⊢
  refine ⟨rfl, rfl, ?_, ?_, ?_, ?_, hrt⟩
  · simp [Oklch.oklab]
  · simp [Oklch.oklab]
  · rw [hrt]
  · rw [hrt]

/-- Claim C9, amended, at `a = 0.1`, `b = -0.2`. -/
theorem C9_polar_round_trip_witness :
    (Oklab.oklch ⟨fin 0.5, fin 0.1, fin (-0.2), fin 1⟩).oklab =
      ⟨fin 0.5, fin 0.1, fin (-0.2), fin 1⟩ :=
  (C9_polar_round_trip ⟨fin 0.5, fin 0.1, fin (-0.2), fin 1⟩ 0.1 (-0.2) rfl rfl
    (by norm_num)).2.2.2.2.2.2

/-- Claim C9 as stated fails in two ways.  With an infinite coordinate it fails in exact
arithmetic already: at `Oklab{0.5, +Inf, 0, 1}` the way back gives `B = Inf * 0 = NaN`.  With
finite coordinates it fails in binary64 arithmetic, for every implementation of package
`math` with the properties `Lib.AsGo`, which hold of Go's: at `Oklab{0.5, -0.1, 0, 1}` the hue
is `math.Pi`, whose sine is `1.2246467991473515e-16`, and the way back gives
`B = 1.2246467991473516e-17`, which is not `b = 0` and not within any tolerance relative
to `b`. -/
theorem C9_counterexample :
    (¬ (feq pinf (fin 0) ∧ feq (fin 0) (fin 0)) ∧
      (Oklab.oklch ⟨fin 0.5, pinf, fin 0, fin 1⟩).oklab.B = nan) ∧
    b64.pointLib.AsGo ∧
    (∀ lib : b64.Lib, lib.AsGo →
      b64.F.feq (-b64.F.lit 1 1) (b64.F.ofUint32 0) = false ∧
      (b64.Oklch.oklab lib (b64.Oklab.oklch lib
        ⟨b64.F.lit 5 1, -b64.F.lit 1 1, b64.F.ofUint32 0, b64.F.ofUint32 1⟩)).B =
          b64.F.lit 12246467991473516 33 ∧
      b64.F.feq (b64.Oklch.oklab lib (b64.Oklab.oklch lib
        ⟨b64.F.lit 5 1, -b64.F.lit 1 1, b64.F.ofUint32 0, b64.F.ofUint32 1⟩)).B
          (b64.F.ofUint32 0) = false) := by
  have h0 : ¬ (feq pinf (fin 0) ∧ feq (fin 0) (fin 0)) := by
    intro h
    have h1 : pinf = fin 0 := h.1
    cases h1
  refine ⟨⟨h0, ?_⟩, b64.pointLib_asGo, fun lib h => ?_⟩
  · show (Oklab.oklch ⟨fin 0.5, pinf, fin 0, fin 1⟩).oklab.B = nan
    simp only [Oklab.oklch, if_neg h0, Oklch.oklab, Atan2]
    rw [if_neg (by simp [IsNaN])]
    show pinf * Sin (fin 0) = nan
    simp [Sin, HMul.hMul, Mul.mul, F64.mul, infTimes]
  · rw [b64.oklch_neg_axis lib h _ (by decide!) (by decide!) (by decide!)]
    simp only [show b64.F.sign (b64.F.ofUint32 0) = false from rfl, Bool.false_eq_true,
      if_false]
    rw [b64.oklab_at_pi lib h]
    exact ⟨by decide!, by decide!, by decide!⟩

/-- Claim C10, amended: for every Oklab value with finite `a`, `b`, the Oklch value produced by
`Oklab.oklch` has `C >= 0`, its `H` is NaN exactly when `C == 0`, and when `H` is not NaN it
is `Atan2(b, a)` and lies in the closed interval `[-π, π]`. -/
theorem C10_oklch_well_formed (c : Oklab) (a b : ℝ) (hA : c.A = fin a) (hB : c.B = fin b) :
    fin 0 ≤ c.oklch.C ∧
      (IsNaN c.oklch.H ↔ feq c.oklch.C (fin 0)) ∧
      (¬ IsNaN c.oklch.H →
        c.oklch.H = Atan2 c.B c.A ∧
          ∃ h : ℝ, c.oklch.H = fin h ∧ -Real.pi ≤ h ∧ h ≤ Real.pi) := by
  obtain ⟨L, A, B, al⟩ := c
  simp only at hA hB
  subst hA hB
  by_cases h : a = 0 ∧ b = 0
  · obtain ⟨rfl, rfl⟩ := h
    rw [oklch_of_achromatic]
    refine ⟨(fin_le_fin _ _).mpr (le_refl _), ?_, ?_⟩
    · simp
    · intro hn
      exact absurd isNaN_nan hn
  · rw [oklch_of_chromatic L al h]
    have hpos : 0 < a * a + b * b := by
      rcases not_and_or.mp h with ha | hb
      · have := mul_self_pos.mpr ha
        nlinarith [mul_self_nonneg b]
      · have := mul_self_pos.mpr hb
        nlinarith [mul_self_nonneg a]
    refine ⟨(fin_le_fin _ _).mpr (Real.sqrt_nonneg _), ?_, ?_⟩
    · simp only [not_isNaN_fin, feq_fin_fin, false_iff]
      exact (Real.sqrt_pos.mpr hpos).ne'
    · intro _
      exact ⟨rfl, _, rfl, (Complex.neg_pi_lt_arg _).le, Complex.arg_le_pi _⟩

/-- Claim C10, amended, at `a = -0.1`, `b = 0`, where the hue is defined. -/
theorem C10_oklch_well_formed_witness :
    fin 0 ≤ (Oklab.oklch ⟨fin 0.5, fin (-0.1), fin 0, fin 1⟩).C ∧
      (IsNaN (Oklab.oklch ⟨fin 0.5, fin (-0.1), fin 0, fin 1⟩).H ↔
        feq (Oklab.oklch ⟨fin 0.5, fin (-0.1), fin 0, fin 1⟩).C (fin 0)) ∧
      ¬ IsNaN (Oklab.oklch ⟨fin 0.5, fin (-0.1), fin 0, fin 1⟩).H ∧
      ((Oklab.oklch ⟨fin 0.5, fin (-0.1), fin 0, fin 1⟩).H = Atan2 (fin 0) (fin (-0.1)) ∧
        ∃ h : ℝ, (Oklab.oklch ⟨fin 0.5, fin (-0.1), fin 0, fin 1⟩).H = fin h ∧
          -Real.pi ≤ h ∧ h ≤ Real.pi) :=
  have hn : ¬ IsNaN (Oklab.oklch ⟨fin 0.5, fin (-0.1), fin 0, fin 1⟩).H := by
    rw [oklch_of_chromatic (fin 0.5) (fin 1) (a := -0.1) (b := 0) (by norm_num)]
    exact not_isNaN_fin _
  ⟨(C10_oklch_well_formed ⟨fin 0.5, fin (-0.1), fin 0, fin 1⟩ (-0.1) 0 rfl rfl).1,
    (C10_oklch_well_formed ⟨fin 0.5, fin (-0.1), fin 0, fin 1⟩ (-0.1) 0 rfl rfl).2.1, hn,
    (C10_oklch_well_formed ⟨fin 0.5, fin (-0.1), fin 0, fin 1⟩ (-0.1) 0 rfl rfl).2.2 hn⟩

/-- The failure of claim C10 in binary64 arithmetic, for every implementation of package
`math` with the properties `Lib.AsGo`, which hold of Go's: at `Oklab{0.5, -0.1, -0, 1}` the hue
produced by `Oklab.oklch` is defined and is `-math.Pi`, by the documented special case
`Atan2(-0, x<0) = -Pi`; it is not greater than `-math.Pi`. -/
theorem C10_counterexample :
    b64.pointLib.AsGo ∧
    (∀ lib : b64.Lib, lib.AsGo →
      (b64.Oklab.oklch lib
        ⟨b64.F.lit 5 1, -b64.F.lit 1 1, -b64.F.ofUint32 0, b64.F.ofUint32 1⟩).H = -b64.F.Pi ∧
      b64.F.IsNaN (b64.Oklab.oklch lib
        ⟨b64.F.lit 5 1, -b64.F.lit 1 1, -b64.F.ofUint32 0, b64.F.ofUint32 1⟩).H = false ∧
      b64.F.lt (-b64.F.Pi) (b64.Oklab.oklch lib
        ⟨b64.F.lit 5 1, -b64.F.lit 1 1, -b64.F.ofUint32 0, b64.F.ofUint32 1⟩).H = false) := by
  refine ⟨b64.pointLib_asGo, fun lib h => ?_⟩
  rw [b64.oklch_neg_axis lib h _ (by decide!) (by decide!) (by decide!)]
  exact ⟨by decide!, by decide!, by decide!⟩

/-- Claim C11: opaque black, packed `(0, 0, 0, 65535)`, is converted by `OklabModel.Convert`
to exactly `Oklab{L: 0, A: 0, B: 0, Alpha: 1}`; and every input with packed channels
`(0, 0, 0, a32)`, `a32 > 0`, is converted to `L = a = b = 0` with `Alpha = a32/65535`. -/
theorem C11_black :
    OklabModel.Convert (.other 0 0 0 65535) = .oklab ⟨fin 0, fin 0, fin 0, fin 1⟩ ∧
    OklabModel.Convert (rgba8 0 0 0 255) = .oklab ⟨fin 0, fin 0, fin 0, fin 1⟩ ∧
    (∀ a32 : ℕ, 0 < a32 →
      OklabModel.Convert (.other 0 0 0 a32) =
        .oklab ⟨fin 0, fin 0, fin 0, fin ((a32 : ℝ) / 65535)⟩) := by
  refine ⟨?_, ?_, ?_⟩
  · unfold OklabModel.Convert
    rw [oklabModelFunc_zero 65535 (by norm_num)]
    norm_num
  · unfold OklabModel.Convert
    rw [oklabModelFunc_black]
  · intro a32 ha
    unfold OklabModel.Convert
    rw [oklabModelFunc_zero a32 (Nat.pos_iff_ne_zero.mp ha)]

/-- Claim C11 at the half-transparent black `(0, 0, 0, 32768)`. -/
theorem C11_black_witness :
    OklabModel.Convert (.other 0 0 0 32768) =
      .oklab ⟨fin 0, fin 0, fin 0, fin (((32768 : ℕ) : ℝ) / 65535)⟩ :=
  C11_black.2.2 32768 (by decide)

/-- Claim C12: for every input that is neither Oklab nor Oklch and whose packed alpha is 0,
`OklabModel.Convert` returns the Oklab value with `Alpha = 0` whose `L`, `a` and `b` are NaN,
whatever the packed colour channels are. -/
theorem C12_transparent (r32 g32 b32 : ℕ) :
    OklabModel.Convert (.other r32 g32 b32 0) = .oklab ⟨nan, nan, nan, fin 0⟩ ∧
      IsNaN (oklabModelFunc (.other r32 g32 b32 0)).L ∧
      IsNaN (oklabModelFunc (.other r32 g32 b32 0)).A ∧
      IsNaN (oklabModelFunc (.other r32 g32 b32 0)).B ∧
      (oklabModelFunc (.other r32 g32 b32 0)).Alpha = fin 0 := by
  unfold OklabModel.Convert
  rw [oklabModelFunc_zero_alpha]
  exact ⟨rfl, trivial, trivial, trivial, rfl⟩

/-- Claim C13: `Oklab.oklch` keeps `L` and `Alpha` of every Oklab value, and `Oklch.oklab`
keeps `L` and `Alpha` of every Oklch value, in both branches and without clamping. -/
theorem C13_pass_through :
    (∀ x : Oklab, x.oklch.L = x.L ∧ x.oklch.Alpha = x.Alpha) ∧
    (∀ y : Oklch, y.oklab.L = y.L ∧ y.oklab.Alpha = y.Alpha) := by
  constructor
  · intro x
    unfold Oklab.oklch
    split_ifs <;> exact ⟨rfl, rfl⟩
  · intro y
    unfold Oklch.oklab
    split_ifs <;> exact ⟨rfl, rfl⟩

/-- Claim C14, amended: in exact real arithmetic `toNonLinear(toLinear(x)) = x` for every real
`x` with `x < 0.040449936` or `x >= 0.04045`, and `toLinear(toNonLinear(y)) = y` for every real
`y` with `y < 0.0031308` or `y >= 0.0031308073`. -/
theorem C14_transfer_inverse :
    (∀ x : ℝ, x < 0.040449936 ∨ 0.04045 ≤ x → toNonLinear (toLinear (fin x)) = fin x) ∧
    (∀ y : ℝ, y < 0.0031308 ∨ 0.0031308073 ≤ y → toLinear (toNonLinear (fin y)) = fin y) := by
  constructor
  · intro x h
    rw [toLinear_fin, toNonLinear_fin, toNonLinearR_toLinearR h]
  · intro y h
    rw [toNonLinear_fin, toLinear_fin, toLinearR_toNonLinearR h]

/-- Claim C14, amended, at `0.5`, in both directions. -/
theorem C14_transfer_inverse_witness :
    toNonLinear (toLinear (fin 0.5)) = fin 0.5 ∧ toLinear (toNonLinear (fin 0.5)) = fin 0.5 :=
  ⟨C14_transfer_inverse.1 0.5 (Or.inr (by norm_num)),
    C14_transfer_inverse.2 0.5 (Or.inr (by norm_num))⟩

/-- Claim C14 as stated fails next to the thresholds: `x = 0.040449936` is in `[0, 1]` and
`toNonLinear(toLinear(x))` is not `x`; `y = 0.0031308` is in `[0, 1]` and
`toLinear(toNonLinear(y))` is not `y`. -/
theorem C14_counterexample :
    ((0 : ℝ) ≤ 0.040449936 ∧ (0.040449936 : ℝ) ≤ 1 ∧
      toNonLinear (toLinear (fin 0.040449936)) ≠ fin 0.040449936) ∧
    ((0 : ℝ) ≤ 0.0031308 ∧ (0.0031308 : ℝ) ≤ 1 ∧
      toLinear (toNonLinear (fin 0.0031308)) ≠ fin 0.0031308) := by
  refine ⟨⟨by norm_num, by norm_num, ?_⟩, ⟨by norm_num, by norm_num, ?_⟩⟩
  · rw [toLinear_fin, toNonLinear_fin]
    intro h
    injection h with h
    exact absurd h toNonLinearR_toLinearR_window.ne
  · rw [toNonLinear_fin, toLinear_fin]
    intro h
    injection h with h
    exact absurd h toLinearR_toNonLinearR_window.ne

/-- Claim C15: for every input that is not an Oklch value, `OklchModel.Convert` is
`Oklab.oklch` applied to the Oklab value `OklabModel.Convert` returns; for every Oklch value
`y`, `OklabModel.Convert` returns `Oklch.oklab(y)`, and `Oklch.RGBA(y)` is
`Oklab.RGBA(Oklch.oklab(y))`. -/
theorem C15_model_composition :
    (∀ c : Color, (∀ y : Oklch, c ≠ .oklch y) →
      OklabModel.Convert c = .oklab (oklabModelFunc c) ∧
        OklchModel.Convert c = .oklch (oklabModelFunc c).oklch) ∧
    (∀ y : Oklch, OklabModel.Convert (.oklch y) = .oklab y.oklab) ∧
    (∀ (impl : F64 → ℕ) (y : Oklch), y.RGBA impl = y.oklab.RGBA impl) := by
  refine ⟨?_, fun _ => rfl, fun _ _ => rfl⟩
  intro c hc
  cases c with
  | oklab x => exact ⟨rfl, rfl⟩
  | oklch y => exact absurd rfl (hc y)
  | other r g b a => exact ⟨rfl, rfl⟩

/-- Claim C15 at the packed colour `(1, 2, 3, 4)`. -/
theorem C15_model_composition_witness :
    OklchModel.Convert (.other 1 2 3 4) = .oklch (oklabModelFunc (.other 1 2 3 4)).oklch :=
  (C15_model_composition.1 (.other 1 2 3 4) (fun _ h => Color.noConfusion h)).2

/-- Claim C16: for every input with packed alpha `a32 > 0`, the un-premultiplied, linearised
channels are not negative, and so neither are the values `l`, `m`, `s` that `oklabModelFunc`
passes to the cube root. -/
theorem C16_cbrt_precondition (r32 g32 b32 a32 : ℕ) (ha : 0 < a32) :
    (fin 0 ≤ (linearOf r32 g32 b32 a32).1 ∧ fin 0 ≤ (linearOf r32 g32 b32 a32).2.1 ∧
      fin 0 ≤ (linearOf r32 g32 b32 a32).2.2) ∧
    (fin 0 ≤ (lmsOf r32 g32 b32 a32).1 ∧ fin 0 ≤ (lmsOf r32 g32 b32 a32).2.1 ∧
      fin 0 ≤ (lmsOf r32 g32 b32 a32).2.2) ∧
    oklabModelFunc (.other r32 g32 b32 a32) =
      ⟨fin 0.2104542553 * Cbrt (lmsOf r32 g32 b32 a32).1 +
          fin 0.7936177850 * Cbrt (lmsOf r32 g32 b32 a32).2.1 -
          fin 0.0040720468 * Cbrt (lmsOf r32 g32 b32 a32).2.2,
        fin 1.9779984951 * Cbrt (lmsOf r32 g32 b32 a32).1 -
          fin 2.4285922050 * Cbrt (lmsOf r32 g32 b32 a32).2.1 +
          fin 0.4505937099 * Cbrt (lmsOf r32 g32 b32 a32).2.2,
        fin 0.0259040371 * Cbrt (lmsOf r32 g32 b32 a32).1 +
          fin 0.7827717662 * Cbrt (lmsOf r32 g32 b32 a32).2.1 -
          fin 0.8086757660 * Cbrt (lmsOf r32 g32 b32 a32).2.2,
        ofUint32 a32 / fin 65535⟩ := by
  have ha' : (a32 : ℝ) ≠ 0 := Nat.cast_ne_zero.mpr (Nat.pos_iff_ne_zero.mp ha)
  have hq : ∀ n : ℕ, (0 : ℝ) ≤ toLinearR ((n : ℝ) / (a32 : ℝ)) := fun n =>
    toLinearR_nonneg (div_nonneg (Nat.cast_nonneg n) (Nat.cast_nonneg a32))
  have hl : ∀ n : ℕ, toLinear (ofUint32 n / ofUint32 a32) =
      fin (toLinearR ((n : ℝ) / (a32 : ℝ))) := by
    intro n
    unfold ofUint32
    rw [fin_div_fin _ ha', toLinear_fin]
  have hr := hq r32
  have hg := hq g32
  have hb := hq b32
  refine ⟨?_, ?_, oklabModelFunc_lms r32 g32 b32 a32⟩
  · simp only [linearOf, hl, fin_le_fin]
    exact ⟨hr, hg, hb⟩
  · simp only [lmsOf, linearOf, hl, fin_mul_fin, fin_add_fin, fin_le_fin]
    refine ⟨?_, ?_, ?_⟩ <;> positivity

/-- Claim C16 at the packed colour `(70000, 0, 12, 40000)`. -/
theorem C16_cbrt_precondition_witness :
    fin 0 ≤ (lmsOf 70000 0 12 40000).1 ∧ fin 0 ≤ (lmsOf 70000 0 12 40000).2.1 ∧
      fin 0 ≤ (lmsOf 70000 0 12 40000).2.2 :=
  (C16_cbrt_precondition 70000 0 12 40000 (by decide)).2.1

/-- Claim C17: in binary64 arithmetic, whatever package `math` computes and whatever the
implementation does on the conversions the language leaves open, for every colour that is
neither Oklab nor Oklch and has packed alpha `a32` in `[1, 65535]`, the alpha channel returned
by `RGBA()` on `OklabModel.Convert(c)` is `a32`: the quotient `float64(a32) / 65535` is
rounded, its product with 65535 is rounded again, and the second rounding gives `a32`
exactly, so the truncation loses nothing. -/
theorem C17_alpha_round_trip (lib : b64.Lib) (impl : b64.F → ℕ) (r32 g32 b32 a32 : ℕ)
    (h1 : 1 ≤ a32) (h2 : a32 ≤ 65535) :
    ((b64.OklabModel.Convert lib (.other r32 g32 b32 a32)).RGBA lib impl).2.2.2 = a32 ∧
    b64.F.toUint32 impl
      (b64.clamp01 (b64.F.ofUint32 a32 / b64.F.ofUint32 65535) * b64.F.ofUint32 65535) = a32 :=
  ⟨b64.alpha_path impl h1 h2, b64.alpha_path impl h1 h2⟩

/-- Claim C17 at the colour with packed channels `(1000, 2000, 3000, 40000)`. -/
theorem C17_alpha_round_trip_witness :
    (1 ≤ 40000 ∧ 40000 ≤ 65535) ∧
    ((b64.OklabModel.Convert b64.pointLib (.other 1000 2000 3000 40000)).RGBA b64.pointLib
      (fun _ => 0)).2.2.2 = 40000 :=
  ⟨by decide, (C17_alpha_round_trip b64.pointLib (fun _ => 0) 1000 2000 3000 40000
    (by decide) (by decide)).1⟩

/-- Claim C18, amended: in exact real arithmetic, where no operation rounds, for every Oklab
value with `a = 0` and `b = 0`, whatever `L` and `Alpha`, and so for every Oklch value whose
hue is NaN, `RGBA()` returns equal red, green and blue channels; for finite `L` the linear
channels are all `L^3`, the rows of the matrix summing to 1. -/
theorem C18_neutral_axis (impl : F64 → ℕ) :
    (∀ c : Oklab, c.A = fin 0 → c.B = fin 0 →
      (c.RGBA impl).1 = (c.RGBA impl).2.1 ∧ (c.RGBA impl).2.1 = (c.RGBA impl).2.2.1) ∧
    (∀ y : Oklch, IsNaN y.H →
      (y.RGBA impl).1 = (y.RGBA impl).2.1 ∧ (y.RGBA impl).2.1 = (y.RGBA impl).2.2.1) ∧
    (∀ L : ℝ, labToLinear L 0 0 = (L ^ 3, L ^ 3, L ^ 3)) ∧
    ((4.0767416621 : ℝ) - 3.3077115913 + 0.2309699292 = 1 ∧
      (-1.2684380046 : ℝ) + 2.6097574011 - 0.3413193965 = 1 ∧
      (-0.0041960863 : ℝ) - 0.7034186147 + 1.7076147010 = 1) := by
  refine ⟨?_, ?_, labToLinear_neutral, by norm_num, by norm_num, by norm_num⟩
  · intro c hA hB
    obtain ⟨L, A, B, al⟩ := c
    simp only at hA hB
    subst hA hB
    exact RGBA_neutral impl L al
  · intro y hH
    have h : y.oklab = ⟨y.L, fin 0, fin 0, y.Alpha⟩ := by
      simp [Oklch.oklab, hH]
    show (y.oklab.RGBA impl).1 = (y.oklab.RGBA impl).2.1 ∧
      (y.oklab.RGBA impl).2.1 = (y.oklab.RGBA impl).2.2.1
    rw [h]
    exact RGBA_neutral impl y.L y.Alpha

/-- Claim C18, amended, at the grey `L = 0.5`, `Alpha = 1`. -/
theorem C18_neutral_axis_witness :
    (Oklab.RGBA (fun _ => 0) ⟨fin 0.5, fin 0, fin 0, fin 1⟩).1 =
        (Oklab.RGBA (fun _ => 0) ⟨fin 0.5, fin 0, fin 0, fin 1⟩).2.1 ∧
      (Oklab.RGBA (fun _ => 0) ⟨fin 0.5, fin 0, fin 0, fin 1⟩).2.1 =
        (Oklab.RGBA (fun _ => 0) ⟨fin 0.5, fin 0, fin 0, fin 1⟩).2.2.1 :=
  (C18_neutral_axis (fun _ => 0)).1 ⟨fin 0.5, fin 0, fin 0, fin 1⟩ rfl rfl

/-- The failure of claim C18 in binary64 arithmetic, whatever package `math` computes: the
grey `Oklab{0.015245036872037418, 0, 0, 1}` packs to `(3, 2, 3, 65535)`, and so does the
Oklch value of undefined hue with the same `L`.  The three linear channels are computed by
three different rounded sums and differ in the last bits. -/
theorem C18_counterexample :
    (∀ (lib : b64.Lib) (impl : b64.F → ℕ),
      b64.Oklab.RGBA lib impl
        ⟨b64.F.lit 15245036872037418 18, b64.F.ofUint32 0, b64.F.ofUint32 0,
          b64.F.ofUint32 1⟩ = (3, 2, 3, 65535)) ∧
    (∀ (lib : b64.Lib) (impl : b64.F → ℕ),
      b64.Oklch.RGBA lib impl
        ⟨b64.F.nan, b64.F.ofUint32 0, b64.F.lit 15245036872037418 18,
          b64.F.ofUint32 1⟩ = (3, 2, 3, 65535)) := by
  have key : ∀ (lib : b64.Lib) (impl : b64.F → ℕ),
      b64.Oklab.RGBA lib impl
        ⟨b64.F.lit 15245036872037418 18, b64.F.ofUint32 0, b64.F.ofUint32 0,
          b64.F.ofUint32 1⟩ = (3, 2, 3, 65535) := fun lib impl =>
    b64.RGBA_linear lib impl _ (by decide!) (by decide!) (by decide!) (by decide!) (by decide!)
      (by decide!) (by decide!)
  exact ⟨key, fun lib impl => key lib impl⟩

/-- Claim C19, amended: in exact real arithmetic, where no operation rounds, for every Oklab
value `x` with finite `a`, `b` (both zero included), `RGBA()` of `OklchModel.Convert(x)`
returns the four channels of `x.RGBA()`; and for every Oklch value `y`, `RGBA()` of
`OklabModel.Convert(y)` returns the four channels of `y.RGBA()`, in exact arithmetic and in
binary64 arithmetic alike, both being the same computation. -/
theorem C19_model_change (impl : F64 → ℕ) :
    (∀ (x : Oklab) (a b : ℝ), x.A = fin a → x.B = fin b →
      (OklchModel.Convert (.oklab x)).RGBA impl = x.RGBA impl) ∧
    (∀ y : Oklch, (OklabModel.Convert (.oklch y)).RGBA impl = y.RGBA impl) ∧
    (∀ (lib : b64.Lib) (impl' : b64.F → ℕ) (y : b64.Oklch),
      (b64.OklabModel.Convert lib (.oklch y)).RGBA lib impl' = y.RGBA lib impl') := by
  refine ⟨?_, fun _ => rfl, fun _ _ _ => rfl⟩
  intro x a b hA hB
  obtain ⟨L, A, B, al⟩ := x
  simp only at hA hB
  subst hA hB
  show (Oklab.oklch ⟨L, fin a, fin b, al⟩).oklab.RGBA impl = Oklab.RGBA impl ⟨L, fin a, fin b, al⟩
  rw [oklab_oklch_of_fin]

/-- Claim C19, amended, at an Oklab value with `a = 0.1`, `b = -0.2`. -/
theorem C19_model_change_witness :
    (OklchModel.Convert (.oklab ⟨fin 0.5, fin 0.1, fin (-0.2), fin 1⟩)).RGBA (fun _ => 0) =
      Oklab.RGBA (fun _ => 0) ⟨fin 0.5, fin 0.1, fin (-0.2), fin 1⟩ :=
  (C19_model_change (fun _ => 0)).1 ⟨fin 0.5, fin 0.1, fin (-0.2), fin 1⟩ 0.1 (-0.2) rfl rfl

/-- The failure of claim C19 in binary64 arithmetic, for every implementation of package
`math` with the properties `Lib.AsGo`, which hold of Go's: the Oklab value
`x = Oklab{0.09604981299858718, -0.12, 0, 1}` packs to `(0, 2365, 995, 65535)` and
`OklchModel.Convert(x)` to `(0, 2365, 994, 65535)`.  The hue of `x` is `math.Pi`, whose sine is
not 0 but `1.2246467991473515e-16`, so the way back gives `B = 1.4695761589768218e-17` in place
of 0, which changes the last bit of the short-cone value and with it the blue channel. -/
theorem C19_counterexample :
    b64.pointLib.AsGo ∧
    (∀ (lib : b64.Lib) (impl : b64.F → ℕ), lib.AsGo →
      b64.Oklab.RGBA lib impl
        ⟨b64.F.lit 9604981299858718 17, -b64.F.lit 12 2, b64.F.ofUint32 0,
          b64.F.ofUint32 1⟩ = (0, 2365, 995, 65535) ∧
      (b64.OklchModel.Convert lib (.oklab
        ⟨b64.F.lit 9604981299858718 17, -b64.F.lit 12 2, b64.F.ofUint32 0,
          b64.F.ofUint32 1⟩)).RGBA lib impl = (0, 2365, 994, 65535)) := by
  refine ⟨b64.pointLib_asGo, fun lib impl h => ⟨?_, ?_⟩⟩
  · exact b64.RGBA_linear lib impl _ (by decide!) (by decide!) (by decide!) (by decide!)
      (by decide!) (by decide!) (by decide!)
  · show b64.Oklab.RGBA lib impl (b64.Oklch.oklab lib (b64.Oklab.oklch lib
      ⟨b64.F.lit 9604981299858718 17, -b64.F.lit 12 2, b64.F.ofUint32 0,
        b64.F.ofUint32 1⟩)) = _
    rw [b64.oklch_neg_axis lib h _ (by decide!) (by decide!) (by decide!)]
    simp only [show b64.F.sign (b64.F.ofUint32 0) = false from rfl, Bool.false_eq_true,
      if_false]
    rw [b64.oklab_at_pi lib h]
    exact b64.RGBA_linear lib impl _ (by decide!) (by decide!) (by decide!) (by decide!)
      (by decide!) (by decide!) (by decide!)

/-- Claim C20, amended: on the reals `toNonLinear` does not decrease from `x` to `y >= x`,
except when `x < 0.0031308 <= y < 0.0031308023`: the two pieces do not meet at the threshold,
where the value drops, by less than `3e-8`, and the power piece has made up for the drop at
`0.0031308023`. -/
theorem C20_monotone :
    (∀ x y : ℝ, x ≤ y → ¬ (x < 0.0031308 ∧ 0.0031308 ≤ y ∧ y < 0.0031308023) →
      toNonLinear (fin x) ≤ toNonLinear (fin y)) ∧
    (∀ x y : ℝ, x < 0.0031308 → 0.0031308 ≤ y →
      toNonLinear (fin x) < toNonLinear (fin y) + fin 3e-8) := by
  refine ⟨?_, ?_⟩
  · intro x y hxy h
    rw [toNonLinear_fin, toNonLinear_fin, fin_le_fin]
    rcases lt_or_le y 0.0031308 with hy | hy
    · exact toNonLinearR_mono_lt hxy hy
    · rcases lt_or_le x 0.0031308 with hx | hx
      · rcases lt_or_le y 0.0031308023 with hy' | hy'
        · exact absurd ⟨hx, hy, hy'⟩ h
        · exact toNonLinearR_far hx hy'
      · exact toNonLinearR_mono_ge hx hxy
  · intro x y hx hy
    rw [toNonLinear_fin, toNonLinear_fin, fin_add_fin, fin_lt_fin]
    exact toNonLinearR_across hx hy

/-- Claim C20, amended, on each side of the threshold, from one side to the other, and across
the threshold. -/
theorem C20_monotone_witness :
    toNonLinear (fin 0.001) ≤ toNonLinear (fin 0.002) ∧
      toNonLinear (fin 0.25) ≤ toNonLinear (fin 0.5) ∧
      toNonLinear (fin 0.001) ≤ toNonLinear (fin 0.5) ∧
      toNonLinear (fin 0.003130799) < toNonLinear (fin 0.0031308) + fin 3e-8 :=
  ⟨C20_monotone.1 0.001 0.002 (by norm_num) (by norm_num),
    C20_monotone.1 0.25 0.5 (by norm_num) (by norm_num),
    C20_monotone.1 0.001 0.5 (by norm_num) (by norm_num),
    C20_monotone.2 0.003130799 0.0031308 (by norm_num) (by norm_num)⟩

/-- Claim C20 as stated fails across the threshold: `0.003130799 <= 0.0031308`, and
`toNonLinear(0.003130799)` is greater than `toNonLinear(0.0031308)`. -/
theorem C20_counterexample :
    (0.003130799 : ℝ) ≤ 0.0031308 ∧
      ¬ (toNonLinear (fin 0.003130799) ≤ toNonLinear (fin 0.0031308)) := by
  refine ⟨by norm_num, ?_⟩
  rw [toNonLinear_fin, toNonLinear_fin, fin_le_fin]
  exact not_le.mpr toNonLinearR_drop

end oklab
